import Mathlib

/-!
Verification development for the `py_literal` crate: a parser and ASCII
formatter for Python literal values.

The `Value` data model and the semantic constructors (`parse_value`,
`parse_number_expr`, `parse_string`, `parse_bytes`, `parse_integer`,
`parse_float`, `parse_imag`, `add_numbers`, `sub_numbers`, `int_to_f64`)
are embedded from `src/parse.rs` / `src/lib.rs`; the ASCII formatter
(`write_ascii`, `format_ascii`) is embedded from `src/format.rs`.

The pest grammar file (`grammar.pest`) is not part of the sources, so the
tokenizer that produces the concrete parse tree is modelled from the
specification's grammar section; those definitions are marked
"Modelled from the spec".

Rust `f64` values are embedded exactly as IEEE-754 binary64 data:
a canonical dyadic mantissa/exponent pair together with signed zeros,
infinities and NaN, with correctly rounded decimal conversions.
-/

set_option maxRecDepth 100000
set_option exponentiation.threshold 5000

namespace PyLit

/-! ### Decimal and hexadecimal digit utilities -/

/-- The ASCII digit character for `n < 10`. -/
def digitChar (n : Nat) : Char := Char.ofNat (48 + n)

/-- Lowercase hex digit character for `n < 16` (as produced by Rust `{:x}`). -/
def hexChar (n : Nat) : Char := if n < 10 then Char.ofNat (48 + n) else Char.ofNat (87 + n)

/-- Fuel-driven decimal digit expansion (most significant digit first). -/
def natDigitsAux : Nat → Nat → List Char
  | 0, _ => []
  | f+1, n => if n < 10 then [digitChar n] else natDigitsAux f (n / 10) ++ [digitChar (n % 10)]

/-- Decimal digit string of a natural number, as a list of characters. -/
def natDigits (n : Nat) : List Char := natDigitsAux (n + 1) n

/-- Fuel-driven hexadecimal digit expansion (most significant digit first). -/
def natHexAux : Nat → Nat → List Char
  | 0, _ => []
  | f+1, n => if n < 16 then [hexChar n] else natHexAux f (n / 16) ++ [hexChar (n % 16)]

/-- Lowercase hexadecimal digit string of a natural number. -/
def natHex (n : Nat) : List Char := natHexAux (n + 1) n

/-- Hex digits of `n` left-padded with `0` to width `w` (Rust `{:0>w$x}`). -/
def natHexPad (w n : Nat) : List Char :=
  List.replicate (w - (natHex n).length) '0' ++ natHex n

/-- Numeric value of a (decimal or hex) digit character. -/
def digVal (c : Char) : Nat :=
  if 48 ≤ c.toNat ∧ c.toNat ≤ 57 then c.toNat - 48
  else if 97 ≤ c.toNat ∧ c.toNat ≤ 102 then c.toNat - 87
  else if 65 ≤ c.toNat ∧ c.toNat ≤ 70 then c.toNat - 55
  else 0

/-- Value of a digit string in radix `r` (the model of `from_str_radix` on
the digit characters collected by the grammar, which never include a sign). -/
def foldRadix (r : Nat) (cs : List Char) : Nat :=
  cs.foldl (fun a c => a * r + digVal c) 0

/-- Decimal rendering of an integer: sign followed by digits
(the model of `num_bigint::BigInt`'s `Display`). -/
def intDisplay (i : Int) : List Char :=
  if i < 0 then '-' :: natDigits i.natAbs else natDigits i.natAbs

/-! ### Exact binary64 arithmetic

`F64` represents an IEEE-754 binary64 datum exactly.  Finite nonzero values
are kept in canonical form: an odd signed mantissa `m` with exponent `e`
denoting the real number `m * 2^e`.  Conversions round to nearest, ties to
even, exactly as IEEE-754 (and hence Rust) requires. -/

/-- Fuel-driven binary length: number of bits of `n`. -/
def blenAux : Nat → Nat → Nat
  | 0, _ => 0
  | f+1, n => if n = 0 then 0 else blenAux f (n / 2) + 1

/-- Number of binary digits of `n` (`blen 0 = 0`, `2^(blen n - 1) ≤ n < 2^(blen n)`). -/
def blen (n : Nat) : Nat := blenAux (n + 1) n

/-- Decides `2^e ≤ n / d` for positive `n, d`, by cross-multiplication. -/
def pow2le (e : Int) (n d : Nat) : Bool :=
  d * 2 ^ e.toNat ≤ n * 2 ^ (-e).toNat

/-- Binary exponent of `n / d`: the unique `e` with `2^e ≤ n/d < 2^(e+1)`
(for positive `n`, `d`). -/
def expOf (n d : Nat) : Int :=
  let e0 : Int := (blen n : Int) - (blen d : Int)
  if pow2le e0 n d then e0 else e0 - 1

/-- Round `a / b` to the nearest natural number, ties to even (`b > 0`). -/
def rhe (a b : Nat) : Nat :=
  let fl := a / b
  let r := a % b
  if 2 * r < b then fl
  else if b < 2 * r then fl + 1
  else if fl % 2 = 0 then fl else fl + 1

/-- Strip factors of two from the mantissa, moving them into the exponent
(canonicalization; fuel-driven). -/
def stripTwos : Nat → Nat → Int → Nat × Int
  | 0, m, e => (m, e)
  | f+1, m, e => if m % 2 = 0 ∧ m ≠ 0 then stripTwos f (m / 2) (e + 1) else (m, e)

/-- An IEEE-754 binary64 datum, exactly.  `finite m e` is canonical:
`m` odd, value `m * 2^e`. -/
inductive F64 where
  | nan : F64
  | inf (neg : Bool) : F64
  | zero (neg : Bool) : F64
  | finite (m : Int) (e : Int) : F64
  deriving DecidableEq

/-- Round the positive rational `n / d` (with sign flag `neg`) to the nearest
binary64 value, ties to even, with IEEE overflow to infinity and underflow to
signed zero. -/
def roundRat (neg : Bool) (n d : Nat) : F64 :=
  if n = 0 then .zero neg
  else
    let e := expOf n d
    let s := max (e - 52) (-1074)
    let m0 := rhe (n * 2 ^ (-s).toNat) (d * 2 ^ s.toNat)
    if m0 = 0 then .zero neg
    else if 2 ^ 1024 * 2 ^ (-s).toNat ≤ m0 * 2 ^ s.toNat then .inf neg
    else
      let p := stripTwos 64 m0 s
      .finite (if neg then -(p.1 : Int) else (p.1 : Int)) p.2

/-- The binary64 value of the decimal `D * 10^exp` with sign `neg`
(the model of Rust's correctly rounded `str::parse::<f64>`). -/
def decToF64 (neg : Bool) (D : Nat) (exp : Int) : F64 :=
  if 0 ≤ exp then roundRat neg (D * 10 ^ exp.toNat) 1
  else roundRat neg D (10 ^ (-exp).toNat)

namespace F64

/-- IEEE negation: flips the sign bit. -/
def neg : F64 → F64
  | .nan => .nan
  | .inf s => .inf (!s)
  | .zero s => .zero (!s)
  | .finite m e => .finite (-m) e

/-- IEEE binary64 addition (round to nearest, ties to even). -/
def add : F64 → F64 → F64
  | .nan, _ => .nan
  | _, .nan => .nan
  | .inf s, .inf t => if s = t then .inf s else .nan
  | .inf s, _ => .inf s
  | _, .inf t => .inf t
  | .zero a, .zero b => .zero (a && b)
  | .zero _, x => x
  | x, .zero _ => x
  | .finite m1 e1, .finite m2 e2 =>
    let em := min e1 e2
    let s := m1 * 2 ^ (e1 - em).toNat + m2 * 2 ^ (e2 - em).toNat
    if s = 0 then .zero false
    else if 0 ≤ em then roundRat (s < 0) (s.natAbs * 2 ^ em.toNat) 1
    else roundRat (s < 0) s.natAbs (2 ^ (-em).toNat)

/-- IEEE binary64 subtraction: `a - b = a + (-b)` exactly. -/
def sub (a b : F64) : F64 := add a (neg b)

/-- Rust `PartialEq` on `f64`: `NaN ≠ NaN`, `-0.0 == 0.0`. -/
def req : F64 → F64 → Bool
  | .nan, _ => false
  | _, .nan => false
  | .zero _, .zero _ => true
  | .inf a, .inf b => a == b
  | .finite m e, .finite m' e' => m == m' && e == e'
  | _, _ => false

end F64

/-- A complex number made of two binary64 components
(the model of `num_complex::Complex<f64>`). -/
structure C64 where
  re : F64
  im : F64

/-- `f64 + Complex` (num_complex): `(f + re, im)`. -/
def fAddC (f : F64) (c : C64) : C64 := ⟨f.add c.re, c.im⟩

/-- `f64 - Complex` (num_complex): `(f - re, 0 - im)`. -/
def fSubC (f : F64) (c : C64) : C64 := ⟨f.sub c.re, (F64.zero false).sub c.im⟩

/-- `Complex - f64` (num_complex): `(re - f, im)`. -/
def cSubF (c : C64) (f : F64) : C64 := ⟨c.re.sub f, c.im⟩

/-- `Complex + f64` (num_complex): `(re + f, im)`. -/
def cAddF (c : C64) (f : F64) : C64 := ⟨c.re.add f, c.im⟩

/-- `Complex + Complex`: componentwise. -/
def cAddC (a b : C64) : C64 := ⟨a.re.add b.re, a.im.add b.im⟩

/-- `Complex - Complex`: componentwise. -/
def cSubC (a b : C64) : C64 := ⟨a.re.sub b.re, a.im.sub b.im⟩

/-- Rust `PartialEq` on `Complex<f64>`: componentwise `f64` equality. -/
def cReq (a b : C64) : Bool := a.re.req b.re && a.im.req b.im

/-! ### Shortest round-tripping decimal rendering of binary64

Rust's `Display` and `LowerExp` for `f64` print the shortest decimal digit
string that parses back (with correct rounding) to the same value.  The
model below searches precisions 1..17 for the first rounded candidate whose
correctly rounded parse returns the input, with the exact decimal expansion
of the dyadic as a final fallback; the round-trip property therefore holds
by construction, matching the guarantee of the Rust formatter. -/

/-- `⌊log10 (n/d)⌋` for positive `n`, `d`: the decimal exponent used to place
the digits of a float rendering. -/
def leastTenAux : Nat → Nat → Nat → Nat → Nat
  | 0, t, _, _ => t
  | f+1, t, n, d => if d ≤ n * 10 ^ t then t else leastTenAux f (t + 1) n d

/-- Decimal exponent `⌊log10 (n/d)⌋`. -/
def decExp10 (n d : Nat) : Int :=
  if d ≤ n then ((natDigits (n / d)).length : Int) - 1
  else -(leastTenAux 400 1 n d : Int)

/-- The decimal significand of `n/d` rounded to `p` significant digits
(given the decimal exponent `k`), together with the possibly adjusted
decimal exponent. -/
def candAt (n d : Nat) (k : Int) (p : Nat) : Nat × Int :=
  let pI : Int := (p : Int) - 1 - k
  let n10 := rhe (n * 10 ^ pI.toNat) (d * 10 ^ (-pI).toNat)
  if n10 = 10 ^ p then (10 ^ (p - 1), k + 1) else (n10, k)

/-- Does the candidate `(D, k)` at precision `p` parse back (with correct
rounding) to exactly the value `μ * 2^e`? -/
def candOk (μ : Nat) (e : Int) (p : Nat) (c : Nat × Int) : Bool :=
  (natDigits c.1).length = p && decToF64 false c.1 (c.2 - (p : Int) + 1) = F64.finite (μ : Int) e

/-- Search the precisions `p, p+1, ...` (fuel-bounded) for the first
round-tripping candidate. -/
def searchDigitsAux (μ : Nat) (e : Int) (n d : Nat) (k : Int) : Nat → Nat → Option (Nat × Int)
  | 0, _ => Option.none
  | f+1, p =>
    let c := candAt n d k p
    if candOk μ e p c then some c else searchDigitsAux μ e n d k f (p + 1)

/-- Decimal digits (as an integer `D`) and decimal exponent `k` rendering the
positive binary64 value `μ * 2^e`: the shortest round-tripping decimal, with
the exact decimal expansion as fallback.  The value denoted is
`D * 10^(k - len(D) + 1)`. -/
def floatDigits (μ : Nat) (e : Int) : Nat × Int :=
  let n := if 0 ≤ e then μ * 2 ^ e.toNat else μ
  let d := if 0 ≤ e then 1 else 2 ^ (-e).toNat
  let k := decExp10 n d
  match searchDigitsAux μ e n d k 17 1 with
  | some c => c
  | Option.none =>
    if 0 ≤ e then
      let D := μ * 2 ^ e.toNat
      (D, ((natDigits D).length : Int) - 1)
    else
      let D := μ * 5 ^ (-e).toNat
      (D, ((natDigits D).length : Int) - 1 + e)

/-- Render digits/exponent in Rust `Display` style (never an exponent):
`"300"`, `"3.12"`, `"0.05"`. -/
def displayRender (ds : List Char) (k : Int) : List Char :=
  if (ds.length : Int) - 1 ≤ k then ds ++ List.replicate (k - (ds.length : Int) + 1).toNat '0'
  else if 0 ≤ k then ds.take (k + 1).toNat ++ '.' :: ds.drop (k + 1).toNat
  else '0' :: '.' :: List.replicate (-k - 1).toNat '0' ++ ds

/-- Render digits/exponent in Rust `LowerExp` style: `"3e2"`, `"3.12e-5"`. -/
def lowerExpRender (ds : List Char) (k : Int) : List Char :=
  match ds with
  | [] => []
  | c :: rest =>
    c :: (if rest.isEmpty then [] else '.' :: rest) ++ 'e' :: intDisplay k

/-- Rust `Display` for `f64` (used by the `Complex` formatting arm). -/
def fmtDisplay : F64 → List Char
  | .nan => ['N', 'a', 'N']
  | .inf s => if s then '-' :: ['i', 'n', 'f'] else ['i', 'n', 'f']
  | .zero s => if s then ['-', '0'] else ['0']
  | .finite m e =>
    let p := floatDigits m.natAbs e
    (if m < 0 then ['-'] else []) ++ displayRender (natDigits p.1) p.2

/-- Rust `LowerExp` (`{:e}`) for `f64` (used by the `Float` formatting arm). -/
def fmtLowerExp : F64 → List Char
  | .nan => ['N', 'a', 'N']
  | .inf s => if s then '-' :: ['i', 'n', 'f'] else ['i', 'n', 'f']
  | .zero s => if s then ['-', '0', 'e', '0'] else ['0', 'e', '0']
  | .finite m e =>
    let p := floatDigits m.natAbs e
    (if m < 0 then ['-'] else []) ++ lowerExpRender (natDigits p.1) p.2

/-- Rust `{:+}` (`Display` with an explicit sign) for `f64`.  The float
formatter prints a sign for every number — `+` when the sign bit is clear,
`-` when it is set — but never for NaN (`flt2dec`'s `determine_sign`
returns the empty sign for NaN), so NaN renders unsigned as `NaN`. -/
def fmtDisplayPlus (f : F64) : List Char :=
  match f with
  | .nan => fmtDisplay f
  | .inf true => fmtDisplay f
  | .zero true => fmtDisplay f
  | .finite m _ => if m < 0 then fmtDisplay f else '+' :: fmtDisplay f
  | _ => '+' :: fmtDisplay f

/-! ### The `Value` data model (from `src/lib.rs`)

Rust's `Vec<Value>` fields become the mutual list types `VList` / `VPairs`
so that all recursion over values is structural. -/

mutual

/-- Python literal value (`py_literal::Value`). -/
inductive Value where
  | string (s : List Char)
  | bytes (b : List Nat)
  | integer (i : Int)
  | float (f : F64)
  | complex (c : C64)
  | tuple (elems : VList)
  | list (elems : VList)
  | dict (pairs : VPairs)
  | set (elems : VList)
  | boolean (b : Bool)
  | none

/-- A sequence of values (`Vec<Value>`). -/
inductive VList where
  | nil
  | cons (head : Value) (tail : VList)

/-- A sequence of key/value pairs (`Vec<(Value, Value)>`). -/
inductive VPairs where
  | nil
  | cons (key : Value) (val : Value) (tail : VPairs)

end

mutual

/-- Rust's derived `PartialEq` on `Value` (structural, with IEEE semantics
on `f64` payloads: `NaN ≠ NaN`, `-0.0 == 0.0`). -/
def Value.req : Value → Value → Bool
  | .string s, .string t => s == t
  | .bytes a, .bytes b => a == b
  | .integer a, .integer b => a == b
  | .float a, .float b => a.req b
  | .complex a, .complex b => cReq a b
  | .tuple a, .tuple b => VList.req a b
  | .list a, .list b => VList.req a b
  | .dict a, .dict b => VPairs.req a b
  | .set a, .set b => VList.req a b
  | .boolean a, .boolean b => a == b
  | .none, .none => true
  | _, _ => false

/-- Elementwise `PartialEq` on value sequences. -/
def VList.req : VList → VList → Bool
  | .nil, .nil => true
  | .cons a as, .cons b bs => a.req b && VList.req as bs
  | _, _ => false

/-- Elementwise `PartialEq` on pair sequences. -/
def VPairs.req : VPairs → VPairs → Bool
  | .nil, .nil => true
  | .cons k v kvs, .cons k' v' kvs' => k.req k' && v.req v' && VPairs.req kvs kvs'
  | _, _ => false

end

/-! ### The ASCII formatter (from `src/format.rs`) -/

/-- Error formatting a Python literal (`py_literal::FormatError`).  The model
writer (an in-memory buffer) never fails, so `Io` is never produced. -/
inductive FormatError where
  | Io
  | EmptySet
  deriving DecidableEq

/-- The backslash character. -/
def bslash : Char := Char.ofNat 92

/-- The single-quote character. -/
def squote : Char := Char.ofNat 39

/-- The left curly brace character. -/
def lbrace : Char := Char.ofNat 123

/-- The right curly brace character. -/
def rbrace : Char := Char.ofNat 125

/-- The escaping of one `char` by the `Value::String` arm of `write_ascii`:
backslash, CR, LF and single quote become two-character escapes, any other
ASCII character is written raw, and any other code point is written as
`\xHH`, `\uHHHH` or `\UHHHHHHHH` by magnitude. -/
def escStrChar (c : Char) : List Char :=
  if c = bslash then [bslash, bslash]
  else if c = '\r' then [bslash, 'r']
  else if c = '\n' then [bslash, 'n']
  else if c = squote then [bslash, squote]
  else if c.toNat ≤ 127 then [c]
  else if c.toNat ≤ 0xff then bslash :: 'x' :: natHexPad 2 c.toNat
  else if c.toNat ≤ 0xffff then bslash :: 'u' :: natHexPad 4 c.toNat
  else bslash :: 'U' :: natHexPad 8 c.toNat

/-- The escaping of one byte by the `Value::Bytes` arm of `write_ascii`. -/
def escByte (b : Nat) : List Char :=
  if b = 92 then [bslash, bslash]
  else if b = 13 then [bslash, 'r']
  else if b = 10 then [bslash, 'n']
  else if b = 39 then [bslash, squote]
  else if b ≤ 127 then [Char.ofNat b]
  else bslash :: 'x' :: natHexPad 2 b

/-- Result of a streaming write: the accumulated output on success, or the
error together with the output already written when it occurred. -/
abbrev WRes := Except (FormatError × List Char) (List Char)

mutual

/-- `Value::write_ascii` from `src/format.rs`, writing to an in-memory
buffer `acc` (the accumulated output so far). -/
def write_ascii : Value → List Char → WRes
  | .string s, acc => .ok (acc ++ squote :: s.flatMap escStrChar ++ [squote])
  | .bytes bs, acc => .ok (acc ++ 'b' :: squote :: bs.flatMap escByte ++ [squote])
  | .integer i, acc => .ok (acc ++ intDisplay i)
  | .float f, acc => .ok (acc ++ fmtLowerExp f)
  | .complex c, acc => .ok (acc ++ fmtDisplay c.re ++ fmtDisplayPlus c.im ++ ['j'])
  | .tuple .nil, acc => .ok (acc ++ ['(', ')'])
  | .tuple (.cons v .nil), acc =>
    match write_ascii v (acc ++ ['(']) with
    | .error e => .error e
    | .ok a => .ok (a ++ [',', ')'])
  | .tuple (.cons v rest), acc =>
    match write_ascii v (acc ++ ['(']) with
    | .error e => .error e
    | .ok a =>
      match writeSeqRest rest a with
      | .error e => .error e
      | .ok a => .ok (a ++ [')'])
  | .list .nil, acc => .ok (acc ++ ['[', ']'])
  | .list (.cons v rest), acc =>
    match write_ascii v (acc ++ ['[']) with
    | .error e => .error e
    | .ok a =>
      match writeSeqRest rest a with
      | .error e => .error e
      | .ok a => .ok (a ++ [']'])
  | .dict .nil, acc => .ok (acc ++ [lbrace, rbrace])
  | .dict (.cons k v rest), acc =>
    match write_ascii k (acc ++ [lbrace]) with
    | .error e => .error e
    | .ok a =>
      match write_ascii v (a ++ [':', ' ']) with
      | .error e => .error e
      | .ok a =>
        match writeDictRest rest a with
        | .error e => .error e
        | .ok a => .ok (a ++ [rbrace])
  | .set .nil, acc => .error (.EmptySet, acc)
  | .set (.cons v rest), acc =>
    match write_ascii v (acc ++ [lbrace]) with
    | .error e => .error e
    | .ok a =>
      match writeSeqRest rest a with
      | .error e => .error e
      | .ok a => .ok (a ++ [rbrace])
  | .boolean b, acc => .ok (acc ++ (if b then ['T', 'r', 'u', 'e'] else ['F', 'a', 'l', 's', 'e']))
  | .none, acc => .ok (acc ++ ['N', 'o', 'n', 'e'])

/-- The `", "`-separated tail loop of the tuple/list/set arms. -/
def writeSeqRest : VList → List Char → WRes
  | .nil, acc => .ok acc
  | .cons v rest, acc =>
    match write_ascii v (acc ++ [',', ' ']) with
    | .error e => .error e
    | .ok a => writeSeqRest rest a

/-- The `", "`-separated tail loop of the dict arm. -/
def writeDictRest : VPairs → List Char → WRes
  | .nil, acc => .ok acc
  | .cons k v rest, acc =>
    match write_ascii k (acc ++ [',', ' ']) with
    | .error e => .error e
    | .ok a =>
      match write_ascii v (a ++ [':', ' ']) with
      | .error e => .error e
      | .ok a => writeDictRest rest a

end

/-- `Value::format_ascii` from `src/format.rs`: write to a fresh buffer and
return it as a string (the internal assertion that the buffer is ASCII is
the subject of claim C5). -/
def format_ascii (v : Value) : Except FormatError (List Char) :=
  match write_ascii v [] with
  | .ok s => .ok s
  | .error e => .error e.1

/-! ### Parse errors and panics (from `src/parse.rs`) -/

/-- Error parsing a Python literal (`py_literal::ParseError`). -/
inductive ParseError where
  | Syntax (msg : String)
  | IllegalEscapeSequence (msg : String)
  | ParseFloat
  | NumericCast (value : String) (toType : String)
  deriving DecidableEq

/-- A reason for a Rust panic: `.unwrap()` on an `Err`, `unreachable!()`,
or `unimplemented!()`. -/
inductive CrashReason where
  | unwrapErr (e : ParseError)
  | unreachableCode
  | unimplementedCode
  deriving DecidableEq

/-- The outcome of running a fallible Rust function: a value, an `Err`
returned to the caller, or a panic (which aborts the computation and is
*not* a returned error). -/
inductive Outcome (α : Type) where
  | ok (a : α)
  | err (e : ParseError)
  | crash (r : CrashReason)

/-- Apply a function to the value of a successful outcome. -/
def Outcome.map {α β : Type} (f : α → β) : Outcome α → Outcome β
  | .ok a => .ok (f a)
  | .err e => .err e
  | .crash r => .crash r

instance : Monad Outcome where
  pure := .ok
  bind x f :=
    match x with
    | .ok a => f a
    | .err e => .err e
    | .crash r => .crash r
  map := Outcome.map

/-! ### Concrete parse trees

The pest grammar (`grammar.pest`) produces token pairs that the semantic
constructors in `src/parse.rs` walk.  These inductives mirror the pairs the
constructors match on (the rules named in `parse.rs`). -/

/-- An escape sequence inside a string literal (`Rule::string_escape_seq`):
the alternatives matched by `parse_string_escape_seq`. -/
inductive EscSeq where
  | charE (c : Char)            -- `Rule::char_escape`: the character after the backslash
  | octalE (digs : List Char)   -- `Rule::octal_escape`: 1-3 octal digits
  | hexE (digs : List Char)     -- `Rule::hex_escape`: the 2 hex digits after `\x`
  | unicodeE (digs : List Char) -- `Rule::unicode_hex_escape`: 4 or 8 hex digits after `\u`/`\U`
  | nameE                       -- `Rule::name_escape`: `\N{...}`

/-- An item of a string body (`Rule::short_string_body` contents). -/
inductive StrItem where
  | nonEscape (s : List Char)      -- `Rule::*_string_non_escape`
  | unknownEscape (s : List Char)  -- `Rule::string_unknown_escape` (kept verbatim)
  | lineCont                       -- `Rule::line_continuation_seq`
  | escapeSeq (e : EscSeq)         -- `Rule::string_escape_seq`

/-- An escape sequence inside a bytes literal (`Rule::bytes_escape_seq`):
note there is no unicode alternative — `parse_bytes_escape_seq` matches only
char, octal and hex escapes. -/
inductive BEscSeq where
  | charB (c : Char)
  | octalB (digs : List Char)
  | hexB (digs : List Char)

/-- An item of a bytes body. -/
inductive BytItem where
  | nonEscapeB (s : List Char)
  | unknownEscapeB (s : List Char)
  | lineContB
  | escapeSeqB (e : BEscSeq)

/-- A flattened piece of a float literal, as matched by `parse_float`
(`Rule::digit`, `Rule::fraction`, `Rule::pos_exponent`, `Rule::neg_exponent`). -/
inductive FloatPiece where
  | digitP (c : Char)
  | fractionP
  | posExpP
  | negExpP

/-- An integer literal with its radix (`Rule::bin_integer` etc.), carrying
its digit characters (separators already dropped by the grammar). -/
inductive IntNode where
  | binI (digs : List Char)
  | octI (digs : List Char)
  | hexI (digs : List Char)
  | decI (digs : List Char)

/-- An imaginary literal body (`Rule::imag`): a float or a bare digit run. -/
inductive ImagNode where
  | floatI (ps : List FloatPiece)
  | digitsI (digs : List Char)

/-- A numeric literal (`Rule::number`). -/
inductive NumberNode where
  | imagN (i : ImagNode)
  | floatN (ps : List FloatPiece)
  | intN (n : IntNode)

/-- A token inside a numeric expression (`Rule::number_expr`): the grammar
emits a pair per unary/binary minus sign and per numeric literal; plus signs
produce no pair. -/
inductive NumTok where
  | minusTok
  | numTok (n : NumberNode)

mutual

/-- A parsed value node (`Rule::value` contents), as dispatched on by
`parse_value`. -/
inductive VTree where
  | strT (items : List StrItem)
  | bytesT (items : List BytItem)
  | numExprT (toks : List NumTok)
  | tupleT (elems : TList)
  | listT (elems : TList)
  | dictT (pairs : TPairs)
  | setT (elems : TList)
  | booleanT (b : Bool)
  | noneT

/-- A sequence of value nodes. -/
inductive TList where
  | nil
  | cons (head : VTree) (tail : TList)

/-- A sequence of key/value node pairs (`Rule::dict` contents). -/
inductive TPairs where
  | nil
  | cons (key : VTree) (val : VTree) (tail : TPairs)

end

/-! ### Semantic constructors (from `src/parse.rs`) -/

/-- `parse_string_escape_seq` from `src/parse.rs`. -/
def parse_string_escape_seq : EscSeq → Outcome Char
  | .charE c =>
    if c = bslash then .ok bslash
    else if c = squote then .ok squote
    else if c = '"' then .ok '"'
    else if c = 'a' then .ok (Char.ofNat 0x07)
    else if c = 'b' then .ok (Char.ofNat 0x08)
    else if c = 'f' then .ok (Char.ofNat 0x0C)
    else if c = 'n' then .ok '\n'
    else if c = 'r' then .ok '\r'
    else if c = 't' then .ok '\t'
    else if c = 'v' then .ok (Char.ofNat 0x0B)
    else .crash .unreachableCode
  | .octalE digs =>
    let n := foldRadix 8 digs
    if n.isValidChar then .ok (Char.ofNat n)
    else .err (.IllegalEscapeSequence "Octal escape is invalid")
  | .hexE digs =>
    let n := foldRadix 16 digs
    if n.isValidChar then .ok (Char.ofNat n)
    else .err (.IllegalEscapeSequence "Hex escape is invalid")
  | .unicodeE digs =>
    let n := foldRadix 16 digs
    if n.isValidChar then .ok (Char.ofNat n)
    else .err (.IllegalEscapeSequence "Hex escape is invalid")
  | .nameE => .err (.IllegalEscapeSequence "Unicode name escapes are not supported.")

/-- `parse_string` from `src/parse.rs`, at the level of the string body's
items: literal runs and unknown escapes are pushed verbatim, line
continuations contribute nothing, escape sequences are decoded. -/
def parse_string : List StrItem → Outcome (List Char)
  | [] => .ok []
  | .nonEscape s :: rest => (parse_string rest).map (s ++ ·)
  | .unknownEscape s :: rest => (parse_string rest).map (s ++ ·)
  | .lineCont :: rest => parse_string rest
  | .escapeSeq e :: rest => do
    let c ← parse_string_escape_seq e
    let out ← parse_string rest
    pure (c :: out)

/-- `parse_bytes_escape_seq` from `src/parse.rs`: octal escapes fail when
the value does not fit in a `u8`; hex escapes (2 digits) always fit. -/
def parse_bytes_escape_seq : BEscSeq → Outcome Nat
  | .charB c =>
    if c = bslash then .ok 92
    else if c = squote then .ok 39
    else if c = '"' then .ok 34
    else if c = 'a' then .ok 0x07
    else if c = 'b' then .ok 0x08
    else if c = 'f' then .ok 0x0C
    else if c = 'n' then .ok 10
    else if c = 'r' then .ok 13
    else if c = 't' then .ok 9
    else if c = 'v' then .ok 0x0B
    else .crash .unreachableCode
  | .octalB digs =>
    let n := foldRadix 8 digs
    if n ≤ 255 then .ok n
    else .err (.IllegalEscapeSequence "failed to parse octal escape as u8")
  | .hexB digs => .ok (foldRadix 16 digs)

/-- `parse_bytes` from `src/parse.rs`, at the level of the bytes body's
items (literal runs are ASCII, so their bytes are the characters' code
points). -/
def parse_bytes : List BytItem → Outcome (List Nat)
  | [] => .ok []
  | .nonEscapeB s :: rest => (parse_bytes rest).map (s.map Char.toNat ++ ·)
  | .unknownEscapeB s :: rest => (parse_bytes rest).map (s.map Char.toNat ++ ·)
  | .lineContB :: rest => parse_bytes rest
  | .escapeSeqB e :: rest => do
    let b ← parse_bytes_escape_seq e
    let out ← parse_bytes rest
    pure (b :: out)

/-- `parse_integer` from `src/parse.rs`: concatenate the digit pairs and
parse in the radix given by the rule (`from_str_radix`); the grammar
guarantees digit validity, so this is total. -/
def parse_integer : IntNode → Int
  | .binI digs => (foldRadix 2 digs : Int)
  | .octI digs => (foldRadix 8 digs : Int)
  | .hexI digs => (foldRadix 16 digs : Int)
  | .decI digs => (foldRadix 10 digs : Int)

/-- Accumulator for reading off the pieces of a float literal in order. -/
structure FpAcc where
  intD : List Char
  fracD : List Char
  expD : List Char
  negE : Bool
  phase : Nat

/-- Split the flattened float pieces into integer digits, fraction digits
and (signed) exponent digits, in the order `parse_float` pushes them onto
its parsable string. -/
def fpSplit : List FloatPiece → FpAcc → FpAcc
  | [], a => a
  | .digitP c :: rest, a =>
    if a.phase = 0 then fpSplit rest { a with intD := a.intD ++ [c] }
    else if a.phase = 1 then fpSplit rest { a with fracD := a.fracD ++ [c] }
    else fpSplit rest { a with expD := a.expD ++ [c] }
  | .fractionP :: rest, a => fpSplit rest { a with phase := 1 }
  | .posExpP :: rest, a => fpSplit rest { a with phase := 2, negE := false }
  | .negExpP :: rest, a => fpSplit rest { a with phase := 2, negE := true }

/-- `parse_float` from `src/parse.rs`: assemble the canonical decimal float
string from the pieces and parse it with Rust's `str::parse::<f64>`, which
is the correctly rounded decimal-to-binary64 conversion (modelled by
`decToF64`; overflow yields infinity, underflow signed zero). -/
def parse_float (ps : List FloatPiece) : Outcome F64 :=
  let a := fpSplit ps ⟨[], [], [], false, 0⟩
  let A := foldRadix 10 (a.intD ++ a.fracD)
  let E : Int := if a.negE then -(foldRadix 10 a.expD : Int) else (foldRadix 10 a.expD : Int)
  .ok (decToF64 false A (E - a.fracD.length))

/-- `parse_imag` from `src/parse.rs`: the magnitude is a float literal or a
bare digit run, and the result is `Complex::new(0., imag)`. -/
def parse_imag (i : ImagNode) : Outcome Value := do
  let f ← match i with
    | .floatI ps => parse_float ps
    | .digitsI digs => pure (decToF64 false (foldRadix 10 digs) 0)
  pure (.complex ⟨.zero false, f⟩)

/-- `parse_number` from `src/parse.rs`. -/
def parse_number : NumberNode → Outcome Value
  | .imagN i => parse_imag i
  | .floatN ps => (parse_float ps).map .float
  | .intN n => .ok (.integer (parse_integer n))

/-- The conversion behind `num_bigint`'s `BigInt::to_f64`.  Modelled from
the spec and the dependency's documented contract (the dependency is not
part of `src/`): the conversion fails (returns `None`) exactly when the
integer's magnitude is too large to fit in an `f64`, i.e. when correct
rounding would overflow to infinity; otherwise it is the rounded value. -/
def bigIntToF64 (i : Int) : Option F64 :=
  if i = 0 then some (.zero false)
  else
    match roundRat (i < 0) i.natAbs 1 with
    | .inf _ => Option.none
    | f => some f

/-- `int_to_f64` from `src/parse.rs`: a failing conversion becomes a
`NumericCast` error naming the offending value and the target type. -/
def int_to_f64 (i : Int) : Outcome F64 :=
  match bigIntToF64 i with
  | some f => .ok f
  | Option.none => .err (.NumericCast (String.mk (intDisplay i)) "f64")

/-- `add_numbers` from `src/parse.rs`: the promotion table for `+`.
Non-numeric operands hit the `unimplemented!()` arm, which panics. -/
def add_numbers : Value → Value → Outcome Value
  | .integer a, .integer b => .ok (.integer (a + b))
  | .float a, .float b => .ok (.float (a.add b))
  | .complex a, .complex b => .ok (.complex (cAddC a b))
  | .integer i, .float f => (int_to_f64 i).map fun x => .float (x.add f)
  | .float f, .integer i => (int_to_f64 i).map fun x => .float (x.add f)
  | .integer i, .complex c => (int_to_f64 i).map fun x => .complex (fAddC x c)
  | .complex c, .integer i => (int_to_f64 i).map fun x => .complex (fAddC x c)
  | .float f, .complex c => .ok (.complex (fAddC f c))
  | .complex c, .float f => .ok (.complex (fAddC f c))
  | _, _ => .crash .unimplementedCode

/-- `sub_numbers` from `src/parse.rs`: the promotion table for `-`
(operand order preserved). -/
def sub_numbers : Value → Value → Outcome Value
  | .integer a, .integer b => .ok (.integer (a - b))
  | .integer i, .float f => (int_to_f64 i).map fun x => .float (x.sub f)
  | .integer i, .complex c => (int_to_f64 i).map fun x => .complex (fSubC x c)
  | .float f, .integer i => (int_to_f64 i).map fun x => .float (f.sub x)
  | .float a, .float b => .ok (.float (a.sub b))
  | .float f, .complex c => .ok (.complex (fSubC f c))
  | .complex c, .integer i => (int_to_f64 i).map fun x => .complex (cSubF c x)
  | .complex c, .float f => .ok (.complex (cSubF c f))
  | .complex a, .complex b => .ok (.complex (cSubC a b))
  | _, _ => .crash .unimplementedCode

/-- The fold loop of `parse_number_expr` from `src/parse.rs`: a running
result and a sign flag toggled by each minus pair.  Note the source calls
`.unwrap()` on the result of `add_numbers`/`sub_numbers`, so an `Err` from
the numeric combination (a `NumericCast` error) becomes a panic, not a
returned error. -/
def pneLoop : List NumTok → Value → Bool → Outcome Value
  | [], r, _ => .ok r
  | .minusTok :: rest, r, neg => pneLoop rest r (!neg)
  | .numTok n :: rest, r, neg =>
    match parse_number n with
    | .err e => .err e
    | .crash c => .crash c
    | .ok num =>
      match (if neg then sub_numbers r num else add_numbers r num) with
      | .ok r2 => pneLoop rest r2 false
      | .err e => .crash (.unwrapErr e)
      | .crash c => .crash c

/-- `parse_number_expr` from `src/parse.rs`: fold the signed terms starting
from `Integer(0)` with the sign flag clear. -/
def parse_number_expr (toks : List NumTok) : Outcome Value :=
  pneLoop toks (.integer 0) false

/-- `parse_boolean` from `src/parse.rs` (the grammar only matches `True`
and `False`). -/
def parse_boolean (b : Bool) : Bool := b

mutual

/-- `parse_value` from `src/parse.rs`: dispatch on the node kind. -/
def parse_value : VTree → Outcome Value
  | .strT items =>
    match parse_string items with
    | .ok s => .ok (.string s)
    | .err e => .err e
    | .crash c => .crash c
  | .bytesT items =>
    match parse_bytes items with
    | .ok b => .ok (.bytes b)
    | .err e => .err e
    | .crash c => .crash c
  | .numExprT toks => parse_number_expr toks
  | .tupleT es =>
    match parse_seq es with
    | .ok l => .ok (.tuple l)
    | .err e => .err e
    | .crash c => .crash c
  | .listT es =>
    match parse_seq es with
    | .ok l => .ok (.list l)
    | .err e => .err e
    | .crash c => .crash c
  | .dictT ps =>
    match parse_dict ps with
    | .ok l => .ok (.dict l)
    | .err e => .err e
    | .crash c => .crash c
  | .setT es =>
    match parse_seq es with
    | .ok l => .ok (.set l)
    | .err e => .err e
    | .crash c => .crash c
  | .booleanT b => .ok (.boolean (parse_boolean b))
  | .noneT => .ok .none

/-- `parse_seq` from `src/parse.rs`: parse each element in source order. -/
def parse_seq : TList → Outcome VList
  | .nil => .ok .nil
  | .cons t rest =>
    match parse_value t with
    | .err e => .err e
    | .crash c => .crash c
    | .ok v =>
      match parse_seq rest with
      | .ok l => .ok (.cons v l)
      | .err e => .err e
      | .crash c => .crash c

/-- `parse_dict` from `src/parse.rs`: parse each key/value pair in source
order, keeping duplicates. -/
def parse_dict : TPairs → Outcome VPairs
  | .nil => .ok .nil
  | .cons kt vt rest =>
    match parse_value kt with
    | .err e => .err e
    | .crash c => .crash c
    | .ok k =>
      match parse_value vt with
      | .err e => .err e
      | .crash c => .crash c
      | .ok v =>
        match parse_dict rest with
        | .ok l => .ok (.cons k v l)
        | .err e => .err e
        | .crash c => .crash c

end

/-! ### The tokenizer

Modelled from the spec: the pest grammar file (`grammar.pest`) is not under
`src/`, so the lexical recognizer that produces the concrete parse tree is
reconstructed from the specification's grammar section (numbers in four
radices with ignored `_` separators, floats with optional fraction and
signed exponent, an imaginary `j`/`J` suffix, short single- or double-quoted
strings and `b`-prefixed bytes with the escape-sequence table, `True` /
`False` / `None`, the collection delimiters with optional trailing commas,
`{}` as the empty dict, a numeric expression grammar of unary/binary `+`/`-`,
and insignificant whitespace outside literal bodies).  Triple-quoted
(long-)string bodies are not modelled; no claim exercises them.  Nesting
recursion is fuel-bounded so that every definition is structurally
recursive; `from_str` supplies fuel exceeding any possible nesting depth of
its input. -/

/-- Is `c` a decimal digit? -/
def isDecDig (c : Char) : Bool := 48 ≤ c.toNat && c.toNat ≤ 57

/-- Is `c` a binary digit? -/
def isBinDig (c : Char) : Bool := c = '0' || c = '1'

/-- Is `c` an octal digit? -/
def isOctDig (c : Char) : Bool := 48 ≤ c.toNat && c.toNat ≤ 55

/-- Is `c` a hexadecimal digit? -/
def isHexDig (c : Char) : Bool :=
  isDecDig c || (97 ≤ c.toNat && c.toNat ≤ 102) || (65 ≤ c.toNat && c.toNat ≤ 70)

/-- Is `c` insignificant whitespace (outside literal bodies)?  Newlines are
not accepted outside string literals. -/
def isWsCh (c : Char) : Bool := c = ' ' || c = '\t'

/-- Modelled from the spec: drop leading insignificant whitespace. -/
def skipWs : List Char → List Char
  | [] => []
  | c :: rest => if isWsCh c then skipWs rest else c :: rest

/-- Modelled from the spec: collect a run of digits satisfying `p`,
dropping ignored `_` separators; returns the digits and the remainder. -/
def digitSpan (p : Char → Bool) : List Char → List Char × List Char
  | [] => ([], [])
  | c :: rest =>
    if p c then
      let s := digitSpan p rest
      (c :: s.1, s.2)
    else if c = '_' then digitSpan p rest
    else ([], c :: rest)

/-- Prepend an element to the list component of a lexer outcome. -/
def consFst {α β : Type} (x : α) : Outcome (List α × β) → Outcome (List α × β) :=
  Outcome.map (fun p => (x :: p.1, p.2))

/-- Modelled from the spec: lex one numeric literal (`Rule::number`):
a radix-prefixed integer, a decimal integer, a float (digit run with
optional fraction and signed exponent), or either of the latter two with an
imaginary `j`/`J` suffix. -/
def lexNumber : List Char → Outcome (NumberNode × List Char)
  | [] => .err (.Syntax "expected a number")
  | c :: rest =>
    if ¬ isDecDig c then .err (.Syntax "expected a digit")
    else
      let radix : Option (Char → Bool) :=
        match rest with
        | p :: _ =>
          if c = '0' && (p = 'b' || p = 'B') then some isBinDig
          else if c = '0' && (p = 'o' || p = 'O') then some isOctDig
          else if c = '0' && (p = 'x' || p = 'X') then some isHexDig
          else Option.none
        | [] => Option.none
      match radix with
      | some p =>
        let s := digitSpan p rest.tail
        if s.1.isEmpty then .err (.Syntax "expected digits after radix prefix")
        else
          match rest with
          | q :: _ =>
            if q = 'b' || q = 'B' then .ok (.intN (.binI s.1), s.2)
            else if q = 'o' || q = 'O' then .ok (.intN (.octI s.1), s.2)
            else .ok (.intN (.hexI s.1), s.2)
          | [] => .err (.Syntax "expected digits after radix prefix")
      | Option.none =>
        let s := digitSpan isDecDig (c :: rest)
        let afterInt := s.2
        let fr : Bool × List Char × List Char :=
          match afterInt with
          | d :: r2 =>
            if d = '.' then
              let fs := digitSpan isDecDig r2
              (true, fs.1, fs.2)
            else (false, [], afterInt)
          | [] => (false, [], afterInt)
        let afterFrac := fr.2.2
        let ex : Bool × Bool × List Char × List Char :=
          match afterFrac with
          | d :: r3 =>
            if d = 'e' || d = 'E' then
              match r3 with
              | s3 :: r4 =>
                if s3 = '-' then
                  let es := digitSpan isDecDig r4
                  (true, true, es.1, es.2)
                else if s3 = '+' then
                  let es := digitSpan isDecDig r4
                  (true, false, es.1, es.2)
                else
                  let es := digitSpan isDecDig r3
                  (true, false, es.1, es.2)
              | [] => (true, false, [], [])
            else (false, false, [], afterFrac)
          | [] => (false, false, [], afterFrac)
        if ex.1 && ex.2.2.1.isEmpty then .err (.Syntax "expected exponent digits")
        else if fr.1 || ex.1 then
          let ps := s.1.map .digitP
            ++ (if fr.1 then .fractionP :: fr.2.1.map .digitP else [])
            ++ (if ex.1 then (if ex.2.1 then FloatPiece.negExpP else FloatPiece.posExpP)
                  :: ex.2.2.1.map .digitP
                else [])
          match ex.2.2.2 with
          | j :: r5 =>
            if j = 'j' || j = 'J' then .ok (.imagN (.floatI ps), r5)
            else .ok (.floatN ps, j :: r5)
          | [] => .ok (.floatN ps, [])
        else
          match afterInt with
          | j :: r5 =>
            if j = 'j' || j = 'J' then .ok (.imagN (.digitsI s.1), r5)
            else .ok (.intN (.decI s.1), afterInt)
          | [] => .ok (.intN (.decI s.1), [])

/-- Modelled from the spec: scan a run of unary/binary sign tokens (and the
insignificant whitespace around them), counting the minus signs; plus signs
produce no token. -/
def signSpan : List Char → Nat × List Char
  | [] => (0, [])
  | c :: rest =>
    if c = '+' || isWsCh c then signSpan rest
    else if c = '-' then
      let s := signSpan rest
      (s.1 + 1, s.2)
    else (0, c :: rest)

/-- Modelled from the spec: the numeric expression loop — alternate runs of
sign tokens and numeric literals, continuing while a `+`/`-` follows the
previous literal. -/
def lexNumExprLoop : Nat → List Char → List NumTok → Outcome (List NumTok × List Char)
  | 0, _, _ => .err (.Syntax "numeric expression too long")
  | f+1, cs, acc =>
    let s := signSpan cs
    match lexNumber s.2 with
    | .err e => .err e
    | .crash r => .crash r
    | .ok (num, rest) =>
      let acc2 := acc ++ List.replicate s.1 NumTok.minusTok ++ [.numTok num]
      let rest2 := skipWs rest
      match rest2 with
      | c :: _ =>
        if c = '+' || c = '-' then lexNumExprLoop f rest2 acc2
        else .ok (acc2, rest2)
      | [] => .ok (acc2, [])

/-- Modelled from the spec: lex a short string body terminated by the quote
`q`, producing the items `parse_string` walks: per-character literal runs,
the escape-sequence table (`\\ \' \" \a \b \f \n \r \t \v`, 1-3 octal
digits, `\xHH`, and — for strings only — `\uHHHH`, `\UHHHHHHHH` and the
rejected name escape `\N`), unknown two-character escapes kept verbatim,
and backslash-newline line continuations. -/
def lexStrItems : Nat → Char → List Char → Outcome (List StrItem × List Char)
  | 0, _, _ => .err (.Syntax "string body too long")
  | f+1, q, cs =>
    match cs with
    | [] => .err (.Syntax "unterminated string literal")
    | c :: rest =>
      if c = q then .ok ([], rest)
      else if c = bslash then
        match rest with
        | [] => .err (.Syntax "unterminated string literal")
        | d :: rest2 =>
          if d = '\n' then consFst .lineCont (lexStrItems f q rest2)
          else if d = bslash || d = squote || d = '"' || d = 'a' || d = 'b' || d = 'f'
              || d = 'n' || d = 'r' || d = 't' || d = 'v' then
            consFst (.escapeSeq (.charE d)) (lexStrItems f q rest2)
          else if isOctDig d then
            match rest2 with
            | d2 :: rest3 =>
              if isOctDig d2 then
                match rest3 with
                | d3 :: rest4 =>
                  if isOctDig d3 then
                    consFst (.escapeSeq (.octalE [d, d2, d3])) (lexStrItems f q rest4)
                  else consFst (.escapeSeq (.octalE [d, d2])) (lexStrItems f q rest3)
                | [] => consFst (.escapeSeq (.octalE [d, d2])) (lexStrItems f q [])
              else consFst (.escapeSeq (.octalE [d])) (lexStrItems f q rest2)
            | [] => consFst (.escapeSeq (.octalE [d])) (lexStrItems f q [])
          else if d = 'x' then
            match rest2 with
            | h1 :: h2 :: rest3 =>
              if isHexDig h1 && isHexDig h2 then
                consFst (.escapeSeq (.hexE [h1, h2])) (lexStrItems f q rest3)
              else .err (.Syntax "malformed hex escape")
            | _ => .err (.Syntax "malformed hex escape")
          else if d = 'u' then
            match rest2 with
            | h1 :: h2 :: h3 :: h4 :: rest3 =>
              if isHexDig h1 && isHexDig h2 && isHexDig h3 && isHexDig h4 then
                consFst (.escapeSeq (.unicodeE [h1, h2, h3, h4])) (lexStrItems f q rest3)
              else .err (.Syntax "malformed unicode escape")
            | _ => .err (.Syntax "malformed unicode escape")
          else if d = 'U' then
            match rest2 with
            | h1 :: h2 :: h3 :: h4 :: h5 :: h6 :: h7 :: h8 :: rest3 =>
              if isHexDig h1 && isHexDig h2 && isHexDig h3 && isHexDig h4
                  && isHexDig h5 && isHexDig h6 && isHexDig h7 && isHexDig h8 then
                consFst (.escapeSeq (.unicodeE [h1, h2, h3, h4, h5, h6, h7, h8]))
                  (lexStrItems f q rest3)
              else .err (.Syntax "malformed unicode escape")
            | _ => .err (.Syntax "malformed unicode escape")
          else if d = 'N' then consFst (.escapeSeq .nameE) (lexStrItems f q rest2)
          else consFst (.unknownEscape [bslash, d]) (lexStrItems f q rest2)
      else if c = '\n' then .err (.Syntax "newline in string literal")
      else consFst (.nonEscape [c]) (lexStrItems f q rest)

/-- Modelled from the spec: lex a short bytes body terminated by the quote
`q`.  The escape table has no `\u`/`\U`/`\N` alternatives — those become
unknown escapes kept verbatim — and literal characters must be ASCII. -/
def lexBytItems : Nat → Char → List Char → Outcome (List BytItem × List Char)
  | 0, _, _ => .err (.Syntax "bytes body too long")
  | f+1, q, cs =>
    match cs with
    | [] => .err (.Syntax "unterminated bytes literal")
    | c :: rest =>
      if c = q then .ok ([], rest)
      else if c = bslash then
        match rest with
        | [] => .err (.Syntax "unterminated bytes literal")
        | d :: rest2 =>
          if d = '\n' then consFst .lineContB (lexBytItems f q rest2)
          else if d = bslash || d = squote || d = '"' || d = 'a' || d = 'b' || d = 'f'
              || d = 'n' || d = 'r' || d = 't' || d = 'v' then
            consFst (.escapeSeqB (.charB d)) (lexBytItems f q rest2)
          else if isOctDig d then
            match rest2 with
            | d2 :: rest3 =>
              if isOctDig d2 then
                match rest3 with
                | d3 :: rest4 =>
                  if isOctDig d3 then
                    consFst (.escapeSeqB (.octalB [d, d2, d3])) (lexBytItems f q rest4)
                  else consFst (.escapeSeqB (.octalB [d, d2])) (lexBytItems f q rest3)
                | [] => consFst (.escapeSeqB (.octalB [d, d2])) (lexBytItems f q [])
              else consFst (.escapeSeqB (.octalB [d])) (lexBytItems f q rest2)
            | [] => consFst (.escapeSeqB (.octalB [d])) (lexBytItems f q [])
          else if d = 'x' then
            match rest2 with
            | h1 :: h2 :: rest3 =>
              if isHexDig h1 && isHexDig h2 then
                consFst (.escapeSeqB (.hexB [h1, h2])) (lexBytItems f q rest3)
              else .err (.Syntax "malformed hex escape")
            | _ => .err (.Syntax "malformed hex escape")
          else consFst (.unknownEscapeB [bslash, d]) (lexBytItems f q rest2)
      else if c = '\n' then .err (.Syntax "newline in bytes literal")
      else if c.toNat ≤ 127 then consFst (.nonEscapeB [c]) (lexBytItems f q rest)
      else .err (.Syntax "bytes literal may only contain ASCII characters")

mutual

/-- Modelled from the spec: lex one value (`Rule::value`), dispatching on
the first significant character. -/
def lexValue : Nat → List Char → Outcome (VTree × List Char)
  | 0, _ => .err (.Syntax "input too deeply nested")
  | f+1, cs0 =>
    match skipWs cs0 with
    | [] => .err (.Syntax "expected a value")
    | c :: rest =>
      if c = squote || c = '"' then
        match lexStrItems (rest.length + 1) c rest with
        | .ok p => .ok (.strT p.1, p.2)
        | .err e => .err e
        | .crash r => .crash r
      else if c = 'b' || c = 'B' then
        match rest with
        | q :: rest2 =>
          if q = squote || q = '"' then
            match lexBytItems (rest2.length + 1) q rest2 with
            | .ok p => .ok (.bytesT p.1, p.2)
            | .err e => .err e
            | .crash r => .crash r
          else .err (.Syntax "expected a quote after bytes prefix")
        | [] => .err (.Syntax "expected a quote after bytes prefix")
      else if c = 'T' then
        match rest with
        | 'r' :: 'u' :: 'e' :: r => .ok (.booleanT true, r)
        | _ => .err (.Syntax "expected a value")
      else if c = 'F' then
        match rest with
        | 'a' :: 'l' :: 's' :: 'e' :: r => .ok (.booleanT false, r)
        | _ => .err (.Syntax "expected a value")
      else if c = 'N' then
        match rest with
        | 'o' :: 'n' :: 'e' :: r => .ok (.noneT, r)
        | _ => .err (.Syntax "expected a value")
      else if c = '(' then
        match skipWs rest with
        | [] => .err (.Syntax "unterminated tuple")
        | d :: r =>
          if d = ')' then .ok (.tupleT .nil, r)
          else
            match lexValue f (d :: r) with
            | .err e => .err e
            | .crash cr => .crash cr
            | .ok (t, r1) =>
              match skipWs r1 with
              | ',' :: r2 =>
                (match skipWs r2 with
                 | ')' :: r3 => .ok (.tupleT (.cons t .nil), r3)
                 | cs3 =>
                   match lexElemsSeq f ')' cs3 with
                   | .ok (es, r3) => .ok (.tupleT (.cons t es), r3)
                   | .err e => .err e
                   | .crash cr => .crash cr)
              | _ => .err (.Syntax "expected a comma in tuple")
      else if c = '[' then
        match skipWs rest with
        | [] => .err (.Syntax "unterminated list")
        | d :: r =>
          if d = ']' then .ok (.listT .nil, r)
          else
            match lexElemsSeq f ']' (d :: r) with
            | .ok (es, r1) => .ok (.listT es, r1)
            | .err e => .err e
            | .crash cr => .crash cr
      else if c = lbrace then
        match skipWs rest with
        | [] => .err (.Syntax "unterminated dict or set")
        | d :: r =>
          if d = rbrace then .ok (.dictT .nil, r)
          else
            match lexValue f (d :: r) with
            | .err e => .err e
            | .crash cr => .crash cr
            | .ok (t, r1) =>
              match skipWs r1 with
              | [] => .err (.Syntax "unterminated dict or set")
              | d2 :: r2 =>
                if d2 = ':' then
                  match lexValue f r2 with
                  | .err e => .err e
                  | .crash cr => .crash cr
                  | .ok (v, r3) =>
                    match skipWs r3 with
                    | [] => .err (.Syntax "unterminated dict")
                    | d3 :: r4 =>
                      if d3 = rbrace then .ok (.dictT (.cons t v .nil), r4)
                      else if d3 = ',' then
                        match skipWs r4 with
                        | [] => .err (.Syntax "unterminated dict")
                        | d4 :: r5 =>
                          if d4 = rbrace then .ok (.dictT (.cons t v .nil), r5)
                          else
                            match lexPairs f (d4 :: r5) with
                            | .ok (ps, r6) => .ok (.dictT (.cons t v ps), r6)
                            | .err e => .err e
                            | .crash cr => .crash cr
                      else .err (.Syntax "expected a comma or closing brace in dict")
                else if d2 = rbrace then .ok (.setT (.cons t .nil), r2)
                else if d2 = ',' then
                  match skipWs r2 with
                  | [] => .err (.Syntax "unterminated set")
                  | d3 :: r3 =>
                    if d3 = rbrace then .ok (.setT (.cons t .nil), r3)
                    else
                      match lexElemsSeq f rbrace (d3 :: r3) with
                      | .ok (es, r4) => .ok (.setT (.cons t es), r4)
                      | .err e => .err e
                      | .crash cr => .crash cr
                else .err (.Syntax "expected a colon, comma or closing brace")
      else if isDecDig c || c = '+' || c = '-' then
        match lexNumExprLoop (f + 1) (c :: rest) [] with
        | .ok (toks, r) => .ok (.numExprT toks, r)
        | .err e => .err e
        | .crash cr => .crash cr
      else .err (.Syntax "expected a value")

/-- Modelled from the spec: the `value (, value)* ,?` tail of a list, set
or (multi-element) tuple body, up to the closing delimiter. -/
def lexElemsSeq : Nat → Char → List Char → Outcome (TList × List Char)
  | 0, _, _ => .err (.Syntax "input too deeply nested")
  | f+1, close, cs =>
    match lexValue f cs with
    | .err e => .err e
    | .crash cr => .crash cr
    | .ok (t, r) =>
      match skipWs r with
      | [] => .err (.Syntax "unterminated sequence")
      | d :: r2 =>
        if d = close then .ok (.cons t .nil, r2)
        else if d = ',' then
          match skipWs r2 with
          | [] => .err (.Syntax "unterminated sequence")
          | e :: r3 =>
            if e = close then .ok (.cons t .nil, r3)
            else
              match lexElemsSeq f close (e :: r3) with
              | .ok (es, r4) => .ok (.cons t es, r4)
              | .err er => .err er
              | .crash cr => .crash cr
        else .err (.Syntax "expected a comma or closing delimiter")

/-- Modelled from the spec: the `key: value (, key: value)* ,?` tail of a
dict body, up to the closing brace. -/
def lexPairs : Nat → List Char → Outcome (TPairs × List Char)
  | 0, _ => .err (.Syntax "input too deeply nested")
  | f+1, cs =>
    match lexValue f cs with
    | .err e => .err e
    | .crash cr => .crash cr
    | .ok (k, r) =>
      match skipWs r with
      | [] => .err (.Syntax "unterminated dict")
      | d :: r2 =>
        if d = ':' then
          match lexValue f r2 with
          | .err e => .err e
          | .crash cr => .crash cr
          | .ok (v, r3) =>
            match skipWs r3 with
            | [] => .err (.Syntax "unterminated dict")
            | d3 :: r4 =>
              if d3 = rbrace then .ok (.cons k v .nil, r4)
              else if d3 = ',' then
                match skipWs r4 with
                | [] => .err (.Syntax "unterminated dict")
                | d4 :: r5 =>
                  if d4 = rbrace then .ok (.cons k v .nil, r5)
                  else
                    match lexPairs f (d4 :: r5) with
                    | .ok (ps, r6) => .ok (.cons k v ps, r6)
                    | .err e => .err e
                    | .crash cr => .crash cr
              else .err (.Syntax "expected a comma or closing brace in dict")
        else .err (.Syntax "expected a colon in dict")

end

/-- `<Value as FromStr>::from_str` from `src/parse.rs`: run the grammar on
the whole input (`Rule::start`: a single value between start and end of
input) and hand the tree to `parse_value`.  The tokenizer is modelled from
the spec (see above); the fuel exceeds any possible nesting depth. -/
def from_str (s : List Char) : Outcome Value :=
  match lexValue (s.length + 1) s with
  | .ok (t, rest) =>
    match skipWs rest with
    | [] => parse_value t
    | _ => .err (.Syntax "expected end of input")
  | .err e => .err e
  | .crash r => .crash r

/-! ### Predicates and spec-side definitions used by the claims -/

/-- The sign bit of a binary64 datum (NaN counts as unsigned). -/
def negSign : F64 → Bool
  | .nan => false
  | .inf s => s
  | .zero s => s
  | .finite m _ => m < 0

/-- Is this `F64` a well-formed datum of the model: a special value, or a
canonical finite value (odd mantissa below `2^53`, exponent at least
`-1074`, magnitude below `2^1024`) — i.e. does it denote an actual IEEE-754
binary64 bit pattern? -/
def F64.wf : F64 → Bool
  | .nan => true
  | .inf _ => true
  | .zero _ => true
  | .finite m e =>
    m ≠ 0 && m.natAbs % 2 = 1 && m.natAbs < 2 ^ 53 && -1074 ≤ e
      && m.natAbs * 2 ^ e.toNat < 2 ^ 1024 * 2 ^ (-e).toNat

/-- Is this `F64` finite (neither NaN nor an infinity)? -/
def F64.isFinite : F64 → Bool
  | .nan => false
  | .inf _ => false
  | .zero _ => true
  | .finite _ _ => true

mutual

/-- Does the value contain no empty `Set` at any nesting depth?  (The
hypothesis of the round-trip claim as stated.) -/
def noEmptySet : Value → Bool
  | .string _ => true
  | .bytes _ => true
  | .integer _ => true
  | .float _ => true
  | .complex _ => true
  | .tuple es => noEmptySetL es
  | .list es => noEmptySetL es
  | .dict ps => noEmptySetP ps
  | .set es =>
    match es with
    | .nil => false
    | .cons v rest => noEmptySet v && noEmptySetL rest
  | .boolean _ => true
  | .none => true

/-- `noEmptySet` on a sequence of values. -/
def noEmptySetL : VList → Bool
  | .nil => true
  | .cons v rest => noEmptySet v && noEmptySetL rest

/-- `noEmptySet` on a sequence of pairs. -/
def noEmptySetP : VPairs → Bool
  | .nil => true
  | .cons k v rest => noEmptySet k && noEmptySet v && noEmptySetP rest

end

mutual

/-- The amended round-trip hypothesis: the value contains no empty `Set` at
any nesting depth, every `Float`/`Complex` component is a finite (non-NaN,
non-infinite) well-formed binary64 datum, and every byte is an actual byte
(`< 256`). -/
def goodV : Value → Bool
  | .string _ => true
  | .bytes bs => bs.all (· < 256)
  | .integer _ => true
  | .float f => f.wf && f.isFinite
  | .complex c => c.re.wf && c.re.isFinite && c.im.wf && c.im.isFinite
  | .tuple es => goodL es
  | .list es => goodL es
  | .dict ps => goodP ps
  | .set es =>
    match es with
    | .nil => false
    | .cons v rest => goodV v && goodL rest
  | .boolean _ => true
  | .none => true

/-- `goodV` on a sequence of values. -/
def goodL : VList → Bool
  | .nil => true
  | .cons v rest => goodV v && goodL rest

/-- `goodV` on a sequence of pairs. -/
def goodP : VPairs → Bool
  | .nil => true
  | .cons k v rest => goodV k && goodV v && goodP rest

end

mutual

/-- An upper bound on the lexer fuel needed to re-lex the formatting of a
value. -/
def vfuel : Value → Nat
  | .string _ => 1
  | .bytes _ => 1
  | .integer _ => 1
  | .float _ => 1
  | .complex _ => 2
  | .tuple es => 1 + vfuelL es
  | .list es => 1 + vfuelL es
  | .dict ps => 1 + vfuelP ps
  | .set es => 1 + vfuelL es
  | .boolean _ => 1
  | .none => 1

/-- Fuel bound for a sequence of values. -/
def vfuelL : VList → Nat
  | .nil => 0
  | .cons v rest => 1 + vfuel v + vfuelL rest

/-- Fuel bound for a sequence of pairs. -/
def vfuelP : VPairs → Nat
  | .nil => 0
  | .cons k v rest => 1 + vfuel k + vfuel v + vfuelP rest

end

/-- The characters a formatted value is followed by inside a larger
formatted value (or nothing, at top level): a separator or a closing
delimiter.  Such a remainder never extends any token of the value. -/
def delimB : List Char → Bool
  | [] => true
  | c :: _ => c = ',' || c = ':' || c = ')' || c = ']' || c = rbrace

/-- The text a good value formats to (the `Ok` payload of `format_ascii`). -/
def fmtV (v : Value) : List Char :=
  match write_ascii v [] with
  | .ok s => s
  | .error _ => []

/-- The text `writeSeqRest` appends for the remaining elements of a
sequence: `", elem"` for each. -/
def joinSeqRest : VList → List Char
  | .nil => []
  | .cons v rest => ',' :: ' ' :: fmtV v ++ joinSeqRest rest

/-- The text `writeDictRest` appends for the remaining pairs of a dict:
`", key: value"` for each. -/
def joinPairsRest : VPairs → List Char
  | .nil => []
  | .cons k v rest => ',' :: ' ' :: fmtV k ++ ':' :: ' ' :: fmtV v ++ joinPairsRest rest

/-- Does the remainder start (if at all) with a character that cannot
extend a numeric token? -/
def numStop : List Char → Bool
  | [] => true
  | c :: _ => !isDecDig c && !(c = '_') && !(c = '.') && !(c = 'e') && !(c = 'E')
      && !(c = 'j') && !(c = 'J') && !(c = 'b') && !(c = 'B') && !(c = 'o')
      && !(c = 'O') && !(c = 'x') && !(c = 'X')

/-- May this character open the text of a formatted value?  (It is not
whitespace and not a separator or closing delimiter.) -/
def headGood (c : Char) : Bool :=
  !isWsCh c && !(c = ',') && !(c = ':') && !(c = ')') && !(c = ']') && !(c = rbrace)

/-- The text of a nonempty formatted sequence body: the first element
followed by the joined rest. -/
def seqText : VList → List Char
  | .nil => []
  | .cons v rest => fmtV v ++ joinSeqRest rest

/-- The text of a nonempty formatted dict body. -/
def pairsText : VPairs → List Char
  | .nil => []
  | .cons k v rest => fmtV k ++ ':' :: ' ' :: fmtV v ++ joinPairsRest rest

/-- The accumulator of the numeric-expression fold after a real-part term:
an integer literal whose conversion to double is exact, or a float. -/
def reAcc (r : Value) (g : F64) : Prop :=
  (∃ n : Int, r = .integer n ∧ int_to_f64 n = .ok g) ∨ r = .float g

/-- A binary64 datum as produced by a correctly rounded nonnegative
conversion: positive zero or a finite value. -/
def tameF64 (g : F64) : Prop := g = .zero false ∨ ∃ m e, g = .finite m e

/-- Claim C3's escaping rule, exactly as stated: the four specials become
two-character escapes; **every other code point that is non-ASCII or a
control code point** is escaped as `\xHH`/`\uHHHH`/`\UHHHHHHHH` by
magnitude; all other ASCII characters pass through raw. -/
def claimedEscC3 (c : Char) : List Char :=
  if c = bslash then [bslash, bslash]
  else if c = '\r' then [bslash, 'r']
  else if c = '\n' then [bslash, 'n']
  else if c = squote then [bslash, squote]
  else if 127 < c.toNat ∨ c.toNat < 32 ∨ c.toNat = 127 then
    if c.toNat ≤ 0xff then bslash :: 'x' :: natHexPad 2 c.toNat
    else if c.toNat ≤ 0xffff then bslash :: 'u' :: natHexPad 4 c.toNat
    else bslash :: 'U' :: natHexPad 8 c.toNat
  else [c]

/-- The amended escaping rule (what the formatter actually does): the four
specials become two-character escapes; every **other ASCII** character —
control characters included — passes through raw; every non-ASCII code
point is escaped as `\xHH`/`\uHHHH`/`\UHHHHHHHH` by magnitude. -/
def amendedEscC3 (c : Char) : List Char :=
  if c = bslash then [bslash, bslash]
  else if c = '\r' then [bslash, 'r']
  else if c = '\n' then [bslash, 'n']
  else if c = squote then [bslash, squote]
  else if 127 < c.toNat then
    if c.toNat ≤ 0xff then bslash :: 'x' :: natHexPad 2 c.toNat
    else if c.toNat ≤ 0xffff then bslash :: 'u' :: natHexPad 4 c.toNat
    else bslash :: 'U' :: natHexPad 8 c.toNat
  else [c]

/-- Claim C4's rendering of a `Complex` value, exactly as stated: real
part, explicit sign, imaginary part, trailing `j`, with each part rendered
per the `Float` rule — i.e. always in scientific/exponential notation. -/
def claimedComplexC4 (c : C64) : List Char :=
  fmtLowerExp c.re
    ++ (if negSign c.im then fmtLowerExp c.im else '+' :: fmtLowerExp c.im)
    ++ ['j']

/-- Is this outcome a *returned* `NumericCast` error? -/
def isNumericCastErr {α : Type} : Outcome α → Bool
  | .err (.NumericCast _ _) => true
  | _ => false

/-- The decimal digit characters of `10^309` (the failing input for the
numeric-cast claim): a `1` followed by 309 zeros. -/
def bigIntText : List Char := '1' :: List.replicate 309 '0'

/-- Every character of the list is ASCII. -/
def asciiP (s : List Char) : Prop := ∀ c ∈ s, c.toNat ≤ 127

instance asciiPDecidable (s : List Char) : Decidable (asciiP s) :=
  inferInstanceAs (Decidable (∀ c ∈ s, c.toNat ≤ 127))

/-! ### Helper lemmas -/

/-- `Char.ofNat` inverts `Char.toNat` on valid code points. -/
theorem toNat_ofNat_valid (n : Nat) (h : n.isValidChar) : (Char.ofNat n).toNat = n := by
  unfold Char.ofNat
  rw [dif_pos h]
  rfl

/-- Characters with different code points differ. -/
theorem char_ne_of_toNat_ne {c d : Char} (h : c.toNat ≠ d.toNat) : c ≠ d :=
  fun e => h (by rw [e])

/-- The loop of `parse_number_expr` can never return a `NumericCast` error
to the caller: the only producers of that error are `add_numbers` and
`sub_numbers`, and the loop `.unwrap()`s their results, turning the error
into a panic. -/
theorem pneLoop_no_numeric_cast_err (toks : List NumTok) :
    ∀ r neg, isNumericCastErr (pneLoop toks r neg) = false := by
  induction toks with
  | nil => intro r neg; rfl
  | cons t rest ih =>
    intro r neg
    cases t with
    | minusTok => exact ih r (!neg)
    | numTok n =>
      show isNumericCastErr
        (match parse_number n with
          | .err e => .err e
          | .crash c => .crash c
          | .ok num =>
            match (if neg then sub_numbers r num else add_numbers r num) with
            | .ok r2 => pneLoop rest r2 false
            | .err e => .crash (.unwrapErr e)
            | .crash c => .crash c) = false
      cases hp : parse_number n with
      | ok num =>
        dsimp only
        cases hc : (if neg then sub_numbers r num else add_numbers r num) with
        | ok r2 => exact ih r2 false
        | err e => rfl
        | crash c => rfl
      | err e =>
        cases n with
        | imagN i =>
          cases i with
          | floatI ps => simp [parse_number, parse_imag, parse_float, bind, pure] at hp
          | digitsI digs => simp [parse_number, parse_imag, bind, pure] at hp
        | floatN ps => simp [parse_number, parse_float, Outcome.map] at hp
        | intN m => simp [parse_number] at hp
      | crash c =>
        cases n with
        | imagN i =>
          cases i with
          | floatI ps => simp [parse_number, parse_imag, parse_float, bind, pure] at hp
          | digitsI digs => simp [parse_number, parse_imag, bind, pure] at hp
        | floatN ps => simp [parse_number, parse_float, Outcome.map] at hp
        | intN m => simp [parse_number] at hp

/-- The source escaping agrees with the amended per-character rule. -/
theorem escStrChar_eq_amended (c : Char) : escStrChar c = amendedEscC3 c := by
  unfold escStrChar amendedEscC3
  split_ifs <;> first | rfl | omega

/-- `{:+}` renders an explicit sign for every number — plain `Display`
prefixed with `+` exactly when the sign bit is clear — but leaves NaN
unsigned. -/
theorem fmtDisplayPlus_eq (f : F64) :
    fmtDisplayPlus f = (if f = .nan then fmtDisplay f
      else if negSign f then fmtDisplay f else '+' :: fmtDisplay f) := by
  cases f with
  | nan => rfl
  | inf s => cases s <;> rfl
  | zero s => cases s <;> rfl
  | finite m e =>
    show (if m < 0 then fmtDisplay (.finite m e) else '+' :: fmtDisplay (.finite m e)) = _
    by_cases h : m < 0 <;> simp [negSign, h]

/-- The first character written for the imaginary part: an explicit sign
for every number, but the bare `N` of `NaN` when the datum is NaN. -/
theorem fmtDisplayPlus_head (f : F64) :
    (fmtDisplayPlus f).head?
      = some (if f = .nan then 'N' else if negSign f then '-' else '+') := by
  cases f with
  | nan => rfl
  | inf s => cases s <;> rfl
  | zero s => cases s <;> rfl
  | finite m e =>
    rw [fmtDisplayPlus_eq]
    by_cases h : m < 0
    · simp [negSign, h, fmtDisplay]
    · simp [negSign, h]

/-- The code point of a digit character. -/
theorem digitChar_toNat {n : Nat} (h : n < 10) : (digitChar n).toNat = 48 + n :=
  toNat_ofNat_valid _ (Or.inl (by omega))

/-- The code point of a hex digit character. -/
theorem hexChar_toNat {n : Nat} (h : n < 16) :
    (hexChar n).toNat = if n < 10 then 48 + n else 87 + n := by
  unfold hexChar
  split_ifs with h10
  · exact toNat_ofNat_valid _ (Or.inl (by omega))
  · exact toNat_ofNat_valid _ (Or.inl (by omega))

theorem asciiP_nil : asciiP [] := fun c hc => by simp at hc

theorem asciiP_cons {c : Char} {s : List Char} (hc : c.toNat ≤ 127) (hs : asciiP s) :
    asciiP (c :: s) := by
  intro d hd
  rcases List.mem_cons.mp hd with h | h
  · rw [h]; exact hc
  · exact hs d h

theorem asciiP_append {a b : List Char} (ha : asciiP a) (hb : asciiP b) :
    asciiP (a ++ b) := by
  intro c hc
  rcases List.mem_append.mp hc with h | h
  · exact ha c h
  · exact hb c h

theorem asciiP_single {c : Char} (hc : c.toNat ≤ 127) : asciiP [c] :=
  asciiP_cons hc asciiP_nil

theorem asciiP_replicate (n : Nat) {c : Char} (hc : c.toNat ≤ 127) :
    asciiP (List.replicate n c) := by
  intro d hd
  rw [List.eq_of_mem_replicate hd]
  exact hc

theorem natDigitsAux_ascii (f : Nat) : ∀ n, asciiP (natDigitsAux f n) := by
  induction f with
  | zero => intro n c hc; simp [natDigitsAux] at hc
  | succ f ih =>
    intro n
    unfold natDigitsAux
    split_ifs with h
    · exact asciiP_single (by rw [digitChar_toNat h]; omega)
    · exact asciiP_append (ih _)
        (asciiP_single (by rw [digitChar_toNat (Nat.mod_lt _ (by omega))]; omega))

theorem natDigits_ascii (n : Nat) : asciiP (natDigits n) := natDigitsAux_ascii _ n

theorem natHexAux_ascii (f : Nat) : ∀ n, asciiP (natHexAux f n) := by
  induction f with
  | zero => intro n c hc; simp [natHexAux] at hc
  | succ f ih =>
    intro n
    unfold natHexAux
    split_ifs with h
    · refine asciiP_single ?_
      rw [hexChar_toNat h]
      split_ifs <;> omega
    · refine asciiP_append (ih _) (asciiP_single ?_)
      rw [hexChar_toNat (Nat.mod_lt _ (by omega))]
      split_ifs <;> omega

theorem natHexPad_ascii (w n : Nat) : asciiP (natHexPad w n) :=
  asciiP_append (asciiP_replicate _ (by decide)) (natHexAux_ascii _ n)

theorem intDisplay_ascii (i : Int) : asciiP (intDisplay i) := by
  unfold intDisplay
  split_ifs
  · exact asciiP_cons (by decide) (natDigits_ascii _)
  · exact natDigits_ascii _

theorem displayRender_ascii {ds : List Char} (hds : asciiP ds) (k : Int) :
    asciiP (displayRender ds k) := by
  unfold displayRender
  split_ifs
  · exact asciiP_append hds (asciiP_replicate _ (by decide))
  · exact asciiP_append (fun c hc => hds c (List.take_subset _ _ hc))
      (asciiP_cons (by decide) (fun c hc => hds c (List.drop_subset _ _ hc)))
  · exact asciiP_cons (by decide) (asciiP_cons (by decide)
      (asciiP_append (asciiP_replicate _ (by decide)) hds))

theorem lowerExpRender_ascii {ds : List Char} (hds : asciiP ds) (k : Int) :
    asciiP (lowerExpRender ds k) := by
  unfold lowerExpRender
  match ds, hds with
  | [], _ => exact asciiP_nil
  | c :: rest, hds =>
    refine asciiP_cons (hds c (by simp)) (asciiP_append ?_
      (asciiP_cons (by decide) (intDisplay_ascii k)))
    split_ifs
    · exact asciiP_nil
    · exact asciiP_cons (by decide) (fun d hd => hds d (by simp [hd]))

theorem fmtDisplay_ascii (f : F64) : asciiP (fmtDisplay f) := by
  cases f with
  | nan => decide
  | inf s => cases s <;> decide
  | zero s => cases s <;> decide
  | finite m e =>
    unfold fmtDisplay
    refine asciiP_append ?_ (displayRender_ascii (natDigits_ascii _) _)
    split_ifs
    · exact asciiP_single (by decide)
    · exact asciiP_nil

theorem fmtLowerExp_ascii (f : F64) : asciiP (fmtLowerExp f) := by
  cases f with
  | nan => decide
  | inf s => cases s <;> decide
  | zero s => cases s <;> decide
  | finite m e =>
    unfold fmtLowerExp
    refine asciiP_append ?_ (lowerExpRender_ascii (natDigits_ascii _) _)
    split_ifs
    · exact asciiP_single (by decide)
    · exact asciiP_nil

theorem fmtDisplayPlus_ascii (f : F64) : asciiP (fmtDisplayPlus f) := by
  rw [fmtDisplayPlus_eq]
  split_ifs
  · exact fmtDisplay_ascii f
  · exact fmtDisplay_ascii f
  · exact asciiP_cons (by decide) (fmtDisplay_ascii f)

theorem escStrChar_ascii (c : Char) : asciiP (escStrChar c) := by
  unfold escStrChar
  split_ifs with h1 h2 h3 h4 h5 h6 h7
  · decide
  · decide
  · decide
  · decide
  · exact asciiP_single h5
  · exact asciiP_cons (by decide) (asciiP_cons (by decide) (natHexPad_ascii _ _))
  · exact asciiP_cons (by decide) (asciiP_cons (by decide) (natHexPad_ascii _ _))
  · exact asciiP_cons (by decide) (asciiP_cons (by decide) (natHexPad_ascii _ _))

theorem escByte_ascii (b : Nat) : asciiP (escByte b) := by
  unfold escByte
  split_ifs with h1 h2 h3 h4 h5
  · decide
  · decide
  · decide
  · decide
  · exact asciiP_single (by rw [toNat_ofNat_valid _ (Or.inl (by omega))]; exact h5)
  · exact asciiP_cons (by decide) (asciiP_cons (by decide) (natHexPad_ascii _ _))

theorem flatMap_ascii {α : Type} {f : α → List Char} (hf : ∀ a, asciiP (f a)) :
    ∀ s : List α, asciiP (s.flatMap f) := by
  intro s
  induction s with
  | nil => exact asciiP_nil
  | cons a rest ih => exact asciiP_append (hf a) ih

theorem asciiP_cons_iff {c : Char} {s : List Char} :
    asciiP (c :: s) ↔ c.toNat ≤ 127 ∧ asciiP s := by
  unfold asciiP
  exact List.forall_mem_cons

theorem asciiP_append_iff {a b : List Char} :
    asciiP (a ++ b) ↔ asciiP a ∧ asciiP b := by
  unfold asciiP
  exact List.forall_mem_append

mutual

/-- Shape of a streaming write: on success the output is the input buffer
followed by an ASCII tail that does not depend on the buffer; on failure
the value contains an empty set (it is not `goodV`) and the error is
likewise buffer-independent. -/
theorem write_shape : (v : Value) →
    (∃ out, asciiP out ∧ ∀ acc, write_ascii v acc = .ok (acc ++ out))
    ∨ (goodV v = false ∧ ∃ e, ∀ acc, ∃ p, write_ascii v acc = .error (e, acc ++ p))
  | .string s =>
    Or.inl ⟨squote :: s.flatMap escStrChar ++ [squote],
      by simp only [asciiP_cons_iff, asciiP_append_iff]
         and_intros <;> first
             | assumption
             | decide
             | exact flatMap_ascii escStrChar_ascii _
             | exact flatMap_ascii escByte_ascii _,
      fun acc => by simp [write_ascii]⟩
  | .bytes bs =>
    Or.inl ⟨'b' :: squote :: bs.flatMap escByte ++ [squote],
      by simp only [asciiP_cons_iff, asciiP_append_iff]
         and_intros <;> first
             | assumption
             | decide
             | exact flatMap_ascii escStrChar_ascii _
             | exact flatMap_ascii escByte_ascii _,
      fun acc => by simp [write_ascii]⟩
  | .integer i => Or.inl ⟨intDisplay i, intDisplay_ascii i, fun acc => by simp [write_ascii]⟩
  | .float f => Or.inl ⟨fmtLowerExp f, fmtLowerExp_ascii f, fun acc => by simp [write_ascii]⟩
  | .complex c =>
    Or.inl ⟨fmtDisplay c.re ++ fmtDisplayPlus c.im ++ ['j'],
      by simp only [asciiP_cons_iff, asciiP_append_iff]
         and_intros <;> first
           | decide
           | exact fmtDisplay_ascii _
           | exact fmtDisplayPlus_ascii _,
      fun acc => by cases c; simp [write_ascii]⟩
  | .boolean b =>
    Or.inl ⟨if b then ['T', 'r', 'u', 'e'] else ['F', 'a', 'l', 's', 'e'],
      by cases b <;> decide,
      fun acc => by cases b <;> simp [write_ascii]⟩
  | .none => Or.inl ⟨['N', 'o', 'n', 'e'], by decide, fun acc => by simp [write_ascii]⟩
  | .tuple .nil => Or.inl ⟨['(', ')'], by decide, fun acc => by simp [write_ascii]⟩
  | .tuple (.cons v .nil) =>
    match write_shape v with
    | Or.inl ⟨o, ho, hw⟩ =>
      Or.inl ⟨'(' :: o ++ [',', ')'],
        by simp only [asciiP_cons_iff, asciiP_append_iff]
           and_intros <;> first
             | assumption
             | decide
             | exact flatMap_ascii escStrChar_ascii _
             | exact flatMap_ascii escByte_ascii _,
        fun acc => by simp [write_ascii, hw]⟩
    | Or.inr ⟨hg, e, hw⟩ =>
      Or.inr ⟨by simp only [goodV]; rw [goodL, hg]; simp, e, fun acc => by
        obtain ⟨p, hp⟩ := hw (acc ++ ['('])
        simp only [List.append_assoc, List.cons_append, List.singleton_append, List.nil_append] at hp
        exact ⟨'(' :: p, by simp [write_ascii, hp]⟩⟩
  | .tuple (.cons v (.cons w rest)) =>
    match write_shape v, writeSeq_shape (.cons w rest) with
    | Or.inl ⟨o, ho, hw⟩, Or.inl ⟨o2, ho2, hw2⟩ =>
      Or.inl ⟨'(' :: o ++ o2 ++ [')'],
        by simp only [asciiP_cons_iff, asciiP_append_iff]
           and_intros <;> first
             | assumption
             | decide
             | exact flatMap_ascii escStrChar_ascii _
             | exact flatMap_ascii escByte_ascii _,
        fun acc => by simp [write_ascii, hw, hw2]⟩
    | Or.inl ⟨o, ho, hw⟩, Or.inr ⟨hg, e, hw2⟩ =>
      Or.inr ⟨by simp only [goodV]; rw [goodL, hg]; simp, e, fun acc => by
        obtain ⟨p, hp⟩ := hw2 ((acc ++ ['(']) ++ o)
        simp only [List.append_assoc, List.cons_append, List.singleton_append, List.nil_append] at hp
        exact ⟨'(' :: o ++ p, by simp [write_ascii, hw, hp]⟩⟩
    | Or.inr ⟨hg, e, hw⟩, _ =>
      Or.inr ⟨by simp only [goodV]; rw [goodL, hg]; simp, e, fun acc => by
        obtain ⟨p, hp⟩ := hw (acc ++ ['('])
        simp only [List.append_assoc, List.cons_append, List.singleton_append, List.nil_append] at hp
        exact ⟨'(' :: p, by simp [write_ascii, hp]⟩⟩
  | .list .nil => Or.inl ⟨['[', ']'], by decide, fun acc => by simp [write_ascii]⟩
  | .list (.cons v rest) =>
    match write_shape v, writeSeq_shape rest with
    | Or.inl ⟨o, ho, hw⟩, Or.inl ⟨o2, ho2, hw2⟩ =>
      Or.inl ⟨'[' :: o ++ o2 ++ [']'],
        by simp only [asciiP_cons_iff, asciiP_append_iff]
           and_intros <;> first
             | assumption
             | decide
             | exact flatMap_ascii escStrChar_ascii _
             | exact flatMap_ascii escByte_ascii _,
        fun acc => by simp [write_ascii, hw, hw2]⟩
    | Or.inl ⟨o, ho, hw⟩, Or.inr ⟨hg, e, hw2⟩ =>
      Or.inr ⟨by simp only [goodV]; rw [goodL, hg]; simp, e, fun acc => by
        obtain ⟨p, hp⟩ := hw2 ((acc ++ ['[']) ++ o)
        simp only [List.append_assoc, List.cons_append, List.singleton_append, List.nil_append] at hp
        exact ⟨'[' :: o ++ p, by simp [write_ascii, hw, hp]⟩⟩
    | Or.inr ⟨hg, e, hw⟩, _ =>
      Or.inr ⟨by simp only [goodV]; rw [goodL, hg]; simp, e, fun acc => by
        obtain ⟨p, hp⟩ := hw (acc ++ ['['])
        simp only [List.append_assoc, List.cons_append, List.singleton_append, List.nil_append] at hp
        exact ⟨'[' :: p, by simp [write_ascii, hp]⟩⟩
  | .set .nil => Or.inr ⟨rfl, .EmptySet, fun acc => ⟨[], by simp [write_ascii]⟩⟩
  | .set (.cons v rest) =>
    match write_shape v, writeSeq_shape rest with
    | Or.inl ⟨o, ho, hw⟩, Or.inl ⟨o2, ho2, hw2⟩ =>
      Or.inl ⟨lbrace :: o ++ o2 ++ [rbrace],
        by simp only [asciiP_cons_iff, asciiP_append_iff]
           and_intros <;> first
             | assumption
             | decide
             | exact flatMap_ascii escStrChar_ascii _
             | exact flatMap_ascii escByte_ascii _,
        fun acc => by simp [write_ascii, hw, hw2]⟩
    | Or.inl ⟨o, ho, hw⟩, Or.inr ⟨hg, e, hw2⟩ =>
      Or.inr ⟨by simp only [goodV]; rw [hg]; simp, e, fun acc => by
        obtain ⟨p, hp⟩ := hw2 ((acc ++ [lbrace]) ++ o)
        simp only [List.append_assoc, List.cons_append, List.singleton_append, List.nil_append] at hp
        exact ⟨lbrace :: o ++ p, by simp [write_ascii, hw, hp]⟩⟩
    | Or.inr ⟨hg, e, hw⟩, _ =>
      Or.inr ⟨by simp only [goodV]; rw [hg]; simp, e, fun acc => by
        obtain ⟨p, hp⟩ := hw (acc ++ [lbrace])
        simp only [List.append_assoc, List.cons_append, List.singleton_append, List.nil_append] at hp
        exact ⟨lbrace :: p, by simp [write_ascii, hp]⟩⟩
  | .dict .nil => Or.inl ⟨[lbrace, rbrace], by decide, fun acc => by simp [write_ascii]⟩
  | .dict (.cons k v rest) =>
    match write_shape k, write_shape v, writeDict_shape rest with
    | Or.inl ⟨ok1, hok1, hwk⟩, Or.inl ⟨ov, hov, hwv⟩, Or.inl ⟨o2, ho2, hw2⟩ =>
      Or.inl ⟨lbrace :: ok1 ++ ':' :: ' ' :: ov ++ o2 ++ [rbrace],
        by simp only [asciiP_cons_iff, asciiP_append_iff]
           and_intros <;> first
             | assumption
             | decide
             | exact flatMap_ascii escStrChar_ascii _
             | exact flatMap_ascii escByte_ascii _,
        fun acc => by simp [write_ascii, hwk, hwv, hw2]⟩
    | Or.inl ⟨ok1, hok1, hwk⟩, Or.inl ⟨ov, hov, hwv⟩, Or.inr ⟨hg, e, hw2⟩ =>
      Or.inr ⟨by simp only [goodV]; rw [goodP, hg]; simp, e, fun acc => by
        obtain ⟨p, hp⟩ := hw2 ((((acc ++ [lbrace]) ++ ok1) ++ [':', ' ']) ++ ov)
        simp only [List.append_assoc, List.cons_append, List.singleton_append, List.nil_append] at hp
        exact ⟨lbrace :: ok1 ++ ':' :: ' ' :: ov ++ p, by simp [write_ascii, hwk, hwv, hp]⟩⟩
    | Or.inl ⟨ok1, hok1, hwk⟩, Or.inr ⟨hg, e, hwv⟩, _ =>
      Or.inr ⟨by simp only [goodV]; rw [goodP, hg]; simp, e, fun acc => by
        obtain ⟨p, hp⟩ := hwv (((acc ++ [lbrace]) ++ ok1) ++ [':', ' '])
        simp only [List.append_assoc, List.cons_append, List.singleton_append, List.nil_append] at hp
        exact ⟨lbrace :: ok1 ++ ':' :: ' ' :: p, by simp [write_ascii, hwk, hp]⟩⟩
    | Or.inr ⟨hg, e, hwk⟩, _, _ =>
      Or.inr ⟨by simp only [goodV]; rw [goodP, hg]; simp, e, fun acc => by
        obtain ⟨p, hp⟩ := hwk (acc ++ [lbrace])
        simp only [List.append_assoc, List.cons_append, List.singleton_append, List.nil_append] at hp
        exact ⟨lbrace :: p, by simp [write_ascii, hp]⟩⟩

/-- Shape of the sequence-tail write loop. -/
theorem writeSeq_shape : (l : VList) →
    (∃ out, asciiP out ∧ ∀ acc, writeSeqRest l acc = .ok (acc ++ out))
    ∨ (goodL l = false ∧ ∃ e, ∀ acc, ∃ p, writeSeqRest l acc = .error (e, acc ++ p))
  | .nil => Or.inl ⟨[], asciiP_nil, fun acc => by simp [writeSeqRest]⟩
  | .cons v rest =>
    match write_shape v, writeSeq_shape rest with
    | Or.inl ⟨o, ho, hw⟩, Or.inl ⟨o2, ho2, hw2⟩ =>
      Or.inl ⟨',' :: ' ' :: o ++ o2,
        by simp only [asciiP_cons_iff, asciiP_append_iff]
           and_intros <;> first
             | assumption
             | decide
             | exact flatMap_ascii escStrChar_ascii _
             | exact flatMap_ascii escByte_ascii _,
        fun acc => by simp [writeSeqRest, hw, hw2]⟩
    | Or.inl ⟨o, ho, hw⟩, Or.inr ⟨hg, e, hw2⟩ =>
      Or.inr ⟨by rw [goodL, hg]; simp, e, fun acc => by
        obtain ⟨p, hp⟩ := hw2 ((acc ++ [',', ' ']) ++ o)
        simp only [List.append_assoc, List.cons_append, List.singleton_append, List.nil_append] at hp
        exact ⟨',' :: ' ' :: o ++ p, by simp [writeSeqRest, hw, hp]⟩⟩
    | Or.inr ⟨hg, e, hw⟩, _ =>
      Or.inr ⟨by rw [goodL, hg]; simp, e, fun acc => by
        obtain ⟨p, hp⟩ := hw (acc ++ [',', ' '])
        simp only [List.append_assoc, List.cons_append, List.singleton_append, List.nil_append] at hp
        exact ⟨',' :: ' ' :: p, by simp [writeSeqRest, hp]⟩⟩

/-- Shape of the dict-tail write loop. -/
theorem writeDict_shape : (l : VPairs) →
    (∃ out, asciiP out ∧ ∀ acc, writeDictRest l acc = .ok (acc ++ out))
    ∨ (goodP l = false ∧ ∃ e, ∀ acc, ∃ p, writeDictRest l acc = .error (e, acc ++ p))
  | .nil => Or.inl ⟨[], asciiP_nil, fun acc => by simp [writeDictRest]⟩
  | .cons k v rest =>
    match write_shape k, write_shape v, writeDict_shape rest with
    | Or.inl ⟨ok1, hok1, hwk⟩, Or.inl ⟨ov, hov, hwv⟩, Or.inl ⟨o2, ho2, hw2⟩ =>
      Or.inl ⟨',' :: ' ' :: ok1 ++ ':' :: ' ' :: ov ++ o2,
        by simp only [asciiP_cons_iff, asciiP_append_iff]
           and_intros <;> first
             | assumption
             | decide
             | exact flatMap_ascii escStrChar_ascii _
             | exact flatMap_ascii escByte_ascii _,
        fun acc => by simp [writeDictRest, hwk, hwv, hw2]⟩
    | Or.inl ⟨ok1, hok1, hwk⟩, Or.inl ⟨ov, hov, hwv⟩, Or.inr ⟨hg, e, hw2⟩ =>
      Or.inr ⟨by rw [goodP, hg]; simp, e, fun acc => by
        obtain ⟨p, hp⟩ := hw2 ((((acc ++ [',', ' ']) ++ ok1) ++ [':', ' ']) ++ ov)
        simp only [List.append_assoc, List.cons_append, List.singleton_append, List.nil_append] at hp
        exact ⟨',' :: ' ' :: ok1 ++ ':' :: ' ' :: ov ++ p, by simp [writeDictRest, hwk, hwv, hp]⟩⟩
    | Or.inl ⟨ok1, hok1, hwk⟩, Or.inr ⟨hg, e, hwv⟩, _ =>
      Or.inr ⟨by rw [goodP, hg]; simp, e, fun acc => by
        obtain ⟨p, hp⟩ := hwv (((acc ++ [',', ' ']) ++ ok1) ++ [':', ' '])
        simp only [List.append_assoc, List.cons_append, List.singleton_append, List.nil_append] at hp
        exact ⟨',' :: ' ' :: ok1 ++ ':' :: ' ' :: p, by simp [writeDictRest, hwk, hp]⟩⟩
    | Or.inr ⟨hg, e, hwk⟩, _, _ =>
      Or.inr ⟨by rw [goodP, hg]; simp, e, fun acc => by
        obtain ⟨p, hp⟩ := hwk (acc ++ [',', ' '])
        simp only [List.append_assoc, List.cons_append, List.singleton_append, List.nil_append] at hp
        exact ⟨',' :: ' ' :: p, by simp [writeDictRest, hp]⟩⟩
end

/-! ### Correct rounding: representable values round to themselves -/

theorem blenAux_zero : ∀ f, blenAux f 0 = 0
  | 0 => rfl
  | _+1 => by simp [blenAux]

theorem blenAux_spec : ∀ f n, n < 2 ^ f → 0 < n →
    n < 2 ^ blenAux f n ∧ 2 ^ blenAux f n ≤ 2 * n := by
  intro f
  induction f with
  | zero => intro n h h0; norm_num at h; omega
  | succ f ih =>
    intro n h h0
    simp only [blenAux]
    rw [if_neg (by omega)]
    by_cases h2 : n / 2 = 0
    · have hn1 : n = 1 := by omega
      subst hn1
      rw [h2, blenAux_zero]
      norm_num
    · have hp : 2 ^ (f + 1) = 2 ^ f * 2 := pow_succ 2 f
      have hlt : n / 2 < 2 ^ f := by omega
      obtain ⟨u1, u2⟩ := ih (n / 2) hlt (by omega)
      rw [pow_succ]
      omega

/-- The binary length brackets its argument: `n < 2^(blen n) ≤ 2n`. -/
theorem blen_spec (n : Nat) (h : 0 < n) :
    n < 2 ^ blen n ∧ 2 ^ blen n ≤ 2 * n :=
  blenAux_spec (n + 1) n (lt_trans (Nat.lt_two_pow n) (Nat.pow_lt_pow_succ (by omega))) h

/-- An integer power of two as a quotient of natural powers. -/
theorem zpow2_eq (e : Int) :
    (2:ℚ) ^ e = (2 ^ e.toNat : ℚ) / (2 ^ (-e).toNat : ℚ) := by
  rcases le_or_lt 0 e with h | h
  · have h2 : ((-e).toNat) = 0 := by omega
    rw [h2, pow_zero, div_one, ← zpow_natCast (2:ℚ) e.toNat, Int.toNat_of_nonneg h]
  · have h1 : e.toNat = 0 := by omega
    rw [h1, pow_zero, ← zpow_natCast (2:ℚ) (-e).toNat, Int.toNat_of_nonneg (by omega),
      one_div, ← zpow_neg, neg_neg]

/-- The cross-multiplied test `pow2le` decides `2^e ≤ n/d` over `ℚ`. -/
theorem pow2le_iff (e : Int) (n d : Nat) (hd : 0 < d) :
    pow2le e n d = true ↔ (2:ℚ) ^ e ≤ (n:ℚ) / (d:ℚ) := by
  have hdq : (0:ℚ) < d := by exact_mod_cast hd
  unfold pow2le
  rw [decide_eq_true_eq, zpow2_eq,
    div_le_div_iff (by positivity) hdq, mul_comm ((2:ℚ) ^ e.toNat) (d:ℚ)]
  exact_mod_cast Iff.rfl

/-- `n/d < 2^a` by cross-multiplication. -/
theorem q_lt_zpow_iff (a : Int) (n d : Nat) (hd : 0 < d) :
    (n:ℚ) / d < (2:ℚ) ^ a ↔ n * 2 ^ (-a).toNat < d * 2 ^ a.toNat := by
  have hdq : (0:ℚ) < d := by exact_mod_cast hd
  rw [zpow2_eq, div_lt_div_iff hdq (by positivity),
    mul_comm ((2:ℚ) ^ a.toNat) (d:ℚ)]
  exact_mod_cast Iff.rfl

/-- `expOf` computes the binary exponent of `n/d`:
`2^(expOf n d) ≤ n/d < 2^(expOf n d + 1)`. -/
theorem expOf_spec (n d : Nat) (hn : 0 < n) (hd : 0 < d) :
    (2:ℚ) ^ expOf n d ≤ (n:ℚ) / d ∧ (n:ℚ) / d < (2:ℚ) ^ (expOf n d + 1) := by
  obtain ⟨bn1, bn2⟩ := blen_spec n hn
  obtain ⟨bd1, bd2⟩ := blen_spec d hd
  have hdq : (0:ℚ) < d := by exact_mod_cast hd
  have hnq : (0:ℚ) < n := by exact_mod_cast hn
  have two_pos : (0:ℚ) < 2 := by norm_num
  set e0 : ℤ := (blen n : ℤ) - (blen d : ℤ) with he0
  have cbn1 : (n:ℚ) < (2:ℚ) ^ (blen n : ℤ) := by
    rw [zpow_natCast]; exact_mod_cast bn1
  have cbn2 : (2:ℚ) ^ (blen n : ℤ) ≤ 2 * n := by
    rw [zpow_natCast]; exact_mod_cast bn2
  have cbd1 : (d:ℚ) < (2:ℚ) ^ (blen d : ℤ) := by
    rw [zpow_natCast]; exact_mod_cast bd1
  have cbd2 : (2:ℚ) ^ (blen d : ℤ) ≤ 2 * d := by
    rw [zpow_natCast]; exact_mod_cast bd2
  have key1 : (2:ℚ) ^ (e0 + 1) * (2:ℚ) ^ (blen d : ℤ) = (2:ℚ) ^ ((blen n : ℤ) + 1) := by
    rw [← zpow_add₀ (two_ne_zero)]
    congr 1
    omega
  have key2 : (2:ℚ) ^ (e0 - 1) * (2:ℚ) ^ (blen d : ℤ) = (2:ℚ) ^ ((blen n : ℤ) - 1) := by
    rw [← zpow_add₀ (two_ne_zero)]
    congr 1
    omega
  have hbn1 : (2:ℚ) ^ ((blen n : ℤ) + 1) = 2 * (2:ℚ) ^ (blen n : ℤ) := by
    rw [zpow_add₀ (two_ne_zero)]
    ring
  have hbn2 : 2 * (2:ℚ) ^ ((blen n : ℤ) - 1) = (2:ℚ) ^ (blen n : ℤ) := by
    rw [mul_comm, ← zpow_add_one₀ (show (2:ℚ) ≠ 0 by norm_num)]
    congr 1
    omega
  have hUp : (n:ℚ) / d < (2:ℚ) ^ (e0 + 1) := by
    rw [div_lt_iff hdq]
    have h1 : (2:ℚ) ^ ((blen n : ℤ) + 1) ≤ (2:ℚ) ^ (e0 + 1) * (2 * (d:ℚ)) := by
      rw [← key1]
      exact mul_le_mul_of_nonneg_left cbd2 (le_of_lt (zpow_pos two_pos (e0 + 1)))
    rw [hbn1] at h1
    linarith [cbn1]
  have hLo : (2:ℚ) ^ (e0 - 1) < (n:ℚ) / d := by
    rw [lt_div_iff hdq]
    have h1 : (2:ℚ) ^ (e0 - 1) * (d:ℚ) < (2:ℚ) ^ ((blen n : ℤ) - 1) := by
      rw [← key2]
      exact mul_lt_mul_of_pos_left cbd1 (zpow_pos two_pos (e0 - 1))
    linarith [cbn2, hbn2]
  simp only [expOf]
  rw [← he0]
  by_cases hc : pow2le e0 n d = true
  · rw [if_pos hc]
    exact ⟨(pow2le_iff e0 n d hd).mp hc, hUp⟩
  · rw [if_neg hc]
    have : ¬ ((2:ℚ) ^ e0 ≤ (n:ℚ) / d) := fun hq => hc ((pow2le_iff e0 n d hd).mpr hq)
    constructor
    · exact le_of_lt hLo
    · have : (n:ℚ) / d < (2:ℚ) ^ e0 := lt_of_not_le this
      have he : e0 - 1 + 1 = e0 := by omega
      rw [he]
      exact this

/-- Round-to-nearest-even is exact on integers. -/
theorem rhe_exact (N b : Nat) (hb : 0 < b) : rhe (N * b) b = N := by
  simp only [rhe]
  have h1 : N * b / b = N := by
    rw [Nat.mul_div_assoc N (dvd_refl b), Nat.div_self hb, mul_one]
  have h2 : N * b % b = 0 := Nat.mul_mod_left N b
  rw [h1, h2]
  split_ifs <;> omega

/-- Canonicalization strips exactly the power-of-two factor of the
mantissa. -/
theorem stripTwos_pow (k : Nat) : ∀ f μ e, μ % 2 = 1 → k < f →
    stripTwos f (μ * 2 ^ k) e = (μ, e + k) := by
  induction k with
  | zero =>
    intro f μ e hodd hf
    cases f with
    | zero => omega
    | succ f =>
      simp only [stripTwos, pow_zero, mul_one]
      rw [if_neg (by omega)]
      simp
  | succ k ih =>
    intro f μ e hodd hf
    cases f with
    | zero => omega
    | succ f =>
      simp only [stripTwos]
      have hne : μ * 2 ^ (k + 1) % 2 = 0 ∧ μ * 2 ^ (k + 1) ≠ 0 := by
        constructor
        · rw [pow_succ, ← mul_assoc]
          exact Nat.mul_mod_left _ 2
        · exact Nat.mul_ne_zero (by omega) (Nat.pow_pos (by omega)).ne'
      rw [if_pos hne]
      have hdiv : μ * 2 ^ (k + 1) / 2 = μ * 2 ^ k := by
        rw [pow_succ, Nat.mul_div_assoc μ (⟨2 ^ k, by ring⟩ : (2:ℕ) ∣ 2 ^ k * 2)]
        congr 1
        omega
      rw [hdiv, ih f μ (e + 1) hodd (by omega)]
      congr 1
      omega

/-- The central rounding lemma: if `n/d` is exactly a representable
binary64 value `μ * 2^e` (canonical odd mantissa, in range), then
`roundRat` returns exactly that value. -/
theorem roundRat_repr (μ : Nat) (e : Int) (n d : Nat) (hn : 0 < n) (hd : 0 < d)
    (hodd : μ % 2 = 1) (hμ : μ < 2 ^ 53) (he : -1074 ≤ e)
    (hv : (μ:ℚ) * (2:ℚ) ^ e < (2:ℚ) ^ (1024:ℤ))
    (hq : (n:ℚ) / d = (μ:ℚ) * (2:ℚ) ^ e) (neg : Bool) :
    roundRat neg n d = .finite (if neg then -(μ:Int) else (μ:Int)) e := by
  have hμ0 : 0 < μ := by omega
  have two_pos : (0:ℚ) < 2 := by norm_num
  have hdq : (0:ℚ) < d := by exact_mod_cast hd
  obtain ⟨hsL, hsU⟩ := expOf_spec n d hn hd
  set e2 := expOf n d with he2
  -- e ≤ e2 ≤ e + 52
  have hq1 : (2:ℚ) ^ e ≤ (n:ℚ) / d := by
    rw [hq]
    have : (1:ℚ) ≤ (μ:ℚ) := by exact_mod_cast hμ0
    nlinarith [zpow_pos two_pos e]
  have hq2 : (n:ℚ) / d < (2:ℚ) ^ (e + 53) := by
    rw [hq]
    have hlt : (μ:ℚ) < (2:ℚ) ^ (53:ℤ) := by
      have h53 : ((2 ^ 53 : Nat) : ℚ) = (2:ℚ) ^ (53:ℤ) := by
        rw [show (53:ℤ) = ((53:ℕ):ℤ) by norm_num, zpow_natCast]
        push_cast
        ring
      rw [← h53]
      exact_mod_cast hμ
    have h2 : (2:ℚ) ^ (e + 53) = (2:ℚ) ^ (53:ℤ) * (2:ℚ) ^ e := by
      rw [← zpow_add₀ (two_ne_zero)]
      congr 1
      omega
    rw [h2]
    nlinarith [zpow_pos two_pos e]
  have heLe : e ≤ e2 := by
    by_contra hcon
    push_neg at hcon
    have : (2:ℚ) ^ e ≥ (2:ℚ) ^ (e2 + 1) := by
      apply zpow_le_zpow_right₀ (by norm_num)
      omega
    linarith
  have he2Le : e2 ≤ e + 52 := by
    by_contra hcon
    push_neg at hcon
    have : (2:ℚ) ^ (e + 53) ≤ (2:ℚ) ^ e2 := by
      apply zpow_le_zpow_right₀ (by norm_num)
      omega
    linarith
  set s : Int := max (e2 - 52) (-1074) with hs
  have hsle : s ≤ e := by omega
  have hk : 0 ≤ e - s := by omega
  have hkb : (e - s).toNat ≤ 52 := by omega
  -- the scaled value is the integer μ * 2^(e - s)
  set N : Nat := μ * 2 ^ (e - s).toNat with hN
  have hN0 : 0 < N := by
    have : 0 < 2 ^ (e - s).toNat := Nat.pos_pow_of_pos _ (by omega)
    positivity
  have h2ne : (2:ℚ) ≠ 0 := by norm_num
  have hpow_id : (2:ℚ) ^ ((e - s).toNat) * (2:ℚ) ^ (s.toNat) =
      (2:ℚ) ^ e * (2:ℚ) ^ ((-s).toNat) := by
    rw [← zpow_natCast (2:ℚ) (e - s).toNat, ← zpow_natCast (2:ℚ) s.toNat,
      ← zpow_natCast (2:ℚ) (-s).toNat, ← zpow_add₀ h2ne, ← zpow_add₀ h2ne]
    congr 1
    omega
  have hq' := hq
  rw [div_eq_iff (ne_of_gt hdq)] at hq'
  have hcast : ((n * 2 ^ (-s).toNat : Nat) : ℚ) = ((N * (d * 2 ^ s.toNat) : Nat) : ℚ) := by
    push_cast [hN]
    rw [hq']
    linear_combination (-(μ:ℚ) * (d:ℚ)) * hpow_id
  have hmul : n * 2 ^ (-s).toNat = N * (d * 2 ^ s.toNat) := by exact_mod_cast hcast
  have hdpos : 0 < d * 2 ^ s.toNat := by
    have : 0 < 2 ^ s.toNat := Nat.pos_pow_of_pos _ (by omega)
    positivity
  -- no overflow: μ * 2^e < 2^1024
  have hnoovf : ¬ (2 ^ 1024 * 2 ^ (-s).toNat ≤ N * 2 ^ s.toNat) := by
    intro hcon
    have hcq : (2:ℚ) ^ (1024:Nat) * (2:ℚ) ^ ((-s).toNat) ≤ (N:ℚ) * (2:ℚ) ^ (s.toNat) := by
      exact_mod_cast hcon
    have hNq : (N:ℚ) * (2:ℚ) ^ s.toNat = (μ:ℚ) * ((2:ℚ) ^ e * (2:ℚ) ^ ((-s).toNat)) := by
      rw [hN]
      push_cast
      rw [mul_assoc, hpow_id]
    have h1024 : (2:ℚ) ^ (1024:Nat) = (2:ℚ) ^ (1024:ℤ) := by
      rw [← zpow_natCast (2:ℚ) 1024]
      norm_num
    rw [hNq, h1024] at hcq
    have hvv := mul_lt_mul_of_pos_right hv
      (show (0:ℚ) < (2:ℚ) ^ ((-s).toNat) by positivity)
    linarith [hcq, hvv]
  -- evaluate roundRat
  have hm0 : rhe (n * 2 ^ (-s).toNat) (d * 2 ^ s.toNat) = N := by
    rw [hmul]
    exact rhe_exact N _ hdpos
  simp only [roundRat]
  rw [if_neg (show ¬ n = 0 by omega), ← he2, ← hs, hm0]
  rw [if_neg (show ¬ N = 0 by omega), if_neg hnoovf]
  rw [hN, stripTwos_pow (e - s).toNat 64 μ s hodd (by omega)]
  simp
  omega

/-- The well-formedness range bound, restated over `ℚ`. -/
theorem wf_val_lt (μ : Nat) (e : Int)
    (h : μ * 2 ^ e.toNat < 2 ^ 1024 * 2 ^ (-e).toNat) :
    (μ:ℚ) * (2:ℚ) ^ e < (2:ℚ) ^ (1024:ℤ) := by
  have h2ne : (2:ℚ) ≠ 0 := by norm_num
  have hpos : (0:ℚ) < (2:ℚ) ^ ((-e).toNat) := by positivity
  rw [← mul_lt_mul_right hpos]
  have hL : (μ:ℚ) * (2:ℚ) ^ e * (2:ℚ) ^ ((-e).toNat) = (μ:ℚ) * (2:ℚ) ^ (e.toNat) := by
    rw [mul_assoc, ← zpow_natCast (2:ℚ) (-e).toNat, ← zpow_natCast (2:ℚ) e.toNat,
      ← zpow_add₀ h2ne]
    congr 1
    congr 1
    omega
  have h1024 : (2:ℚ) ^ (1024:ℤ) = (2:ℚ) ^ (1024:ℕ) := by
    rw [← zpow_natCast (2:ℚ) 1024]
    norm_num
  rw [hL, h1024]
  exact_mod_cast h

/-- Whatever the digit search returns satisfies the round-trip equation
recorded in `candOk`. -/
theorem searchDigitsAux_ok (μ : Nat) (e : Int) (n d : Nat) (k : Int) :
    ∀ f p c, searchDigitsAux μ e n d k f p = some c →
      decToF64 false c.1 (c.2 - ((natDigits c.1).length : Int) + 1)
        = F64.finite (μ : Int) e := by
  intro f
  induction f with
  | zero => intro p c h; simp [searchDigitsAux] at h
  | succ f ih =>
    intro p c h
    simp only [searchDigitsAux] at h
    by_cases hc : candOk μ e p (candAt n d k p) = true
    · rw [if_pos hc] at h
      injection h with h2
      subst h2
      simp only [candOk, Bool.and_eq_true, decide_eq_true_eq] at hc
      obtain ⟨hl, hd2⟩ := hc
      rw [hl]
      exact hd2
    · rw [if_neg hc] at h
      exact ih (p + 1) c h

/-- `floatDigits` is correct by construction: parsing its decimal digits
back with correct rounding recovers exactly the binary64 value, for every
well-formed positive finite input. -/
theorem floatDigits_spec (μ : Nat) (e : Int) (hodd : μ % 2 = 1) (hμ : μ < 2 ^ 53)
    (he : -1074 ≤ e) (hv : (μ:ℚ) * (2:ℚ) ^ e < (2:ℚ) ^ (1024:ℤ)) :
    decToF64 false (floatDigits μ e).1
      ((floatDigits μ e).2 - ((natDigits (floatDigits μ e).1).length : Int) + 1)
      = F64.finite (μ : Int) e := by
  have hμ0 : 0 < μ := by omega
  simp only [floatDigits]
  set n0 := if 0 ≤ e then μ * 2 ^ e.toNat else μ with hn0
  set d0 := if 0 ≤ e then 1 else 2 ^ (-e).toNat with hd0
  set k0 := decExp10 n0 d0 with hk0
  cases hs : searchDigitsAux μ e n0 d0 k0 17 1 with
  | some c =>
    exact searchDigitsAux_ok μ e n0 d0 k0 17 1 c hs
  | none =>
    by_cases hepos : 0 ≤ e
    · rw [if_pos hepos]
      set L : Int := ((natDigits (μ * 2 ^ e.toNat)).length : Int) with hLdef
      have h0 : L - 1 - L + 1 = (0:ℤ) := by omega
      rw [h0]
      have hd1 : decToF64 false (μ * 2 ^ e.toNat) 0
          = roundRat false (μ * 2 ^ e.toNat) 1 := by
        simp [decToF64]
      rw [hd1]
      have hnpos : 0 < μ * 2 ^ e.toNat := Nat.mul_pos hμ0 (Nat.pow_pos (by omega))
      have hq0 : ((μ * 2 ^ e.toNat : Nat) : ℚ) / ((1:ℕ):ℚ) = (μ:ℚ) * (2:ℚ) ^ e := by
        push_cast
        rw [div_one]
        have h2 : ((2:ℚ)) ^ (e.toNat) = (2:ℚ) ^ e := by
          rw [← zpow_natCast (2:ℚ) e.toNat, Int.toNat_of_nonneg hepos]
        rw [h2]
      exact roundRat_repr μ e (μ * 2 ^ e.toNat) 1 hnpos one_pos hodd hμ he hv hq0 false
    · rw [if_neg hepos]
      set L : Int := ((natDigits (μ * 5 ^ (-e).toNat)).length : Int) with hLdef
      have h0 : L - 1 + e - L + 1 = e := by omega
      rw [h0]
      have hd1 : decToF64 false (μ * 5 ^ (-e).toNat) e
          = roundRat false (μ * 5 ^ (-e).toNat) (10 ^ (-e).toNat) := by
        simp [decToF64, hepos]
      rw [hd1]
      have hnpos : 0 < μ * 5 ^ (-e).toNat := Nat.mul_pos hμ0 (Nat.pow_pos (by omega))
      have hdpos2 : 0 < 10 ^ (-e).toNat := Nat.pow_pos (by omega)
      have hq0 : ((μ * 5 ^ (-e).toNat : Nat) : ℚ) / ((10 ^ (-e).toNat : Nat) : ℚ)
          = (μ:ℚ) * (2:ℚ) ^ e := by
        have hden : (0:ℚ) < ((10 ^ (-e).toNat : Nat) : ℚ) := by exact_mod_cast hdpos2
        rw [div_eq_iff (ne_of_gt hden)]
        push_cast
        have h10 : (10:ℚ) ^ (-e).toNat = 2 ^ (-e).toNat * 5 ^ (-e).toNat := by
          rw [← mul_pow]
          norm_num
        have h2e : (2:ℚ) ^ e * (2:ℚ) ^ ((-e).toNat) = 1 := by
          rw [← zpow_natCast (2:ℚ) (-e).toNat,
            ← zpow_add₀ (show (2:ℚ) ≠ 0 by norm_num),
            show e + (((-e).toNat : ℕ) : ℤ) = 0 by omega, zpow_zero]
        rw [h10]
        linear_combination (-(μ:ℚ) * 5 ^ (-e).toNat) * h2e
      exact roundRat_repr μ e (μ * 5 ^ (-e).toNat) (10 ^ (-e).toNat)
        hnpos hdpos2 hodd hμ he hv hq0 false

/-! ### Digit strings: class membership and refolding -/

theorem digVal_digitChar {n : Nat} (h : n < 10) : digVal (digitChar n) = n := by
  unfold digVal
  rw [digitChar_toNat h, if_pos (by omega)]
  omega

theorem digVal_hexChar {n : Nat} (h : n < 16) : digVal (hexChar n) = n := by
  unfold digVal
  rw [hexChar_toNat h]
  by_cases h10 : n < 10
  · simp only [if_pos h10]
    rw [if_pos (by omega)]
    omega
  · simp only [if_neg h10]
    rw [if_neg (by omega), if_pos (by omega)]
    omega

theorem isDecDig_digitChar {n : Nat} (h : n < 10) : isDecDig (digitChar n) = true := by
  simp only [isDecDig, digitChar_toNat h, Bool.and_eq_true, decide_eq_true_eq]
  omega

theorem isHexDig_hexChar {n : Nat} (h : n < 16) : isHexDig (hexChar n) = true := by
  have ht := hexChar_toNat h
  simp only [isHexDig, isDecDig, ht, Bool.or_eq_true, Bool.and_eq_true, decide_eq_true_eq]
  by_cases h10 : n < 10
  · simp only [if_pos h10]
    omega
  · simp only [if_neg h10]
    omega

/-- A decimal digit character is none of the marker characters the lexer
tests for. -/
theorem decDig_facts {c : Char} (h : isDecDig c = true) :
    c ≠ 'b' ∧ c ≠ 'B' ∧ c ≠ 'o' ∧ c ≠ 'O' ∧ c ≠ 'x' ∧ c ≠ 'X' ∧ c ≠ '_' ∧ c ≠ '.'
      ∧ c ≠ 'e' ∧ c ≠ 'E' ∧ c ≠ 'j' ∧ c ≠ 'J' ∧ c ≠ '+' ∧ c ≠ '-' ∧ isWsCh c = false
      ∧ c ≠ squote ∧ c ≠ '"' ∧ c ≠ 'T' ∧ c ≠ 'F' ∧ c ≠ 'N' ∧ c ≠ '(' ∧ c ≠ '['
      ∧ c ≠ lbrace ∧ c ≠ ',' ∧ c ≠ ':' ∧ c ≠ ')' ∧ c ≠ ']' ∧ c ≠ rbrace := by
  simp only [isDecDig, Bool.and_eq_true, decide_eq_true_eq] at h
  have e1 : ('b').toNat = 98 := by decide
  have e2 : ('B').toNat = 66 := by decide
  have e3 : ('o').toNat = 111 := by decide
  have e4 : ('O').toNat = 79 := by decide
  have e5 : ('x').toNat = 120 := by decide
  have e6 : ('X').toNat = 88 := by decide
  have e7 : ('_').toNat = 95 := by decide
  have e8 : ('.').toNat = 46 := by decide
  have e9 : ('e').toNat = 101 := by decide
  have e10 : ('E').toNat = 69 := by decide
  have e11 : ('j').toNat = 106 := by decide
  have e12 : ('J').toNat = 74 := by decide
  have e13 : ('+').toNat = 43 := by decide
  have e14 : ('-').toNat = 45 := by decide
  have e15 : squote.toNat = 39 := by decide
  have e16 : ('"').toNat = 34 := by decide
  have e17 : ('T').toNat = 84 := by decide
  have e18 : ('F').toNat = 70 := by decide
  have e19 : ('N').toNat = 78 := by decide
  have e20 : ('(').toNat = 40 := by decide
  have e21 : ('[').toNat = 91 := by decide
  have e22 : lbrace.toNat = 123 := by decide
  have e23 : (',').toNat = 44 := by decide
  have e24 : (':').toNat = 58 := by decide
  have e25 : (')').toNat = 41 := by decide
  have e26 : (']').toNat = 93 := by decide
  have e27 : rbrace.toNat = 125 := by decide
  have e28 : (' ').toNat = 32 := by decide
  have e29 : ('\t').toNat = 9 := by decide
  have hsp : c ≠ ' ' := char_ne_of_toNat_ne (by omega)
  have hta : c ≠ '\t' := char_ne_of_toNat_ne (by omega)
  and_intros <;> first
    | exact char_ne_of_toNat_ne (by omega)
    | simp [isWsCh, hsp, hta]

theorem natDigitsAux_all_dec : ∀ f n c, c ∈ natDigitsAux f n → isDecDig c = true := by
  intro f
  induction f with
  | zero => intro n c hc; simp [natDigitsAux] at hc
  | succ f ih =>
    intro n c hc
    simp only [natDigitsAux] at hc
    by_cases h10 : n < 10
    · rw [if_pos h10] at hc
      simp at hc
      subst hc
      exact isDecDig_digitChar h10
    · rw [if_neg h10] at hc
      simp at hc
      rcases hc with hc | hc
      · exact ih _ _ hc
      · subst hc
        exact isDecDig_digitChar (Nat.mod_lt _ (by omega))

theorem natDigits_all_dec (n : Nat) : ∀ c ∈ natDigits n, isDecDig c = true :=
  fun c hc => natDigitsAux_all_dec _ n c hc

theorem natDigitsAux_ne_nil (f n : Nat) : natDigitsAux (f + 1) n ≠ [] := by
  simp only [natDigitsAux]
  by_cases h10 : n < 10
  · rw [if_pos h10]
    simp
  · rw [if_neg h10]
    simp

theorem natDigits_ne_nil (n : Nat) : natDigits n ≠ [] := natDigitsAux_ne_nil n n

theorem foldRadix_cons0 (r : Nat) (t : List Char) : foldRadix r ('0' :: t) = foldRadix r t := by
  show List.foldl _ (0 * r + digVal ('0')) t = List.foldl _ 0 t
  congr 1
  have h0 : digVal ('0') = 0 := by decide
  omega

theorem foldRadix_go (r : Nat) : ∀ (cs : List Char) (a : Nat),
    cs.foldl (fun x c => x * r + digVal c) a = a * r ^ cs.length + foldRadix r cs := by
  intro cs
  induction cs with
  | nil => intro a; simp [foldRadix]
  | cons c t ih =>
    intro a
    have hfr : foldRadix r (c :: t) = digVal c * r ^ t.length + foldRadix r t := by
      show t.foldl _ (0 * r + digVal c) = _
      rw [ih (0 * r + digVal c), Nat.zero_mul, Nat.zero_add]
    simp only [List.foldl_cons, List.length_cons, hfr]
    rw [ih (a * r + digVal c), pow_succ]
    ring

theorem foldRadix_append (r : Nat) (a b : List Char) :
    foldRadix r (a ++ b) = foldRadix r a * r ^ b.length + foldRadix r b := by
  show (a ++ b).foldl _ 0 = _
  rw [List.foldl_append, foldRadix_go]
  rfl

theorem foldRadix_zeros (r : Nat) : ∀ z (l : List Char),
    foldRadix r (List.replicate z ('0') ++ l) = foldRadix r l := by
  intro z
  induction z with
  | zero => intro l; simp
  | succ z ih =>
    intro l
    simp only [List.replicate_succ, List.cons_append]
    rw [foldRadix_cons0]
    exact ih l

theorem foldRadix_trailing_zeros (r : Nat) (l : List Char) (z : Nat) :
    foldRadix r (l ++ List.replicate z ('0')) = foldRadix r l * r ^ z := by
  rw [foldRadix_append]
  have h1 : foldRadix r (List.replicate z ('0')) = 0 := by
    have h2 := foldRadix_zeros r z []
    simpa [foldRadix] using h2
  rw [h1, List.length_replicate, Nat.add_zero]

theorem natDigitsAux_fold : ∀ f n, n < 10 ^ f → foldRadix 10 (natDigitsAux f n) = n := by
  intro f
  induction f with
  | zero =>
    intro n h
    norm_num at h
    simp [natDigitsAux, foldRadix, h]
  | succ f ih =>
    intro n h
    simp only [natDigitsAux]
    by_cases h10 : n < 10
    · rw [if_pos h10]
      show 0 * 10 + digVal (digitChar n) = n
      rw [digVal_digitChar h10]
      omega
    · rw [if_neg h10]
      rw [foldRadix_append]
      have hp := pow_succ 10 f
      have hd : n / 10 < 10 ^ f := by omega
      rw [ih _ hd]
      have hlast : foldRadix 10 [digitChar (n % 10)] = n % 10 := by
        show 0 * 10 + digVal (digitChar (n % 10)) = n % 10
        rw [digVal_digitChar (Nat.mod_lt _ (by omega))]
        omega
      rw [hlast]
      simp only [List.length_singleton, pow_one]
      omega

theorem natDigits_fold (n : Nat) : foldRadix 10 (natDigits n) = n := by
  have h1 : n < 2 ^ n := Nat.lt_two_pow n
  have h2 : 2 ^ n ≤ 10 ^ n := Nat.pow_le_pow_left (by omega) n
  have h3 : 10 ^ n < 10 ^ (n + 1) := Nat.pow_lt_pow_succ (by omega)
  exact natDigitsAux_fold (n + 1) n (by omega)

theorem natHexAux_all_hex : ∀ f n c, c ∈ natHexAux f n → isHexDig c = true := by
  intro f
  induction f with
  | zero => intro n c hc; simp [natHexAux] at hc
  | succ f ih =>
    intro n c hc
    simp only [natHexAux] at hc
    by_cases h16 : n < 16
    · rw [if_pos h16] at hc
      simp at hc
      subst hc
      exact isHexDig_hexChar h16
    · rw [if_neg h16] at hc
      simp at hc
      rcases hc with hc | hc
      · exact ih _ _ hc
      · subst hc
        exact isHexDig_hexChar (Nat.mod_lt _ (by omega))

theorem natHexAux_fold : ∀ f n, n < 16 ^ f → foldRadix 16 (natHexAux f n) = n := by
  intro f
  induction f with
  | zero =>
    intro n h
    norm_num at h
    simp [natHexAux, foldRadix, h]
  | succ f ih =>
    intro n h
    simp only [natHexAux]
    by_cases h16 : n < 16
    · rw [if_pos h16]
      show 0 * 16 + digVal (hexChar n) = n
      rw [digVal_hexChar h16]
      omega
    · rw [if_neg h16]
      rw [foldRadix_append]
      have hp := pow_succ 16 f
      have hd : n / 16 < 16 ^ f := by omega
      rw [ih _ hd]
      have hlast : foldRadix 16 [hexChar (n % 16)] = n % 16 := by
        show 0 * 16 + digVal (hexChar (n % 16)) = n % 16
        rw [digVal_hexChar (Nat.mod_lt _ (by omega))]
        omega
      rw [hlast]
      simp only [List.length_singleton, pow_one]
      omega

theorem natHexAux_len : ∀ f n w, n < 16 ^ f → n < 16 ^ w → 0 < w →
    (natHexAux f n).length ≤ w := by
  intro f
  induction f with
  | zero =>
    intro n w h _ _
    simp [natHexAux]
  | succ f ih =>
    intro n w h hw hw0
    simp only [natHexAux]
    by_cases h16 : n < 16
    · rw [if_pos h16]
      simpa using hw0
    · rw [if_neg h16]
      rcases w with _ | w2
      · omega
      · have hpf := pow_succ 16 f
        have hpw := pow_succ 16 w2
        have hd : n / 16 < 16 ^ f := by omega
        have hw2 : 0 < w2 := by
          by_contra hc
          have hz : w2 = 0 := by omega
          rw [hz] at hw
          norm_num at hw
          omega
        have hd2 : n / 16 < 16 ^ w2 := by omega
        have := ih (n / 16) w2 hd hd2 hw2
        simp only [List.length_append, List.length_singleton]
        omega

theorem natHexPad_spec (w n : Nat) (hw : 0 < w) (h : n < 16 ^ w) :
    (natHexPad w n).length = w ∧ (∀ c ∈ natHexPad w n, isHexDig c = true)
      ∧ foldRadix 16 (natHexPad w n) = n := by
  have hfuel : n < 16 ^ (n + 1) := by
    have h1 : n < 2 ^ n := Nat.lt_two_pow n
    have h2 : 2 ^ n ≤ 16 ^ n := Nat.pow_le_pow_left (by omega) n
    have h3 : 16 ^ n < 16 ^ (n + 1) := Nat.pow_lt_pow_succ (by omega)
    omega
  have hlen : (natHex n).length ≤ w := natHexAux_len (n + 1) n w hfuel h hw
  refine ⟨?_, ?_, ?_⟩
  · simp only [natHexPad, List.length_append, List.length_replicate]
    omega
  · intro c hc
    simp only [natHexPad, List.mem_append] at hc
    rcases hc with hc | hc
    · have := List.eq_of_mem_replicate hc
      subst this
      decide
    · exact natHexAux_all_hex _ _ _ hc
  · simp only [natHexPad]
    rw [foldRadix_zeros]
    exact natHexAux_fold (n + 1) n hfuel

/-! ### Small list and character utilities -/

theorem exists_cons_of_len {l : List Char} {k : Nat} (h : l.length = k + 1) :
    ∃ a t, l = a :: t ∧ t.length = k := by
  cases l with
  | nil => simp at h
  | cons a t => exact ⟨a, t, rfl, by simpa using h⟩

theorem list_len2 {l : List Char} (h : l.length = 2) : ∃ a b, l = [a, b] := by
  obtain ⟨a, t1, rfl, h1⟩ := exists_cons_of_len h
  obtain ⟨b, t2, rfl, h2⟩ := exists_cons_of_len h1
  have h3 : t2 = [] := List.length_eq_zero.mp h2
  subst h3
  exact ⟨a, b, rfl⟩

theorem list_len4 {l : List Char} (h : l.length = 4) : ∃ a b c d, l = [a, b, c, d] := by
  obtain ⟨a, t1, rfl, h1⟩ := exists_cons_of_len h
  obtain ⟨b, t2, rfl, h2⟩ := exists_cons_of_len h1
  obtain ⟨c, t3, rfl, h3⟩ := exists_cons_of_len h2
  obtain ⟨d, t4, rfl, h4⟩ := exists_cons_of_len h3
  have h5 : t4 = [] := List.length_eq_zero.mp h4
  subst h5
  exact ⟨a, b, c, d, rfl⟩

theorem list_len8 {l : List Char} (h : l.length = 8) :
    ∃ a b c d e f g k, l = [a, b, c, d, e, f, g, k] := by
  obtain ⟨a, t1, rfl, h1⟩ := exists_cons_of_len h
  obtain ⟨b, t2, rfl, h2⟩ := exists_cons_of_len h1
  obtain ⟨c, t3, rfl, h3⟩ := exists_cons_of_len h2
  obtain ⟨d, t4, rfl, h4⟩ := exists_cons_of_len h3
  obtain ⟨e, t5, rfl, h5⟩ := exists_cons_of_len h4
  obtain ⟨f, t6, rfl, h6⟩ := exists_cons_of_len h5
  obtain ⟨g, t7, rfl, h7⟩ := exists_cons_of_len h6
  obtain ⟨k, t8, rfl, h8⟩ := exists_cons_of_len h7
  have h9 : t8 = [] := List.length_eq_zero.mp h8
  subst h9
  exact ⟨a, b, c, d, e, f, g, k, rfl⟩

/-- The code point of any `Char` is a valid code point. -/
theorem toNat_isValid (c : Char) : Nat.isValidChar c.toNat := c.valid

/-! ### Whitespace, sign runs and digit runs -/

theorem skipWs_cons {c : Char} (t : List Char) (h : isWsCh c = false) :
    skipWs (c :: t) = c :: t := by
  simp [skipWs, h]

theorem skipWs_space (t : List Char) : skipWs (' ' :: t) = skipWs t := by
  simp [skipWs, isWsCh]

theorem signSpan_minus (t : List Char) :
    signSpan ('-' :: t) = ((signSpan t).1 + 1, (signSpan t).2) := by
  simp only [signSpan]
  rw [if_neg (by decide), if_pos (by decide)]

theorem signSpan_plus (t : List Char) : signSpan ('+' :: t) = signSpan t := by
  simp only [signSpan]
  rw [if_pos (by decide)]

theorem signSpan_stop {c : Char} (t : List Char) (h1 : c ≠ '+') (h2 : c ≠ '-')
    (h3 : isWsCh c = false) : signSpan (c :: t) = (0, c :: t) := by
  simp only [signSpan]
  rw [if_neg (by simp [h1, h3]), if_neg (by simp [h2])]

theorem digitSpan_split (p : Char → Bool) : ∀ (ds rest : List Char),
    (∀ c ∈ ds, p c = true) →
    (rest = [] ∨ ∃ c t, rest = c :: t ∧ p c = false ∧ c ≠ '_') →
    digitSpan p (ds ++ rest) = (ds, rest) := by
  intro ds
  induction ds with
  | nil =>
    intro rest _ hrest
    rcases hrest with rfl | ⟨c, t, rfl, hc, hu⟩
    · rfl
    · simp only [List.nil_append, digitSpan]
      rw [if_neg (by simp [hc]), if_neg (by simp [hu])]
  | cons d ds ih =>
    intro rest hds hrest
    simp only [List.cons_append, digitSpan]
    rw [if_pos (hds d (List.mem_cons_self d ds))]
    simp only [List.append_eq]
    rw [ih rest (fun c hc => hds c (List.mem_cons_of_mem d hc)) hrest]

theorem delimB_numStop {rest : List Char} (h : delimB rest = true) : numStop rest = true := by
  cases rest with
  | nil => rfl
  | cons c t =>
    simp only [delimB, Bool.or_eq_true, decide_eq_true_eq] at h
    have hc : c = ',' ∨ c = ':' ∨ c = ')' ∨ c = ']' ∨ c = rbrace := by tauto
    rcases hc with rfl | rfl | rfl | rfl | rfl <;> (simp only [numStop]; decide)

theorem delimB_head_facts {c : Char} {t : List Char} (h : delimB (c :: t) = true) :
    isWsCh c = false ∧ c ≠ '+' ∧ c ≠ '-' ∧ c ≠ 'j' ∧ c ≠ 'J' ∧ isDecDig c = false
      ∧ c ≠ '_' ∧ c ≠ '.' ∧ c ≠ 'e' ∧ c ≠ 'E' := by
  simp only [delimB, Bool.or_eq_true, decide_eq_true_eq] at h
  have hc : c = ',' ∨ c = ':' ∨ c = ')' ∨ c = ']' ∨ c = rbrace := by tauto
  rcases hc with rfl | rfl | rfl | rfl | rfl <;> exact ⟨by decide, by decide, by decide,
    by decide, by decide, by decide, by decide, by decide, by decide, by decide⟩

/-! ### Base steps of the numeric-expression fold -/

theorem pneLoop_minus (t : List NumTok) (r : Value) (neg : Bool) :
    pneLoop (.minusTok :: t) r neg = pneLoop t r (!neg) := rfl

theorem pneLoop_step {N : NumberNode} (t : List NumTok) {r : Value} (neg : Bool)
    {num r2 : Value} (hp : parse_number N = .ok num)
    (hc : (if neg then sub_numbers r num else add_numbers r num) = .ok r2) :
    pneLoop (.numTok N :: t) r neg = pneLoop t r2 false := by
  simp only [pneLoop, hp]
  rw [hc]

/-- Negating the sign flag of `roundRat` negates a finite result. -/
theorem roundRat_negflip {n d : Nat} {m e : Int}
    (h : roundRat false n d = .finite m e) : roundRat true n d = .finite (-m) e := by
  simp only [roundRat] at h ⊢
  split_ifs at h ⊢ <;> simp_all

theorem numStop_split {rest : List Char} (h : numStop rest = true) :
    rest = [] ∨ ∃ c t, rest = c :: t ∧ isDecDig c = false ∧ c ≠ '_' ∧ c ≠ '.' ∧ c ≠ 'e'
      ∧ c ≠ 'E' ∧ c ≠ 'j' ∧ c ≠ 'J' ∧ c ≠ 'b' ∧ c ≠ 'B' ∧ c ≠ 'o' ∧ c ≠ 'O'
      ∧ c ≠ 'x' ∧ c ≠ 'X' := by
  cases rest with
  | nil => exact Or.inl rfl
  | cons c t =>
    simp only [numStop, Bool.and_eq_true, Bool.not_eq_true', decide_eq_false_iff_not,
      Bool.not_eq_true] at h
    refine Or.inr ⟨c, t, rfl, ?_, ?_, ?_, ?_, ?_, ?_, ?_, ?_, ?_, ?_, ?_, ?_, ?_⟩ <;>
      tauto

theorem numStop_plus (t : List Char) : numStop ('+' :: t) = true := by
  simp only [numStop]
  decide

theorem numStop_minus (t : List Char) : numStop ('-' :: t) = true := by
  simp only [numStop]
  decide

/-- A decimal digit never triggers the radix-prefix test. -/
theorem decDig_no_radix {c p : Char} (hp : isDecDig p = true) :
    (c = '0' && (p = 'b' || p = 'B')) = false ∧ (c = '0' && (p = 'o' || p = 'O')) = false
      ∧ (c = '0' && (p = 'x' || p = 'X')) = false := by
  obtain ⟨h1, h2, h3, h4, h5, h6, -⟩ := decDig_facts hp
  refine ⟨?_, ?_, ?_⟩ <;> simp [h1, h2, h3, h4, h5, h6]

/-! ### String and bytes bodies round-trip through the lexer -/

theorem lexStr_round : ∀ (s : List Char) (f : Nat) (rest : List Char),
    (s.flatMap escStrChar).length < f →
    ∃ items, lexStrItems f squote (s.flatMap escStrChar ++ squote :: rest) = .ok (items, rest)
      ∧ parse_string items = .ok s := by
  intro s
  induction s with
  | nil =>
    intro f rest hf
    simp only [List.flatMap_nil, List.length_nil] at hf
    obtain ⟨f2, rfl⟩ : ∃ f2, f = f2 + 1 := ⟨f - 1, by omega⟩
    refine ⟨[], ?_, rfl⟩
    simp [lexStrItems]
  | cons c s ih =>
    intro f rest hf
    have hfm : (c :: s).flatMap escStrChar = escStrChar c ++ s.flatMap escStrChar := by
      simp
    rw [hfm] at hf ⊢
    rw [List.length_append] at hf
    by_cases hc1 : c = bslash
    · subst hc1
      rw [show escStrChar bslash = [bslash, bslash] by decide] at hf ⊢
      obtain ⟨f2, rfl⟩ : ∃ f2, f = f2 + 1 := ⟨f - 1, by simp at hf; omega⟩
      simp only [List.length_cons] at hf
      obtain ⟨items, hlex, hparse⟩ := ih f2 rest (by omega)
      refine ⟨.escapeSeq (.charE bslash) :: items, ?_, ?_⟩
      · simp +decide [lexStrItems, consFst, Outcome.map, hlex]
      · simp +decide [parse_string, parse_string_escape_seq, bind, pure, hparse]
    · by_cases hc2 : c = '\r'
      · subst hc2
        rw [show escStrChar ('\r') = [bslash, 'r'] by decide] at hf ⊢
        obtain ⟨f2, rfl⟩ : ∃ f2, f = f2 + 1 := ⟨f - 1, by simp at hf; omega⟩
        simp only [List.length_cons] at hf
        obtain ⟨items, hlex, hparse⟩ := ih f2 rest (by omega)
        refine ⟨.escapeSeq (.charE 'r') :: items, ?_, ?_⟩
        · simp +decide [lexStrItems, consFst, Outcome.map, hlex]
        · simp +decide [parse_string, parse_string_escape_seq, bind, pure, hparse]
      · by_cases hc3 : c = '\n'
        · subst hc3
          rw [show escStrChar ('\n') = [bslash, 'n'] by decide] at hf ⊢
          obtain ⟨f2, rfl⟩ : ∃ f2, f = f2 + 1 := ⟨f - 1, by simp at hf; omega⟩
          simp only [List.length_cons] at hf
          obtain ⟨items, hlex, hparse⟩ := ih f2 rest (by omega)
          refine ⟨.escapeSeq (.charE 'n') :: items, ?_, ?_⟩
          · simp +decide [lexStrItems, consFst, Outcome.map, hlex]
          · simp +decide [parse_string, parse_string_escape_seq, bind, pure, hparse]
        · by_cases hc4 : c = squote
          · subst hc4
            rw [show escStrChar squote = [bslash, squote] by decide] at hf ⊢
            obtain ⟨f2, rfl⟩ : ∃ f2, f = f2 + 1 := ⟨f - 1, by simp at hf; omega⟩
            simp only [List.length_cons] at hf
            obtain ⟨items, hlex, hparse⟩ := ih f2 rest (by omega)
            refine ⟨.escapeSeq (.charE squote) :: items, ?_, ?_⟩
            · simp +decide [lexStrItems, consFst, Outcome.map, hlex]
            · simp +decide [parse_string, parse_string_escape_seq, bind, pure, hparse]
          · by_cases hc5 : c.toNat ≤ 127
            · rw [show escStrChar c = [c]
                  by simp [escStrChar, hc1, hc2, hc3, hc4, hc5]] at hf ⊢
              obtain ⟨f2, rfl⟩ : ∃ f2, f = f2 + 1 := ⟨f - 1, by simp at hf; omega⟩
              simp only [List.length_cons] at hf
              obtain ⟨items, hlex, hparse⟩ := ih f2 rest (by omega)
              refine ⟨.nonEscape [c] :: items, ?_, ?_⟩
              · simp +decide [lexStrItems, hc1, hc3, hc4, consFst, Outcome.map, hlex]
              · simp +decide [parse_string, Outcome.map, hparse]
            · by_cases hc6 : c.toNat ≤ 0xff
              · obtain ⟨hplen, hphex, hpfold⟩ :=
                  natHexPad_spec 2 c.toNat (by omega) (by norm_num; omega)
                obtain ⟨h1, h2, hpad⟩ := list_len2 hplen
                rw [show escStrChar c = bslash :: 'x' :: natHexPad 2 c.toNat
                    by simp [escStrChar, hc1, hc2, hc3, hc4, hc5, hc6]] at hf ⊢
                rw [hpad] at hf ⊢
                obtain ⟨f2, rfl⟩ : ∃ f2, f = f2 + 1 := ⟨f - 1, by simp at hf; omega⟩
                simp only [List.length_cons] at hf
                obtain ⟨items, hlex, hparse⟩ := ih f2 rest (by omega)
                have hh1 : isHexDig h1 = true := hphex h1 (by rw [hpad]; simp)
                have hh2 : isHexDig h2 = true := hphex h2 (by rw [hpad]; simp)
                have hno1 : isOctDig ('x') = false := by decide
                refine ⟨.escapeSeq (.hexE [h1, h2]) :: items, ?_, ?_⟩
                · simp +decide [lexStrItems, hh1, hh2, consFst, Outcome.map, hlex]
                · rw [hpad] at hpfold
                  simp +decide [parse_string, parse_string_escape_seq, bind, pure, hparse, hpfold,
                    toNat_isValid c, Char.ofNat_toNat]
              · by_cases hc7 : c.toNat ≤ 0xffff
                · obtain ⟨hplen, hphex, hpfold⟩ :=
                    natHexPad_spec 4 c.toNat (by omega) (by norm_num; omega)
                  obtain ⟨h1, h2, h3, h4, hpad⟩ := list_len4 hplen
                  rw [show escStrChar c = bslash :: 'u' :: natHexPad 4 c.toNat
                      by simp [escStrChar, hc1, hc2, hc3, hc4, hc5, hc6, hc7]] at hf ⊢
                  rw [hpad] at hf ⊢
                  obtain ⟨f2, rfl⟩ : ∃ f2, f = f2 + 1 := ⟨f - 1, by simp at hf; omega⟩
                  simp only [List.length_cons] at hf
                  obtain ⟨items, hlex, hparse⟩ := ih f2 rest (by omega)
                  have hh1 : isHexDig h1 = true := hphex h1 (by rw [hpad]; simp)
                  have hh2 : isHexDig h2 = true := hphex h2 (by rw [hpad]; simp)
                  have hh3 : isHexDig h3 = true := hphex h3 (by rw [hpad]; simp)
                  have hh4 : isHexDig h4 = true := hphex h4 (by rw [hpad]; simp)
                  refine ⟨.escapeSeq (.unicodeE [h1, h2, h3, h4]) :: items, ?_, ?_⟩
                  · simp +decide [lexStrItems, hh1, hh2, hh3, hh4, consFst, Outcome.map, hlex]
                  · rw [hpad] at hpfold
                    simp +decide [parse_string, parse_string_escape_seq, bind, pure, hparse, hpfold,
                      toNat_isValid c, Char.ofNat_toNat]
                · obtain ⟨hplen, hphex, hpfold⟩ :=
                    natHexPad_spec 8 c.toNat (by omega)
                      (by
                        have hv := toNat_isValid c
                        rcases hv with hv | hv <;> norm_num <;> omega)
                  obtain ⟨h1, h2, h3, h4, h5, h6, h7, h8, hpad⟩ := list_len8 hplen
                  rw [show escStrChar c = bslash :: 'U' :: natHexPad 8 c.toNat
                      by simp [escStrChar, hc1, hc2, hc3, hc4, hc5, hc6, hc7]] at hf ⊢
                  rw [hpad] at hf ⊢
                  obtain ⟨f2, rfl⟩ : ∃ f2, f = f2 + 1 := ⟨f - 1, by simp at hf; omega⟩
                  simp only [List.length_cons] at hf
                  obtain ⟨items, hlex, hparse⟩ := ih f2 rest (by omega)
                  have hh1 : isHexDig h1 = true := hphex h1 (by rw [hpad]; simp)
                  have hh2 : isHexDig h2 = true := hphex h2 (by rw [hpad]; simp)
                  have hh3 : isHexDig h3 = true := hphex h3 (by rw [hpad]; simp)
                  have hh4 : isHexDig h4 = true := hphex h4 (by rw [hpad]; simp)
                  have hh5 : isHexDig h5 = true := hphex h5 (by rw [hpad]; simp)
                  have hh6 : isHexDig h6 = true := hphex h6 (by rw [hpad]; simp)
                  have hh7 : isHexDig h7 = true := hphex h7 (by rw [hpad]; simp)
                  have hh8 : isHexDig h8 = true := hphex h8 (by rw [hpad]; simp)
                  refine ⟨.escapeSeq (.unicodeE [h1, h2, h3, h4, h5, h6, h7, h8]) :: items,
                    ?_, ?_⟩
                  · simp +decide [lexStrItems, hh1, hh2, hh3, hh4, hh5, hh6, hh7, hh8,
                      consFst, Outcome.map, hlex]
                  · rw [hpad] at hpfold
                    simp +decide [parse_string, parse_string_escape_seq, bind, pure, hparse, hpfold,
                      toNat_isValid c, Char.ofNat_toNat]

theorem lexByt_round : ∀ (bs : List Nat) (f : Nat) (rest : List Char),
    (∀ b ∈ bs, b < 256) →
    (bs.flatMap escByte).length < f →
    ∃ items, lexBytItems f squote (bs.flatMap escByte ++ squote :: rest) = .ok (items, rest)
      ∧ parse_bytes items = .ok bs := by
  intro bs
  induction bs with
  | nil =>
    intro f rest _ hf
    simp only [List.flatMap_nil, List.length_nil] at hf
    obtain ⟨f2, rfl⟩ : ∃ f2, f = f2 + 1 := ⟨f - 1, by omega⟩
    refine ⟨[], ?_, rfl⟩
    simp [lexBytItems]
  | cons b bs ih =>
    intro f rest hbs hf
    have hb256 : b < 256 := hbs b (List.mem_cons_self b bs)
    have hbs' : ∀ x ∈ bs, x < 256 := fun x hx => hbs x (List.mem_cons_of_mem b hx)
    have hfm : (b :: bs).flatMap escByte = escByte b ++ bs.flatMap escByte := by
      simp
    rw [hfm] at hf ⊢
    rw [List.length_append] at hf
    by_cases hb1 : b = 92
    · subst hb1
      rw [show escByte 92 = [bslash, bslash] by decide] at hf ⊢
      obtain ⟨f2, rfl⟩ : ∃ f2, f = f2 + 1 := ⟨f - 1, by simp at hf; omega⟩
      simp only [List.length_cons] at hf
      obtain ⟨items, hlex, hparse⟩ := ih f2 rest hbs' (by omega)
      refine ⟨.escapeSeqB (.charB bslash) :: items, ?_, ?_⟩
      · simp +decide [lexBytItems, consFst, Outcome.map, hlex]
      · simp +decide [parse_bytes, parse_bytes_escape_seq, bind, pure, hparse]
    · by_cases hb2 : b = 13
      · subst hb2
        rw [show escByte 13 = [bslash, 'r'] by decide] at hf ⊢
        obtain ⟨f2, rfl⟩ : ∃ f2, f = f2 + 1 := ⟨f - 1, by simp at hf; omega⟩
        simp only [List.length_cons] at hf
        obtain ⟨items, hlex, hparse⟩ := ih f2 rest hbs' (by omega)
        refine ⟨.escapeSeqB (.charB 'r') :: items, ?_, ?_⟩
        · simp +decide [lexBytItems, consFst, Outcome.map, hlex]
        · simp +decide [parse_bytes, parse_bytes_escape_seq, bind, pure, hparse]
      · by_cases hb3 : b = 10
        · subst hb3
          rw [show escByte 10 = [bslash, 'n'] by decide] at hf ⊢
          obtain ⟨f2, rfl⟩ : ∃ f2, f = f2 + 1 := ⟨f - 1, by simp at hf; omega⟩
          simp only [List.length_cons] at hf
          obtain ⟨items, hlex, hparse⟩ := ih f2 rest hbs' (by omega)
          refine ⟨.escapeSeqB (.charB 'n') :: items, ?_, ?_⟩
          · simp +decide [lexBytItems, consFst, Outcome.map, hlex]
          · simp +decide [parse_bytes, parse_bytes_escape_seq, bind, pure, hparse]
        · by_cases hb4 : b = 39
          · subst hb4
            rw [show escByte 39 = [bslash, squote] by decide] at hf ⊢
            obtain ⟨f2, rfl⟩ : ∃ f2, f = f2 + 1 := ⟨f - 1, by simp at hf; omega⟩
            simp only [List.length_cons] at hf
            obtain ⟨items, hlex, hparse⟩ := ih f2 rest hbs' (by omega)
            refine ⟨.escapeSeqB (.charB squote) :: items, ?_, ?_⟩
            · simp +decide [lexBytItems, consFst, Outcome.map, hlex]
            · simp +decide [parse_bytes, parse_bytes_escape_seq, bind, pure, hparse]
          · by_cases hb5 : b ≤ 127
            · rw [show escByte b = [Char.ofNat b]
                  by simp [escByte, hb1, hb2, hb3, hb4, hb5]] at hf ⊢
              obtain ⟨f2, rfl⟩ : ∃ f2, f = f2 + 1 := ⟨f - 1, by simp at hf; omega⟩
              simp only [List.length_cons] at hf
              obtain ⟨items, hlex, hparse⟩ := ih f2 rest hbs' (by omega)
              have htn : (Char.ofNat b).toNat = b :=
                toNat_ofNat_valid b (Or.inl (by omega))
              have hsq : squote.toNat = 39 := by decide
              have hbl : bslash.toNat = 92 := by decide
              have hnl : ('\n').toNat = 10 := by decide
              have hne1 : ¬ Char.ofNat b = squote := char_ne_of_toNat_ne (by omega)
              have hne2 : ¬ Char.ofNat b = bslash := char_ne_of_toNat_ne (by omega)
              have hne3 : ¬ Char.ofNat b = '\n' := char_ne_of_toNat_ne (by omega)
              have h127 : (Char.ofNat b).toNat ≤ 127 := by omega
              refine ⟨.nonEscapeB [Char.ofNat b] :: items, ?_, ?_⟩
              · simp +decide [lexBytItems, hne1, hne2, hne3, h127, consFst,
                  Outcome.map, hlex]
              · simp +decide [parse_bytes, Outcome.map, hparse, htn]
            · obtain ⟨hplen, hphex, hpfold⟩ :=
                natHexPad_spec 2 b (by omega) (by norm_num; omega)
              obtain ⟨h1, h2, hpad⟩ := list_len2 hplen
              rw [show escByte b = bslash :: 'x' :: natHexPad 2 b
                  by simp [escByte, hb1, hb2, hb3, hb4, hb5]] at hf ⊢
              rw [hpad] at hf ⊢
              obtain ⟨f2, rfl⟩ : ∃ f2, f = f2 + 1 := ⟨f - 1, by simp at hf; omega⟩
              simp only [List.length_cons] at hf
              obtain ⟨items, hlex, hparse⟩ := ih f2 rest hbs' (by omega)
              have hh1 : isHexDig h1 = true := hphex h1 (by rw [hpad]; simp)
              have hh2 : isHexDig h2 = true := hphex h2 (by rw [hpad]; simp)
              refine ⟨.escapeSeqB (.hexB [h1, h2]) :: items, ?_, ?_⟩
              · simp +decide [lexBytItems, hh1, hh2, consFst, Outcome.map, hlex]
              · rw [hpad] at hpfold
                simp +decide [parse_bytes, parse_bytes_escape_seq, bind, pure, hparse,
                  hpfold]

/-! ### Numeric token shapes -/

theorem lexNumber_int (d : Char) (ds rest : List Char) (hd : isDecDig d = true)
    (hds : ∀ c ∈ ds, isDecDig c = true) (hrest : numStop rest = true) :
    lexNumber (d :: ds ++ rest) = .ok (.intN (.decI (d :: ds)), rest) := by
  have hall : ∀ c ∈ d :: ds, isDecDig c = true := by
    intro x hx
    rcases List.mem_cons.mp hx with rfl | hx
    · exact hd
    · exact hds x hx
  have hsplitR := numStop_split hrest
  have hspan : digitSpan isDecDig ((d :: ds) ++ rest) = (d :: ds, rest) :=
    digitSpan_split _ _ _ hall
      (by
        rcases hsplitR with rfl | ⟨c, t, rfl, h1, h2, -⟩
        · exact Or.inl rfl
        · exact Or.inr ⟨c, t, rfl, h1, h2⟩)
  rcases hsplitR with rfl |
    ⟨c, t, rfl, hcd, hcu, hcdot, hce, hcE, hcj, hcJ, hcb, hcB, hco, hcO, hcx, hcX⟩
  · cases ds with
    | nil =>
      simp only [List.cons_append, List.nil_append, List.append_nil] at hspan
      simp +decide [lexNumber, hd, hspan]
    | cons d2 ds2 =>
      obtain ⟨hr1, hr2, hr3⟩ := @decDig_no_radix d _ (hds d2 (List.mem_cons_self _ _))
      simp only [List.cons_append, List.nil_append, List.append_nil] at hspan
      simp +decide [lexNumber, hd, hspan, hr1, hr2, hr3]
  · cases ds with
    | nil =>
      simp only [List.cons_append, List.nil_append, List.append_nil] at hspan
      simp +decide [lexNumber, hd, hspan, hcdot, hce, hcE, hcj, hcJ, hcb, hcB, hco,
        hcO, hcx, hcX]
    | cons d2 ds2 =>
      obtain ⟨hr1, hr2, hr3⟩ := @decDig_no_radix d _ (hds d2 (List.mem_cons_self _ _))
      simp only [List.cons_append, List.nil_append, List.append_nil] at hspan
      simp +decide [lexNumber, hd, hspan, hr1, hr2, hr3, hcdot, hce, hcE, hcj, hcJ]

theorem lexNumber_int_j (d : Char) (ds rest : List Char) (hd : isDecDig d = true)
    (hds : ∀ c ∈ ds, isDecDig c = true) :
    lexNumber (d :: ds ++ 'j' :: rest) = .ok (.imagN (.digitsI (d :: ds)), rest) := by
  have hall : ∀ c ∈ d :: ds, isDecDig c = true := by
    intro x hx
    rcases List.mem_cons.mp hx with rfl | hx
    · exact hd
    · exact hds x hx
  have hspan : digitSpan isDecDig ((d :: ds) ++ 'j' :: rest) = (d :: ds, 'j' :: rest) :=
    digitSpan_split _ _ _ hall (Or.inr ⟨'j', rest, rfl, by decide, by decide⟩)
  cases ds with
  | nil =>
    simp only [List.cons_append, List.nil_append, List.append_nil] at hspan
    simp +decide [lexNumber, hd, hspan]
  | cons d2 ds2 =>
    obtain ⟨hr1, hr2, hr3⟩ := @decDig_no_radix d _ (hds d2 (List.mem_cons_self _ _))
    simp only [List.cons_append, List.nil_append, List.append_nil] at hspan
    simp +decide [lexNumber, hd, hspan, hr1, hr2, hr3]

theorem lexNumber_frac (d e2 : Char) (ds ds2 rest : List Char)
    (hd : isDecDig d = true) (hds : ∀ c ∈ ds, isDecDig c = true)
    (he2 : isDecDig e2 = true) (hds2 : ∀ c ∈ ds2, isDecDig c = true)
    (hrest : numStop rest = true) :
    lexNumber (d :: ds ++ '.' :: (e2 :: ds2) ++ rest)
      = .ok (.floatN ((d :: ds).map .digitP ++ .fractionP :: (e2 :: ds2).map .digitP),
          rest) := by
  have hall1 : ∀ c ∈ d :: ds, isDecDig c = true := by
    intro x hx
    rcases List.mem_cons.mp hx with rfl | hx
    · exact hd
    · exact hds x hx
  have hall2 : ∀ c ∈ e2 :: ds2, isDecDig c = true := by
    intro x hx
    rcases List.mem_cons.mp hx with rfl | hx
    · exact he2
    · exact hds2 x hx
  have hsplitR := numStop_split hrest
  have hspan1 : digitSpan isDecDig ((d :: ds) ++ '.' :: ((e2 :: ds2) ++ rest))
      = (d :: ds, '.' :: ((e2 :: ds2) ++ rest)) :=
    digitSpan_split _ _ _ hall1 (Or.inr ⟨'.', _, rfl, by decide, by decide⟩)
  have hspan2 : digitSpan isDecDig ((e2 :: ds2) ++ rest) = (e2 :: ds2, rest) :=
    digitSpan_split _ _ _ hall2
      (by
        rcases hsplitR with rfl | ⟨c, t, rfl, h1, h2, -⟩
        · exact Or.inl rfl
        · exact Or.inr ⟨c, t, rfl, h1, h2⟩)
  rcases hsplitR with rfl |
    ⟨c, t, rfl, hcd, hcu, hcdot, hce, hcE, hcj, hcJ, hcb, hcB, hco, hcO, hcx, hcX⟩
  · cases ds with
    | nil =>
      simp only [List.cons_append, List.nil_append, List.append_nil] at hspan1 hspan2
      simp +decide [lexNumber, hd, hspan1, hspan2]
    | cons d2 ds0 =>
      obtain ⟨hr1, hr2, hr3⟩ := @decDig_no_radix d _ (hds d2 (List.mem_cons_self _ _))
      simp only [List.cons_append, List.nil_append, List.append_nil] at hspan1 hspan2
      simp +decide [lexNumber, hd, hspan1, hspan2, hr1, hr2, hr3]
  · cases ds with
    | nil =>
      simp only [List.cons_append, List.nil_append, List.append_nil] at hspan1 hspan2
      simp +decide [lexNumber, hd, hspan1, hspan2, hce, hcE, hcj, hcJ]
    | cons d2 ds0 =>
      obtain ⟨hr1, hr2, hr3⟩ := @decDig_no_radix d _ (hds d2 (List.mem_cons_self _ _))
      simp only [List.cons_append, List.nil_append, List.append_nil] at hspan1 hspan2
      simp +decide [lexNumber, hd, hspan1, hspan2, hr1, hr2, hr3, hce, hcE, hcj, hcJ]

theorem lexNumber_frac_j (d e2 : Char) (ds ds2 rest : List Char)
    (hd : isDecDig d = true) (hds : ∀ c ∈ ds, isDecDig c = true)
    (he2 : isDecDig e2 = true) (hds2 : ∀ c ∈ ds2, isDecDig c = true) :
    lexNumber (d :: ds ++ '.' :: (e2 :: ds2) ++ 'j' :: rest)
      = .ok (.imagN (.floatI
          ((d :: ds).map .digitP ++ .fractionP :: (e2 :: ds2).map .digitP)), rest) := by
  have hall1 : ∀ c ∈ d :: ds, isDecDig c = true := by
    intro x hx
    rcases List.mem_cons.mp hx with rfl | hx
    · exact hd
    · exact hds x hx
  have hall2 : ∀ c ∈ e2 :: ds2, isDecDig c = true := by
    intro x hx
    rcases List.mem_cons.mp hx with rfl | hx
    · exact he2
    · exact hds2 x hx
  have hspan1 : digitSpan isDecDig ((d :: ds) ++ '.' :: ((e2 :: ds2) ++ 'j' :: rest))
      = (d :: ds, '.' :: ((e2 :: ds2) ++ 'j' :: rest)) :=
    digitSpan_split _ _ _ hall1 (Or.inr ⟨'.', _, rfl, by decide, by decide⟩)
  have hspan2 : digitSpan isDecDig ((e2 :: ds2) ++ 'j' :: rest) = (e2 :: ds2, 'j' :: rest) :=
    digitSpan_split _ _ _ hall2 (Or.inr ⟨'j', rest, rfl, by decide, by decide⟩)
  cases ds with
  | nil =>
    simp only [List.cons_append, List.nil_append, List.append_nil] at hspan1 hspan2
    simp +decide [lexNumber, hd, hspan1, hspan2]
  | cons d2 ds0 =>
    obtain ⟨hr1, hr2, hr3⟩ := @decDig_no_radix d _ (hds d2 (List.mem_cons_self _ _))
    simp only [List.cons_append, List.nil_append, List.append_nil] at hspan1 hspan2
    simp +decide [lexNumber, hd, hspan1, hspan2, hr1, hr2, hr3]

theorem lexNumber_exp (d e3 : Char) (ds ds3 rest : List Char) (negE : Bool)
    (hd : isDecDig d = true) (hds : ∀ c ∈ ds, isDecDig c = true)
    (he3 : isDecDig e3 = true) (hds3 : ∀ c ∈ ds3, isDecDig c = true)
    (hrest : numStop rest = true) :
    lexNumber (d :: ds ++ 'e' :: (if negE then ['-'] else []) ++ (e3 :: ds3) ++ rest)
      = .ok (.floatN ((d :: ds).map .digitP
          ++ (if negE then FloatPiece.negExpP else FloatPiece.posExpP)
            :: (e3 :: ds3).map .digitP), rest) := by
  have hall1 : ∀ c ∈ d :: ds, isDecDig c = true := by
    intro x hx
    rcases List.mem_cons.mp hx with rfl | hx
    · exact hd
    · exact hds x hx
  have hall3 : ∀ c ∈ e3 :: ds3, isDecDig c = true := by
    intro x hx
    rcases List.mem_cons.mp hx with rfl | hx
    · exact he3
    · exact hds3 x hx
  have hsplitR := numStop_split hrest
  have hspan3 : digitSpan isDecDig ((e3 :: ds3) ++ rest) = (e3 :: ds3, rest) :=
    digitSpan_split _ _ _ hall3
      (by
        rcases hsplitR with rfl | ⟨c, t, rfl, h1, h2, -⟩
        · exact Or.inl rfl
        · exact Or.inr ⟨c, t, rfl, h1, h2⟩)
  obtain ⟨-, -, -, -, -, -, -, -, -, -, -, -, hp3, hm3, -⟩ := decDig_facts he3
  cases negE with
  | true =>
    have hspan1 : digitSpan isDecDig
        ((d :: ds) ++ 'e' :: '-' :: ((e3 :: ds3) ++ rest))
        = (d :: ds, 'e' :: '-' :: ((e3 :: ds3) ++ rest)) :=
      digitSpan_split _ _ _ hall1 (Or.inr ⟨'e', _, rfl, by decide, by decide⟩)
    rcases hsplitR with rfl |
      ⟨c, t, rfl, hcd, hcu, hcdot, hce, hcE, hcj, hcJ, -⟩
    · cases ds with
      | nil =>
        simp only [List.cons_append, List.nil_append, List.append_nil] at hspan1 hspan3
        simp +decide [lexNumber, hd, hspan1, hspan3]
      | cons d2 ds0 =>
        obtain ⟨hr1, hr2, hr3⟩ :=
          @decDig_no_radix d _ (hds d2 (List.mem_cons_self _ _))
        simp only [List.cons_append, List.nil_append, List.append_nil] at hspan1 hspan3
        simp +decide [lexNumber, hd, hspan1, hspan3, hr1, hr2, hr3]
    · cases ds with
      | nil =>
        simp only [List.cons_append, List.nil_append, List.append_nil] at hspan1 hspan3
        simp +decide [lexNumber, hd, hspan1, hspan3, hcj, hcJ]
      | cons d2 ds0 =>
        obtain ⟨hr1, hr2, hr3⟩ :=
          @decDig_no_radix d _ (hds d2 (List.mem_cons_self _ _))
        simp only [List.cons_append, List.nil_append, List.append_nil] at hspan1 hspan3
        simp +decide [lexNumber, hd, hspan1, hspan3, hr1, hr2, hr3, hcj, hcJ]
  | false =>
    have hspan1 : digitSpan isDecDig ((d :: ds) ++ 'e' :: ((e3 :: ds3) ++ rest))
        = (d :: ds, 'e' :: ((e3 :: ds3) ++ rest)) :=
      digitSpan_split _ _ _ hall1 (Or.inr ⟨'e', _, rfl, by decide, by decide⟩)
    rcases hsplitR with rfl |
      ⟨c, t, rfl, hcd, hcu, hcdot, hce, hcE, hcj, hcJ, -⟩
    · cases ds with
      | nil =>
        simp only [List.cons_append, List.nil_append, List.append_nil] at hspan1 hspan3
        simp +decide [lexNumber, hd, hspan1, hspan3, hp3, hm3]
      | cons d2 ds0 =>
        obtain ⟨hr1, hr2, hr3⟩ :=
          @decDig_no_radix d _ (hds d2 (List.mem_cons_self _ _))
        simp only [List.cons_append, List.nil_append, List.append_nil] at hspan1 hspan3
        simp +decide [lexNumber, hd, hspan1, hspan3, hr1, hr2, hr3, hp3, hm3]
    · cases ds with
      | nil =>
        simp only [List.cons_append, List.nil_append, List.append_nil] at hspan1 hspan3
        simp +decide [lexNumber, hd, hspan1, hspan3, hp3, hm3, hcj, hcJ]
      | cons d2 ds0 =>
        obtain ⟨hr1, hr2, hr3⟩ :=
          @decDig_no_radix d _ (hds d2 (List.mem_cons_self _ _))
        simp only [List.cons_append, List.nil_append, List.append_nil] at hspan1 hspan3
        simp +decide [lexNumber, hd, hspan1, hspan3, hr1, hr2, hr3, hp3, hm3, hcj, hcJ]

theorem lexNumber_frac_exp (d e2 e3 : Char) (ds ds2 ds3 rest : List Char) (negE : Bool)
    (hd : isDecDig d = true) (hds : ∀ c ∈ ds, isDecDig c = true)
    (he2 : isDecDig e2 = true) (hds2 : ∀ c ∈ ds2, isDecDig c = true)
    (he3 : isDecDig e3 = true) (hds3 : ∀ c ∈ ds3, isDecDig c = true)
    (hrest : numStop rest = true) :
    lexNumber (d :: ds ++ '.' :: (e2 :: ds2)
        ++ 'e' :: (if negE then ['-'] else []) ++ (e3 :: ds3) ++ rest)
      = .ok (.floatN ((d :: ds).map .digitP ++ .fractionP :: (e2 :: ds2).map .digitP
          ++ (if negE then FloatPiece.negExpP else FloatPiece.posExpP)
            :: (e3 :: ds3).map .digitP), rest) := by
  have hall1 : ∀ c ∈ d :: ds, isDecDig c = true := by
    intro x hx
    rcases List.mem_cons.mp hx with rfl | hx
    · exact hd
    · exact hds x hx
  have hall2 : ∀ c ∈ e2 :: ds2, isDecDig c = true := by
    intro x hx
    rcases List.mem_cons.mp hx with rfl | hx
    · exact he2
    · exact hds2 x hx
  have hall3 : ∀ c ∈ e3 :: ds3, isDecDig c = true := by
    intro x hx
    rcases List.mem_cons.mp hx with rfl | hx
    · exact he3
    · exact hds3 x hx
  have hsplitR := numStop_split hrest
  have hspan3 : digitSpan isDecDig ((e3 :: ds3) ++ rest) = (e3 :: ds3, rest) :=
    digitSpan_split _ _ _ hall3
      (by
        rcases hsplitR with rfl | ⟨c, t, rfl, h1, h2, -⟩
        · exact Or.inl rfl
        · exact Or.inr ⟨c, t, rfl, h1, h2⟩)
  obtain ⟨-, -, -, -, -, -, -, -, -, -, -, -, hp3, hm3, -⟩ := decDig_facts he3
  cases negE with
  | true =>
    have hspan1 : digitSpan isDecDig
        ((d :: ds) ++ '.' :: ((e2 :: ds2) ++ 'e' :: '-' :: ((e3 :: ds3) ++ rest)))
        = (d :: ds, '.' :: ((e2 :: ds2) ++ 'e' :: '-' :: ((e3 :: ds3) ++ rest))) :=
      digitSpan_split _ _ _ hall1 (Or.inr ⟨'.', _, rfl, by decide, by decide⟩)
    have hspan2 : digitSpan isDecDig ((e2 :: ds2) ++ 'e' :: '-' :: ((e3 :: ds3) ++ rest))
        = (e2 :: ds2, 'e' :: '-' :: ((e3 :: ds3) ++ rest)) :=
      digitSpan_split _ _ _ hall2 (Or.inr ⟨'e', _, rfl, by decide, by decide⟩)
    rcases hsplitR with rfl |
      ⟨c, t, rfl, hcd, hcu, hcdot, hce, hcE, hcj, hcJ, -⟩
    · cases ds with
      | nil =>
        simp only [List.cons_append, List.nil_append,
          List.append_nil] at hspan1 hspan2 hspan3
        simp +decide [lexNumber, hd, hspan1, hspan2, hspan3]
      | cons d2 ds0 =>
        obtain ⟨hr1, hr2, hr3⟩ :=
          @decDig_no_radix d _ (hds d2 (List.mem_cons_self _ _))
        simp only [List.cons_append, List.nil_append,
          List.append_nil] at hspan1 hspan2 hspan3
        simp +decide [lexNumber, hd, hspan1, hspan2, hspan3, hr1, hr2, hr3]
    · cases ds with
      | nil =>
        simp only [List.cons_append, List.nil_append,
          List.append_nil] at hspan1 hspan2 hspan3
        simp +decide [lexNumber, hd, hspan1, hspan2, hspan3, hcj, hcJ]
      | cons d2 ds0 =>
        obtain ⟨hr1, hr2, hr3⟩ :=
          @decDig_no_radix d _ (hds d2 (List.mem_cons_self _ _))
        simp only [List.cons_append, List.nil_append,
          List.append_nil] at hspan1 hspan2 hspan3
        simp +decide [lexNumber, hd, hspan1, hspan2, hspan3, hr1, hr2, hr3, hcj, hcJ]
  | false =>
    have hspan1 : digitSpan isDecDig
        ((d :: ds) ++ '.' :: ((e2 :: ds2) ++ 'e' :: ((e3 :: ds3) ++ rest)))
        = (d :: ds, '.' :: ((e2 :: ds2) ++ 'e' :: ((e3 :: ds3) ++ rest))) :=
      digitSpan_split _ _ _ hall1 (Or.inr ⟨'.', _, rfl, by decide, by decide⟩)
    have hspan2 : digitSpan isDecDig ((e2 :: ds2) ++ 'e' :: ((e3 :: ds3) ++ rest))
        = (e2 :: ds2, 'e' :: ((e3 :: ds3) ++ rest)) :=
      digitSpan_split _ _ _ hall2 (Or.inr ⟨'e', _, rfl, by decide, by decide⟩)
    rcases hsplitR with rfl |
      ⟨c, t, rfl, hcd, hcu, hcdot, hce, hcE, hcj, hcJ, -⟩
    · cases ds with
      | nil =>
        simp only [List.cons_append, List.nil_append,
          List.append_nil] at hspan1 hspan2 hspan3
        simp +decide [lexNumber, hd, hspan1, hspan2, hspan3, hp3, hm3]
      | cons d2 ds0 =>
        obtain ⟨hr1, hr2, hr3⟩ :=
          @decDig_no_radix d _ (hds d2 (List.mem_cons_self _ _))
        simp only [List.cons_append, List.nil_append,
          List.append_nil] at hspan1 hspan2 hspan3
        simp +decide [lexNumber, hd, hspan1, hspan2, hspan3, hr1, hr2, hr3, hp3, hm3]
    · cases ds with
      | nil =>
        simp only [List.cons_append, List.nil_append,
          List.append_nil] at hspan1 hspan2 hspan3
        simp +decide [lexNumber, hd, hspan1, hspan2, hspan3, hp3, hm3, hcj, hcJ]
      | cons d2 ds0 =>
        obtain ⟨hr1, hr2, hr3⟩ :=
          @decDig_no_radix d _ (hds d2 (List.mem_cons_self _ _))
        simp only [List.cons_append, List.nil_append,
          List.append_nil] at hspan1 hspan2 hspan3
        simp +decide [lexNumber, hd, hspan1, hspan2, hspan3, hr1, hr2, hr3, hp3, hm3,
          hcj, hcJ]

/-! ### Reading back the float pieces -/

theorem fpSplit_digits0 : ∀ (ds : List Char) (rest : List FloatPiece) (a : FpAcc),
    a.phase = 0 →
    fpSplit (ds.map .digitP ++ rest) a = fpSplit rest { a with intD := a.intD ++ ds } := by
  intro ds
  induction ds with
  | nil => intro rest a _; simp
  | cons c t ih =>
    intro rest a h
    simp only [List.map_cons, List.cons_append, fpSplit]
    rw [if_pos h]
    simp only [List.append_eq]
    rw [ih rest _ (by simp [h])]
    rw [List.append_assoc]
    rfl

theorem fpSplit_digits1 : ∀ (ds : List Char) (rest : List FloatPiece) (a : FpAcc),
    a.phase = 1 →
    fpSplit (ds.map .digitP ++ rest) a = fpSplit rest { a with fracD := a.fracD ++ ds } := by
  intro ds
  induction ds with
  | nil => intro rest a _; simp
  | cons c t ih =>
    intro rest a h
    simp only [List.map_cons, List.cons_append, fpSplit]
    rw [if_neg (by omega), if_pos h]
    simp only [List.append_eq]
    rw [ih rest _ (by simp [h])]
    rw [List.append_assoc]
    rfl

theorem fpSplit_digits2 : ∀ (ds : List Char) (rest : List FloatPiece) (a : FpAcc),
    a.phase = 2 →
    fpSplit (ds.map .digitP ++ rest) a = fpSplit rest { a with expD := a.expD ++ ds } := by
  intro ds
  induction ds with
  | nil => intro rest a _; simp
  | cons c t ih =>
    intro rest a h
    simp only [List.map_cons, List.cons_append, fpSplit]
    rw [if_neg (by omega), if_neg (by omega)]
    simp only [List.append_eq]
    rw [ih rest _ (by simp [h])]
    rw [List.append_assoc]
    rfl

theorem fpSplit_digits0_nil (ds : List Char) (a : FpAcc) (h : a.phase = 0) :
    fpSplit (ds.map .digitP) a = { a with intD := a.intD ++ ds } := by
  have h2 := fpSplit_digits0 ds [] a h
  rw [List.append_nil] at h2
  rw [h2]
  simp [fpSplit]

theorem fpSplit_digits1_nil (ds : List Char) (a : FpAcc) (h : a.phase = 1) :
    fpSplit (ds.map .digitP) a = { a with fracD := a.fracD ++ ds } := by
  have h2 := fpSplit_digits1 ds [] a h
  rw [List.append_nil] at h2
  rw [h2]
  simp [fpSplit]

theorem fpSplit_digits2_nil (ds : List Char) (a : FpAcc) (h : a.phase = 2) :
    fpSplit (ds.map .digitP) a = { a with expD := a.expD ++ ds } := by
  have h2 := fpSplit_digits2 ds [] a h
  rw [List.append_nil] at h2
  rw [h2]
  simp [fpSplit]

theorem parse_float_frac (L1 L2 : List Char) :
    parse_float (L1.map .digitP ++ .fractionP :: L2.map .digitP)
      = .ok (decToF64 false (foldRadix 10 (L1 ++ L2)) (0 - (L2.length : Int))) := by
  have ha : fpSplit (L1.map .digitP ++ .fractionP :: L2.map .digitP) ⟨[], [], [], false, 0⟩
      = ⟨L1, L2, [], false, 1⟩ := by
    rw [fpSplit_digits0 L1 _ _ rfl]
    simp only [fpSplit]
    rw [fpSplit_digits1_nil L2 _ (by simp)]
    simp
  simp only [parse_float, ha]
  simp [show foldRadix 10 [] = 0 from rfl]

theorem parse_float_exp (L1 L3 : List Char) (negE : Bool) :
    parse_float (L1.map .digitP
        ++ (if negE then FloatPiece.negExpP else FloatPiece.posExpP) :: L3.map .digitP)
      = .ok (decToF64 false (foldRadix 10 L1)
          (if negE then -(foldRadix 10 L3 : Int) else (foldRadix 10 L3 : Int))) := by
  have ha : fpSplit (L1.map .digitP
        ++ (if negE then FloatPiece.negExpP else FloatPiece.posExpP) :: L3.map .digitP)
        ⟨[], [], [], false, 0⟩
      = ⟨L1, [], L3, negE, 2⟩ := by
    rw [fpSplit_digits0 L1 _ _ rfl]
    cases negE with
    | true =>
      show fpSplit (FloatPiece.negExpP :: List.map FloatPiece.digitP L3) _ = _
      simp only [fpSplit]
      rw [fpSplit_digits2_nil L3 _ (by simp)]
      simp
    | false =>
      show fpSplit (FloatPiece.posExpP :: List.map FloatPiece.digitP L3) _ = _
      simp only [fpSplit]
      rw [fpSplit_digits2_nil L3 _ (by simp)]
      simp
  simp only [parse_float, ha]
  simp

theorem parse_float_frac_exp (L1 L2 L3 : List Char) (negE : Bool) :
    parse_float (L1.map .digitP ++ .fractionP :: L2.map .digitP
        ++ (if negE then FloatPiece.negExpP else FloatPiece.posExpP) :: L3.map .digitP)
      = .ok (decToF64 false (foldRadix 10 (L1 ++ L2))
          ((if negE then -(foldRadix 10 L3 : Int) else (foldRadix 10 L3 : Int))
            - (L2.length : Int))) := by
  have ha : fpSplit (L1.map .digitP ++ .fractionP :: L2.map .digitP
        ++ (if negE then FloatPiece.negExpP else FloatPiece.posExpP) :: L3.map .digitP)
        ⟨[], [], [], false, 0⟩
      = ⟨L1, L2, L3, negE, 2⟩ := by
    rw [List.append_assoc]
    simp only [List.cons_append]
    rw [fpSplit_digits0 L1 _ _ rfl]
    simp only [fpSplit]
    rw [fpSplit_digits1 L2 _ _ (by simp)]
    cases negE with
    | true =>
      show fpSplit (FloatPiece.negExpP :: List.map FloatPiece.digitP L3) _ = _
      simp only [fpSplit]
      rw [fpSplit_digits2_nil L3 _ (by simp)]
      simp
    | false =>
      show fpSplit (FloatPiece.posExpP :: List.map FloatPiece.digitP L3) _ = _
      simp only [fpSplit]
      rw [fpSplit_digits2_nil L3 _ (by simp)]
      simp
  simp only [parse_float, ha]

/-! ### Exact integer conversions -/

theorem decToF64_zero_D (k : Int) : decToF64 false 0 k = .zero false := by
  unfold decToF64
  split_ifs <;> simp [roundRat]

theorem int_to_f64_exact_pos {n : Nat} {μ e : Int} (hn : 0 < n)
    (h : roundRat false n 1 = .finite μ e) :
    int_to_f64 (n : Int) = .ok (.finite μ e) := by
  have hlt : ¬ ((n : Int) < 0) := by omega
  have hd : (decide ((n : Int) < 0)) = false := decide_eq_false hlt
  simp only [int_to_f64, bigIntToF64]
  rw [if_neg (show ¬ (n : Int) = 0 by omega), hd, Int.natAbs_ofNat, h]

theorem int_to_f64_exact_neg {n : Nat} {μ e : Int} (hn : 0 < n)
    (h : roundRat false n 1 = .finite μ e) :
    int_to_f64 (-(n : Int)) = .ok (.finite (-μ) e) := by
  have hneg := roundRat_negflip h
  have hlt : (-(n : Int)) < 0 := by omega
  have hd : (decide ((-(n : Int)) < 0)) = true := decide_eq_true hlt
  simp only [int_to_f64, bigIntToF64]
  rw [if_neg (show ¬ (-(n : Int)) = 0 by omega), hd,
    show (-(n : Int)).natAbs = n by omega, hneg]

/-! ### The rendered magnitude of a float re-lexes to one numeric token -/

theorem lex_mag_exp (μ : Nat) (e : Int) (hodd : μ % 2 = 1) (hμ : μ < 2 ^ 53)
    (he : -1074 ≤ e) (hv : (μ:ℚ) * (2:ℚ) ^ e < (2:ℚ) ^ (1024:ℤ))
    (rest : List Char) (hrest : numStop rest = true) :
    ∃ N, lexNumber (lowerExpRender (natDigits (floatDigits μ e).1)
          (floatDigits μ e).2 ++ rest) = .ok (N, rest)
      ∧ parse_number N = .ok (.float (.finite (μ : Int) e)) := by
  have hspec := floatDigits_spec μ e hodd hμ he hv
  set D := (floatDigits μ e).1 with hD
  set K := (floatDigits μ e).2 with hK
  have hdig := natDigits_all_dec D
  obtain ⟨d, restD, hds⟩ : ∃ d restD, natDigits D = d :: restD := by
    rcases hnil : natDigits D with _ | ⟨d, restD⟩
    · exact absurd hnil (natDigits_ne_nil D)
    · exact ⟨d, restD, rfl⟩
  have hd : isDecDig d = true := hdig d (by rw [hds]; simp)
  have hrestD : ∀ c ∈ restD, isDecDig c = true :=
    fun c hc => hdig c (by rw [hds]; simp [hc])
  have hkdig := natDigits_all_dec K.natAbs
  obtain ⟨e3, ds3, hks⟩ : ∃ e3 ds3, natDigits K.natAbs = e3 :: ds3 := by
    rcases hnil : natDigits K.natAbs with _ | ⟨e3, ds3⟩
    · exact absurd hnil (natDigits_ne_nil K.natAbs)
    · exact ⟨e3, ds3, rfl⟩
  have he3 : isDecDig e3 = true := hkdig e3 (by rw [hks]; simp)
  have hds3 : ∀ c ∈ ds3, isDecDig c = true :=
    fun c hc => hkdig c (by rw [hks]; simp [hc])
  have hfoldD : foldRadix 10 (d :: restD) = D := by
    rw [← hds]
    exact natDigits_fold D
  have hfoldK : foldRadix 10 (e3 :: ds3) = K.natAbs := by
    rw [← hks]
    exact natDigits_fold _
  have hgen : ∀ X : Int, X = K - ((natDigits D).length : Int) + 1 →
      decToF64 false D X = F64.finite (μ : Int) e := by
    intro X hX
    rw [hX]
    exact hspec
  rw [hds]
  by_cases hKneg : K < 0
  · have hid : intDisplay K = '-' :: (e3 :: ds3) := by
      rw [intDisplay, if_pos hKneg, hks]
    have hKval : -((K.natAbs : Nat) : Int) = K := by omega
    cases restD with
    | nil =>
      have hlex := lexNumber_exp d e3 [] ds3 rest true hd (by simp) he3 hds3 hrest
      simp only [List.nil_append, List.cons_append, List.append_nil] at hlex
      refine ⟨_, by simpa [lowerExpRender, hid] using hlex, ?_⟩
      have hpf := parse_float_exp [d] (e3 :: ds3) true
      simp at hpf
      simp only [parse_number]
      simp [hpf, hfoldD, hfoldK, hKval, Outcome.map]
      exact hgen _ (by rw [hds]; simp only [List.length_cons, List.length_nil, abs_of_neg hKneg]; omega)
    | cons e2 ds2 =>
      have he2 : isDecDig e2 = true := hrestD e2 (by simp)
      have hds2 : ∀ c ∈ ds2, isDecDig c = true := fun c hc => hrestD c (by simp [hc])
      have hlex := lexNumber_frac_exp d e2 e3 [] ds2 ds3 rest true hd (by simp)
        he2 hds2 he3 hds3 hrest
      simp only [List.nil_append, List.cons_append, List.append_nil] at hlex
      refine ⟨_, by simpa [lowerExpRender, hid] using hlex, ?_⟩
      have hpf := parse_float_frac_exp [d] (e2 :: ds2) (e3 :: ds3) true
      simp at hpf
      simp only [parse_number]
      simp [hpf, hfoldD, hfoldK, hKval, Outcome.map]
      exact hgen _ (by rw [hds]; simp only [List.length_cons, List.length_nil, abs_of_neg hKneg]; omega)
  · have hid : intDisplay K = e3 :: ds3 := by
      rw [intDisplay, if_neg hKneg, hks]
    have hKval : ((K.natAbs : Nat) : Int) = K := by omega
    cases restD with
    | nil =>
      have hlex := lexNumber_exp d e3 [] ds3 rest false hd (by simp) he3 hds3 hrest
      simp only [List.nil_append, List.cons_append, List.append_nil] at hlex
      refine ⟨_, by simpa [lowerExpRender, hid] using hlex, ?_⟩
      have hpf := parse_float_exp [d] (e3 :: ds3) false
      simp at hpf
      simp only [parse_number]
      simp [hpf, hfoldD, hfoldK, hKval, Outcome.map]
      exact hgen _ (by rw [hds]; simp only [List.length_cons, List.length_nil]; omega)
    | cons e2 ds2 =>
      have he2 : isDecDig e2 = true := hrestD e2 (by simp)
      have hds2 : ∀ c ∈ ds2, isDecDig c = true := fun c hc => hrestD c (by simp [hc])
      have hlex := lexNumber_frac_exp d e2 e3 [] ds2 ds3 rest false hd (by simp)
        he2 hds2 he3 hds3 hrest
      simp only [List.nil_append, List.cons_append, List.append_nil] at hlex
      refine ⟨_, by simpa [lowerExpRender, hid] using hlex, ?_⟩
      have hpf := parse_float_frac_exp [d] (e2 :: ds2) (e3 :: ds3) false
      simp at hpf
      simp only [parse_number]
      simp [hpf, hfoldD, hfoldK, hKval, Outcome.map]
      exact hgen _ (by rw [hds]; simp only [List.length_cons, List.length_nil]; omega)

theorem lex_mag_display (μ : Nat) (e : Int) (hodd : μ % 2 = 1) (hμ : μ < 2 ^ 53)
    (he : -1074 ≤ e) (hv : (μ:ℚ) * (2:ℚ) ^ e < (2:ℚ) ^ (1024:ℤ))
    (rest : List Char) (hrest : numStop rest = true) :
    ∃ N val, lexNumber (displayRender (natDigits (floatDigits μ e).1)
          (floatDigits μ e).2 ++ rest) = .ok (N, rest)
      ∧ parse_number N = .ok val
      ∧ ((∃ n : Nat, val = .integer (n : Int) ∧ 0 < n
            ∧ roundRat false n 1 = .finite (μ : Int) e)
          ∨ val = .float (.finite (μ : Int) e)) := by
  have hspec := floatDigits_spec μ e hodd hμ he hv
  set D := (floatDigits μ e).1 with hD
  set K := (floatDigits μ e).2 with hK
  have hD0 : 0 < D := by
    by_contra hc
    have hD00 : D = 0 := by omega
    rw [hD00, decToF64_zero_D] at hspec
    simp at hspec
  have hdig := natDigits_all_dec D
  obtain ⟨d, restD, hds⟩ : ∃ d restD, natDigits D = d :: restD := by
    rcases hnil : natDigits D with _ | ⟨d, restD⟩
    · exact absurd hnil (natDigits_ne_nil D)
    · exact ⟨d, restD, rfl⟩
  have hd : isDecDig d = true := hdig d (by rw [hds]; simp)
  have hrestD : ∀ c ∈ restD, isDecDig c = true :=
    fun c hc => hdig c (by rw [hds]; simp [hc])
  have hfoldD : foldRadix 10 (d :: restD) = D := by
    rw [← hds]
    exact natDigits_fold D
  rw [hds] at hspec
  have hgen : ∀ X : Int, X = K - (((d :: restD).length : Nat) : Int) + 1 →
      decToF64 false D X = F64.finite (μ : Int) e := by
    intro X hX
    rw [hX]
    exact hspec
  rw [hds]
  by_cases hbrA : (((d :: restD).length : Nat) : Int) - 1 ≤ K
  · -- the digits are followed by zeros: an integer-shaped literal
    set z := (K - (((d :: restD).length : Nat) : Int) + 1).toNat with hz
    have hzdig : ∀ c ∈ restD ++ List.replicate z ('0'), isDecDig c = true := by
      intro c hc
      rcases List.mem_append.mp hc with hc | hc
      · exact hrestD c hc
      · rw [List.eq_of_mem_replicate hc]
        decide
    have htext : displayRender (d :: restD) K = d :: (restD ++ List.replicate z ('0')) := by
      simp only [displayRender]
      rw [if_pos hbrA, ← hz]
      rfl
    rw [htext]
    have hlex := lexNumber_int d (restD ++ List.replicate z ('0')) rest hd hzdig hrest
    have hfoldz : foldRadix 10 (d :: (restD ++ List.replicate z ('0'))) = D * 10 ^ z := by
      rw [show d :: (restD ++ List.replicate z ('0'))
          = (d :: restD) ++ List.replicate z ('0') from rfl]
      rw [foldRadix_trailing_zeros, hfoldD]
    refine ⟨.intN (.decI (d :: (restD ++ List.replicate z ('0')))),
      .integer ((D * 10 ^ z : Nat) : Int), by simpa using hlex, ?_,
      Or.inl ⟨D * 10 ^ z, rfl, by positivity, ?_⟩⟩
    · show Outcome.ok (Value.integer (parse_integer
          (.decI (d :: (restD ++ List.replicate z ('0'))))))
        = Outcome.ok (Value.integer ((D * 10 ^ z : Nat) : Int))
      simp [parse_integer, hfoldz]
    · have h0z : 0 ≤ K - (((d :: restD).length : Nat) : Int) + 1 := by omega
      unfold decToF64 at hspec
      rw [if_pos h0z] at hspec
      rw [hz]
      exact hspec
  · by_cases hKpos : 0 ≤ K
    · -- an internal decimal point
      set t1 := (K + 1).toNat with ht1
      have ht1pos : 1 ≤ t1 := by omega
      have ht1lt : t1 < (d :: restD).length := by
        simp only [List.length_cons] at hbrA ⊢
        omega
      obtain ⟨t0, ht0⟩ : ∃ t0, t1 = t0 + 1 := ⟨t1 - 1, by omega⟩
      have htake : List.take t1 (d :: restD) = d :: List.take t0 restD := by
        rw [ht0, List.take_succ_cons]
      have hdrop : List.drop t1 (d :: restD) = List.drop t0 restD := by
        rw [ht0, List.drop_succ_cons]
      obtain ⟨e2, ds2, hdr⟩ : ∃ e2 ds2, List.drop t0 restD = e2 :: ds2 := by
        have hlen2 : (List.drop t0 restD).length = restD.length - t0 :=
          List.length_drop _ _
        rcases hh : List.drop t0 restD with _ | ⟨e2, ds2⟩
        · rw [hh] at hlen2
          simp only [List.length_nil] at hlen2
          simp only [List.length_cons] at ht1lt
          omega
        · exact ⟨e2, ds2, rfl⟩
      have htkdig : ∀ c ∈ List.take t0 restD, isDecDig c = true :=
        fun c hc => hrestD c (List.mem_of_mem_take hc)
      have he2 : isDecDig e2 = true :=
        hrestD e2 (List.mem_of_mem_drop (by rw [hdr]; exact List.mem_cons_self _ _))
      have hds2 : ∀ c ∈ ds2, isDecDig c = true :=
        fun c hc => hrestD c (List.mem_of_mem_drop (by rw [hdr]; simp [hc]))
      have htext : displayRender (d :: restD) K
          = d :: List.take t0 restD ++ '.' :: (e2 :: ds2) := by
        simp only [displayRender]
        rw [if_neg hbrA, if_pos hKpos, ← ht1, htake, hdrop, hdr]
      rw [htext]
      have hlex := lexNumber_frac d e2 (List.take t0 restD) ds2 rest hd htkdig
        he2 hds2 hrest
      have hfold2 : foldRadix 10 ((d :: List.take t0 restD) ++ (e2 :: ds2)) = D := by
        have hjoin : (d :: List.take t0 restD) ++ (e2 :: ds2)
            = List.take t1 (d :: restD) ++ List.drop t1 (d :: restD) := by
          rw [htake, hdrop, hdr]
        rw [hjoin, List.take_append_drop, hfoldD]
      refine ⟨.floatN ((d :: List.take t0 restD).map .digitP
          ++ .fractionP :: (e2 :: ds2).map .digitP),
        .float (decToF64 false
          (foldRadix 10 ((d :: List.take t0 restD) ++ (e2 :: ds2)))
          (0 - ((e2 :: ds2).length : Int))),
        by simpa using hlex, ?_, Or.inr ?_⟩
      · simp only [parse_number]
        rw [parse_float_frac]
        rfl
      · refine congrArg Value.float ?_
        rw [hfold2]
        refine hgen _ ?_
        have hl2 : ((e2 :: ds2).length : Nat) = restD.length - t0 := by
          rw [← hdr]
          exact List.length_drop _ _
        simp only [List.length_cons] at hl2 ⊢
        omega
    · -- leading `0.` with padding zeros
      set z2 := (-K - 1).toNat with hz2
      obtain ⟨e2, ds2, hfr⟩ : ∃ e2 ds2,
          List.replicate z2 ('0') ++ (d :: restD) = e2 :: ds2 := by
        cases z2 with
        | zero => exact ⟨d, restD, by simp⟩
        | succ w =>
          exact ⟨'0', List.replicate w ('0') ++ (d :: restD), by simp [List.replicate_succ]⟩
      have hfrdig : ∀ c ∈ e2 :: ds2, isDecDig c = true := by
        intro c hc
        rw [← hfr] at hc
        rcases List.mem_append.mp hc with hc | hc
        · rw [List.eq_of_mem_replicate hc]
          decide
        · rcases List.mem_cons.mp hc with rfl | hc
          · exact hd
          · exact hrestD c hc
      have he2 : isDecDig e2 = true := hfrdig e2 (List.mem_cons_self _ _)
      have hds2 : ∀ c ∈ ds2, isDecDig c = true :=
        fun c hc => hfrdig c (List.mem_cons_of_mem _ hc)
      have htext : displayRender (d :: restD) K = '0' :: '.' :: (e2 :: ds2) := by
        simp only [displayRender]
        rw [if_neg hbrA, if_neg hKpos, ← hz2]
        simp only [List.cons_append]
        rw [hfr]
      rw [htext]
      have hlex := lexNumber_frac ('0') e2 [] ds2 rest (by decide) (by simp)
        he2 hds2 hrest
      simp only [List.nil_append] at hlex
      have hfold2 : foldRadix 10 ((('0') :: ([] : List Char)) ++ (e2 :: ds2)) = D := by
        rw [show (('0') :: ([] : List Char)) ++ (e2 :: ds2) = '0' :: (e2 :: ds2) from rfl,
          foldRadix_cons0, ← hfr, foldRadix_zeros, hfoldD]
      refine ⟨.floatN ((('0') :: ([] : List Char)).map .digitP
          ++ .fractionP :: (e2 :: ds2).map .digitP),
        .float (decToF64 false
          (foldRadix 10 ((('0') :: ([] : List Char)) ++ (e2 :: ds2)))
          (0 - ((e2 :: ds2).length : Int))),
        by simpa using hlex, ?_, Or.inr ?_⟩
      · simp only [parse_number]
        rw [parse_float_frac]
        rfl
      · refine congrArg Value.float ?_
        rw [hfold2]
        refine hgen _ ?_
        have hl2 : ((e2 :: ds2).length : Nat) = z2 + (restD.length + 1) := by
          rw [← hfr]
          simp
        simp only [List.length_cons] at hl2 ⊢
        omega


theorem decToF64_zero_exp (neg : Bool) (n : Nat) : decToF64 neg n 0 = roundRat neg n 1 := by
  simp [decToF64]

theorem lex_mag_display_j (μ : Nat) (e : Int) (hodd : μ % 2 = 1) (hμ : μ < 2 ^ 53)
    (he : -1074 ≤ e) (hv : (μ:ℚ) * (2:ℚ) ^ e < (2:ℚ) ^ (1024:ℤ))
    (rest : List Char) :
    ∃ N, lexNumber (displayRender (natDigits (floatDigits μ e).1)
          (floatDigits μ e).2 ++ 'j' :: rest) = .ok (N, rest)
      ∧ parse_number N = .ok (.complex ⟨.zero false, .finite (μ : Int) e⟩) := by
  have hspec := floatDigits_spec μ e hodd hμ he hv
  set D := (floatDigits μ e).1 with hD
  set K := (floatDigits μ e).2 with hK
  have hD0 : 0 < D := by
    by_contra hc
    have hD00 : D = 0 := by omega
    rw [hD00, decToF64_zero_D] at hspec
    simp at hspec
  have hdig := natDigits_all_dec D
  obtain ⟨d, restD, hds⟩ : ∃ d restD, natDigits D = d :: restD := by
    rcases hnil : natDigits D with _ | ⟨d, restD⟩
    · exact absurd hnil (natDigits_ne_nil D)
    · exact ⟨d, restD, rfl⟩
  have hd : isDecDig d = true := hdig d (by rw [hds]; simp)
  have hrestD : ∀ c ∈ restD, isDecDig c = true :=
    fun c hc => hdig c (by rw [hds]; simp [hc])
  have hfoldD : foldRadix 10 (d :: restD) = D := by
    rw [← hds]
    exact natDigits_fold D
  rw [hds] at hspec
  have hgen : ∀ X : Int, X = K - (((d :: restD).length : Nat) : Int) + 1 →
      decToF64 false D X = F64.finite (μ : Int) e := by
    intro X hX
    rw [hX]
    exact hspec
  rw [hds]
  by_cases hbrA : (((d :: restD).length : Nat) : Int) - 1 ≤ K
  · -- the digits are followed by zeros: a bare digit run before the j
    set z := (K - (((d :: restD).length : Nat) : Int) + 1).toNat with hz
    have hzdig : ∀ c ∈ restD ++ List.replicate z ('0'), isDecDig c = true := by
      intro c hc
      rcases List.mem_append.mp hc with hc | hc
      · exact hrestD c hc
      · rw [List.eq_of_mem_replicate hc]
        decide
    have htext : displayRender (d :: restD) K = d :: (restD ++ List.replicate z ('0')) := by
      simp only [displayRender]
      rw [if_pos hbrA, ← hz]
      rfl
    rw [htext]
    have hlex := lexNumber_int_j d (restD ++ List.replicate z ('0')) rest hd hzdig
    have hfoldz : foldRadix 10 (d :: (restD ++ List.replicate z ('0'))) = D * 10 ^ z := by
      rw [show d :: (restD ++ List.replicate z ('0'))
          = (d :: restD) ++ List.replicate z ('0') from rfl]
      rw [foldRadix_trailing_zeros, hfoldD]
    have h0z : 0 ≤ K - (((d :: restD).length : Nat) : Int) + 1 := by omega
    unfold decToF64 at hspec
    rw [if_pos h0z] at hspec
    have himg : decToF64 false (foldRadix 10 (d :: (restD ++ List.replicate z ('0')))) 0
        = F64.finite (μ : Int) e := by
      rw [hfoldz, decToF64_zero_exp, hz]
      exact hspec
    refine ⟨.imagN (.digitsI (d :: (restD ++ List.replicate z ('0')))),
      by simpa using hlex, ?_⟩
    simp [parse_number, parse_imag, bind, pure, himg]
  · by_cases hKpos : 0 ≤ K
    · -- an internal decimal point
      set t1 := (K + 1).toNat with ht1
      have ht1pos : 1 ≤ t1 := by omega
      have ht1lt : t1 < (d :: restD).length := by
        simp only [List.length_cons] at hbrA ⊢
        omega
      obtain ⟨t0, ht0⟩ : ∃ t0, t1 = t0 + 1 := ⟨t1 - 1, by omega⟩
      have htake : List.take t1 (d :: restD) = d :: List.take t0 restD := by
        rw [ht0, List.take_succ_cons]
      have hdrop : List.drop t1 (d :: restD) = List.drop t0 restD := by
        rw [ht0, List.drop_succ_cons]
      obtain ⟨e2, ds2, hdr⟩ : ∃ e2 ds2, List.drop t0 restD = e2 :: ds2 := by
        have hlen2 : (List.drop t0 restD).length = restD.length - t0 :=
          List.length_drop _ _
        rcases hh : List.drop t0 restD with _ | ⟨e2, ds2⟩
        · rw [hh] at hlen2
          simp only [List.length_nil] at hlen2
          simp only [List.length_cons] at ht1lt
          omega
        · exact ⟨e2, ds2, rfl⟩
      have htkdig : ∀ c ∈ List.take t0 restD, isDecDig c = true :=
        fun c hc => hrestD c (List.mem_of_mem_take hc)
      have he2 : isDecDig e2 = true :=
        hrestD e2 (List.mem_of_mem_drop (by rw [hdr]; exact List.mem_cons_self _ _))
      have hds2 : ∀ c ∈ ds2, isDecDig c = true :=
        fun c hc => hrestD c (List.mem_of_mem_drop (by rw [hdr]; simp [hc]))
      have htext : displayRender (d :: restD) K
          = d :: List.take t0 restD ++ '.' :: (e2 :: ds2) := by
        simp only [displayRender]
        rw [if_neg hbrA, if_pos hKpos, ← ht1, htake, hdrop, hdr]
      rw [htext]
      have hlex := lexNumber_frac_j d e2 (List.take t0 restD) ds2 rest hd htkdig
        he2 hds2
      have hfold2 : foldRadix 10 ((d :: List.take t0 restD) ++ (e2 :: ds2)) = D := by
        have hjoin : (d :: List.take t0 restD) ++ (e2 :: ds2)
            = List.take t1 (d :: restD) ++ List.drop t1 (d :: restD) := by
          rw [htake, hdrop, hdr]
        rw [hjoin, List.take_append_drop, hfoldD]
      have hval : decToF64 false
          (foldRadix 10 ((d :: List.take t0 restD) ++ (e2 :: ds2)))
          (0 - ((e2 :: ds2).length : Int)) = F64.finite (μ : Int) e := by
        rw [hfold2]
        refine hgen _ ?_
        have hl2 : ((e2 :: ds2).length : Nat) = restD.length - t0 := by
          rw [← hdr]
          exact List.length_drop _ _
        simp only [List.length_cons] at hl2 ⊢
        omega
      have hval2 : decToF64 false (foldRadix 10 (d :: (List.take t0 restD ++ e2 :: ds2)))
          (-1 + -(ds2.length : Int)) = F64.finite (μ : Int) e := by
        rw [show (-1 + -(ds2.length : Int)) = 0 - ((e2 :: ds2).length : Int) by
          simp only [List.length_cons]; push_cast; ring]
        simpa only [List.cons_append] using hval
      refine ⟨.imagN (.floatI ((d :: List.take t0 restD).map .digitP
          ++ .fractionP :: (e2 :: ds2).map .digitP)),
        by simpa using hlex, ?_⟩
      simp only [parse_number, parse_imag]
      rw [parse_float_frac]
      simp [bind, pure, hval2]
    · -- leading `0.` with padding zeros
      set z2 := (-K - 1).toNat with hz2
      obtain ⟨e2, ds2, hfr⟩ : ∃ e2 ds2,
          List.replicate z2 ('0') ++ (d :: restD) = e2 :: ds2 := by
        cases z2 with
        | zero => exact ⟨d, restD, by simp⟩
        | succ w =>
          exact ⟨'0', List.replicate w ('0') ++ (d :: restD), by simp [List.replicate_succ]⟩
      have hfrdig : ∀ c ∈ e2 :: ds2, isDecDig c = true := by
        intro c hc
        rw [← hfr] at hc
        rcases List.mem_append.mp hc with hc | hc
        · rw [List.eq_of_mem_replicate hc]
          decide
        · rcases List.mem_cons.mp hc with rfl | hc
          · exact hd
          · exact hrestD c hc
      have he2 : isDecDig e2 = true := hfrdig e2 (List.mem_cons_self _ _)
      have hds2 : ∀ c ∈ ds2, isDecDig c = true :=
        fun c hc => hfrdig c (List.mem_cons_of_mem _ hc)
      have htext : displayRender (d :: restD) K = '0' :: '.' :: (e2 :: ds2) := by
        simp only [displayRender]
        rw [if_neg hbrA, if_neg hKpos, ← hz2]
        simp only [List.cons_append]
        rw [hfr]
      rw [htext]
      have hlex := lexNumber_frac_j ('0') e2 [] ds2 rest (by decide) (by simp)
        he2 hds2
      simp only [List.nil_append] at hlex
      have hfold2 : foldRadix 10 ((('0') :: ([] : List Char)) ++ (e2 :: ds2)) = D := by
        rw [show (('0') :: ([] : List Char)) ++ (e2 :: ds2) = '0' :: (e2 :: ds2) from rfl,
          foldRadix_cons0, ← hfr, foldRadix_zeros, hfoldD]
      have hval : decToF64 false
          (foldRadix 10 ((('0') :: ([] : List Char)) ++ (e2 :: ds2)))
          (0 - ((e2 :: ds2).length : Int)) = F64.finite (μ : Int) e := by
        rw [hfold2]
        refine hgen _ ?_
        have hl2 : ((e2 :: ds2).length : Nat) = z2 + (restD.length + 1) := by
          rw [← hfr]
          simp
        simp only [List.length_cons] at hl2 ⊢
        omega
      have hval2 : decToF64 false (foldRadix 10 ('0' :: e2 :: ds2))
          (-1 + -(ds2.length : Int)) = F64.finite (μ : Int) e := by
        rw [show (-1 + -(ds2.length : Int)) = 0 - ((e2 :: ds2).length : Int) by
          simp only [List.length_cons]; push_cast; ring]
        simpa only [List.cons_append, List.nil_append] using hval
      refine ⟨.imagN (.floatI ((('0') :: ([] : List Char)).map .digitP
          ++ .fractionP :: (e2 :: ds2).map .digitP)),
        by simpa using hlex, ?_⟩
      simp only [parse_number, parse_imag]
      rw [parse_float_frac]
      simp [bind, pure, hval2]


/-! ### Formatted text of good values -/

theorem write_ok (v : Value) (h : goodV v = true) :
    ∀ acc, write_ascii v acc = .ok (acc ++ fmtV v) := by
  rcases write_shape v with ⟨out, -, hw⟩ | ⟨hg, -⟩
  · have hout : fmtV v = out := by
      simp only [fmtV, hw [], List.nil_append]
    intro acc
    rw [hout]
    exact hw acc
  · rw [h] at hg
    cases hg

theorem seqRest_ok : ∀ (l : VList), goodL l = true →
    ∀ acc, writeSeqRest l acc = .ok (acc ++ joinSeqRest l)
  | .nil, _, acc => by simp [writeSeqRest, joinSeqRest]
  | .cons v rest, h, acc => by
    simp only [goodL, Bool.and_eq_true] at h
    simp [writeSeqRest, joinSeqRest, write_ok v h.1, seqRest_ok rest h.2]

theorem dictRest_ok : ∀ (p : VPairs), goodP p = true →
    ∀ acc, writeDictRest p acc = .ok (acc ++ joinPairsRest p)
  | .nil, _, acc => by simp [writeDictRest, joinPairsRest]
  | .cons k v rest, h, acc => by
    simp only [goodP, Bool.and_eq_true] at h
    simp [writeDictRest, joinPairsRest, write_ok k h.1.1, write_ok v h.1.2,
      dictRest_ok rest h.2]

theorem fmtV_string (s : List Char) :
    fmtV (.string s) = squote :: s.flatMap escStrChar ++ [squote] := rfl

theorem fmtV_bytes (bs : List Nat) :
    fmtV (.bytes bs) = 'b' :: squote :: bs.flatMap escByte ++ [squote] := rfl

theorem fmtV_integer (i : Int) : fmtV (.integer i) = intDisplay i := rfl

theorem fmtV_float (g : F64) : fmtV (.float g) = fmtLowerExp g := rfl

theorem fmtV_complex (c : C64) :
    fmtV (.complex c) = fmtDisplay c.re ++ fmtDisplayPlus c.im ++ ['j'] := by
  cases c
  rfl

theorem fmtV_boolean (b : Bool) :
    fmtV (.boolean b) = (if b then ['T', 'r', 'u', 'e'] else ['F', 'a', 'l', 's', 'e']) := by
  cases b <;> rfl

theorem fmtV_none : fmtV .none = ['N', 'o', 'n', 'e'] := rfl

theorem fmtV_tuple_nil : fmtV (.tuple .nil) = ['(', ')'] := rfl

theorem fmtV_list_nil : fmtV (.list .nil) = ['[', ']'] := rfl

theorem fmtV_dict_nil : fmtV (.dict .nil) = [lbrace, rbrace] := rfl

theorem fmtV_tuple_one (v : Value) (h : goodV v = true) :
    fmtV (.tuple (.cons v .nil)) = '(' :: fmtV v ++ [',', ')'] := by
  have h0 : write_ascii (.tuple (.cons v .nil)) []
      = .ok ('(' :: fmtV v ++ [',', ')']) := by
    simp [write_ascii, write_ok v h ['(']]
  simp [fmtV, h0]

theorem fmtV_tuple_more (v w : Value) (l : VList) (h : goodV v = true)
    (hl : goodL (.cons w l) = true) :
    fmtV (.tuple (.cons v (.cons w l)))
      = '(' :: fmtV v ++ joinSeqRest (.cons w l) ++ [')'] := by
  have h0 : write_ascii (.tuple (.cons v (.cons w l))) []
      = .ok ('(' :: fmtV v ++ joinSeqRest (.cons w l) ++ [')']) := by
    simp [write_ascii, write_ok v h ['('], seqRest_ok _ hl]
  simp [fmtV, h0]

theorem fmtV_list_cons (v : Value) (l : VList) (h : goodV v = true)
    (hl : goodL l = true) :
    fmtV (.list (.cons v l)) = '[' :: fmtV v ++ joinSeqRest l ++ [']'] := by
  have h0 : write_ascii (.list (.cons v l)) []
      = .ok ('[' :: fmtV v ++ joinSeqRest l ++ [']']) := by
    simp [write_ascii, write_ok v h ['['], seqRest_ok _ hl]
  simp [fmtV, h0]

theorem fmtV_set_cons (v : Value) (l : VList) (h : goodV v = true)
    (hl : goodL l = true) :
    fmtV (.set (.cons v l)) = lbrace :: fmtV v ++ joinSeqRest l ++ [rbrace] := by
  have h0 : write_ascii (.set (.cons v l)) []
      = .ok (lbrace :: fmtV v ++ joinSeqRest l ++ [rbrace]) := by
    simp [write_ascii, write_ok v h [lbrace], seqRest_ok _ hl]
  simp [fmtV, h0]

theorem fmtV_dict_cons (k v : Value) (p : VPairs) (hk : goodV k = true)
    (hv : goodV v = true) (hp : goodP p = true) :
    fmtV (.dict (.cons k v p))
      = lbrace :: fmtV k ++ ':' :: ' ' :: fmtV v ++ joinPairsRest p ++ [rbrace] := by
  have h0 : write_ascii (.dict (.cons k v p)) []
      = .ok (lbrace :: fmtV k ++ ':' :: ' ' :: fmtV v ++ joinPairsRest p ++ [rbrace]) := by
    simp [write_ascii, write_ok k hk, write_ok v hv, dictRest_ok p hp]
  simp [fmtV, h0]


/-! ### Heads of formatted values -/

theorem headGood_facts {c : Char} (h : headGood c = true) :
    isWsCh c = false ∧ c ≠ ',' ∧ c ≠ ':' ∧ c ≠ ')' ∧ c ≠ ']' ∧ c ≠ rbrace := by
  simp only [headGood, Bool.and_eq_true, Bool.not_eq_true', decide_eq_false_iff_not] at h
  tauto

theorem decDig_headGood {c : Char} (h : isDecDig c = true) : headGood c = true := by
  obtain ⟨-, -, -, -, -, -, -, -, -, -, -, -, -, -, hws, -, -, -, -, -, -, -, -,
    hcomma, hcolon, hrp, hrb, hrbr⟩ := decDig_facts h
  simp [headGood, hws, hcomma, hcolon, hrp, hrb, hrbr]

theorem natDigits_head (n : Nat) :
    ∃ c t, natDigits n = c :: t ∧ isDecDig c = true := by
  rcases hnil : natDigits n with _ | ⟨c, t⟩
  · exact absurd hnil (natDigits_ne_nil n)
  · exact ⟨c, t, rfl, natDigits_all_dec n c (by rw [hnil]; simp)⟩

theorem displayRender_digit_head {d : Char} (restD : List Char) (K : Int)
    (hd : isDecDig d = true) :
    ∃ c t, displayRender (d :: restD) K = c :: t ∧ isDecDig c = true := by
  simp only [displayRender]
  split_ifs with h1 h2
  · exact ⟨d, _, rfl, hd⟩
  · obtain ⟨t0, ht0⟩ : ∃ t0, (K + 1).toNat = t0 + 1 := ⟨(K + 1).toNat - 1, by omega⟩
    rw [ht0, List.take_succ_cons]
    exact ⟨d, _, rfl, hd⟩
  · exact ⟨'0', _, rfl, by decide⟩

theorem fmtDisplay_head (g : F64) :
    ∃ c t, fmtDisplay g = c :: t ∧ headGood c = true := by
  cases g with
  | nan => exact ⟨'N', _, rfl, by decide⟩
  | inf s => cases s <;> exact ⟨_, _, rfl, by decide⟩
  | zero s => cases s <;> exact ⟨_, _, rfl, by decide⟩
  | finite m e =>
    simp only [fmtDisplay]
    by_cases hm : m < 0
    · rw [if_pos hm]
      exact ⟨'-', _, rfl, by decide⟩
    · rw [if_neg hm]
      obtain ⟨d, restD, hds, hd⟩ := natDigits_head (floatDigits m.natAbs e).1
      rw [hds]
      obtain ⟨c, t, he, hc⟩ :=
        displayRender_digit_head restD (floatDigits m.natAbs e).2 hd
      exact ⟨c, t, by rw [List.nil_append]; exact he, decDig_headGood hc⟩

theorem fmtLowerExp_head (g : F64) :
    ∃ c t, fmtLowerExp g = c :: t ∧ headGood c = true := by
  cases g with
  | nan => exact ⟨'N', _, rfl, by decide⟩
  | inf s => cases s <;> exact ⟨_, _, rfl, by decide⟩
  | zero s => cases s <;> exact ⟨_, _, rfl, by decide⟩
  | finite m e =>
    simp only [fmtLowerExp]
    by_cases hm : m < 0
    · rw [if_pos hm]
      exact ⟨'-', _, rfl, by decide⟩
    · rw [if_neg hm]
      obtain ⟨d, restD, hds, hd⟩ := natDigits_head (floatDigits m.natAbs e).1
      rw [hds]
      refine ⟨d, (if restD.isEmpty then [] else '.' :: restD) ++ 'e'
        :: intDisplay (floatDigits m.natAbs e).2, ?_, decDig_headGood hd⟩
      rw [List.nil_append]
      rfl

theorem intDisplay_head (i : Int) :
    ∃ c t, intDisplay i = c :: t ∧ headGood c = true := by
  simp only [intDisplay]
  by_cases hi : i < 0
  · rw [if_pos hi]
    exact ⟨'-', _, rfl, by decide⟩
  · rw [if_neg hi]
    obtain ⟨d, restD, hds, hd⟩ := natDigits_head i.natAbs
    exact ⟨d, restD, hds, decDig_headGood hd⟩

theorem fmtV_head : ∀ (v : Value), goodV v = true →
    ∃ c t, fmtV v = c :: t ∧ headGood c = true
  | .string s, _ => ⟨squote, _, fmtV_string s, by decide⟩
  | .bytes bs, _ => ⟨'b', _, fmtV_bytes bs, by decide⟩
  | .integer i, _ => by
    rw [fmtV_integer]
    exact intDisplay_head i
  | .float g, _ => by
    rw [fmtV_float]
    exact fmtLowerExp_head g
  | .complex c, _ => by
    rw [fmtV_complex]
    obtain ⟨d, t, he, hd⟩ := fmtDisplay_head c.re
    refine ⟨d, t ++ fmtDisplayPlus c.im ++ ['j'], ?_, hd⟩
    rw [he]
    simp only [List.cons_append, List.append_assoc]
  | .tuple .nil, _ => ⟨'(', _, fmtV_tuple_nil, by decide⟩
  | .tuple (.cons v .nil), h => by
    simp only [goodV, goodL, Bool.and_eq_true] at h
    rw [fmtV_tuple_one v h.1]
    exact ⟨'(', _, rfl, by decide⟩
  | .tuple (.cons v (.cons w l)), h => by
    simp only [goodV, goodL, Bool.and_eq_true] at h
    rw [fmtV_tuple_more v w l h.1 (by simp [goodL, h.2.1, h.2.2])]
    exact ⟨'(', _, rfl, by decide⟩
  | .list .nil, _ => ⟨'[', _, fmtV_list_nil, by decide⟩
  | .list (.cons v l), h => by
    simp only [goodV, goodL, Bool.and_eq_true] at h
    rw [fmtV_list_cons v l h.1 h.2]
    exact ⟨'[', _, rfl, by decide⟩
  | .dict .nil, _ => ⟨lbrace, _, fmtV_dict_nil, by decide⟩
  | .dict (.cons k v p), h => by
    simp only [goodV, goodP, Bool.and_eq_true] at h
    rw [fmtV_dict_cons k v p h.1.1 h.1.2 h.2]
    exact ⟨lbrace, _, rfl, by decide⟩
  | .set (.cons v l), h => by
    simp only [goodV, Bool.and_eq_true] at h
    rw [fmtV_set_cons v l h.1 h.2]
    exact ⟨lbrace, _, rfl, by decide⟩
  | .boolean b, _ => by
    rw [fmtV_boolean]
    cases b
    · exact ⟨'F', _, rfl, by decide⟩
    · exact ⟨'T', _, rfl, by decide⟩
  | .none, _ => ⟨'N', _, fmtV_none, by decide⟩

/-! ### Zero algebra of binary64 addition -/

theorem zadd_finite (m e : Int) : (F64.zero false).add (.finite m e) = .finite m e := rfl

theorem zsub_finite (m e : Int) : (F64.zero false).sub (.finite m e) = .finite (-m) e := rfl

theorem zadd_zero : (F64.zero false).add (.zero false) = .zero false := rfl

theorem zsub_zero : (F64.zero false).sub (.zero false) = .zero false := rfl

theorem tame_add_zero {g : F64} (h : tameF64 g) : g.add (.zero false) = g := by
  rcases h with rfl | ⟨m, e, rfl⟩ <;> rfl

theorem tame_sub_zero {g : F64} (h : tameF64 g) : g.sub (.zero false) = g := by
  rcases h with rfl | ⟨m, e, rfl⟩ <;> rfl

theorem int_to_f64_zero : int_to_f64 0 = .ok (.zero false) := rfl

theorem req_finite_self (m e : Int) : F64.req (.finite m e) (.finite m e) = true := by
  simp [F64.req]

theorem parse_zero_int : parse_number (.intN (.decI ['0'])) = .ok (.integer 0) := rfl

theorem parse_zero_imag :
    parse_number (.imagN (.digitsI ['0'])) = .ok (.complex ⟨.zero false, .zero false⟩) := rfl

theorem parse_zero_exp_float :
    parse_number (.floatN ([FloatPiece.digitP '0']
        ++ FloatPiece.posExpP :: [FloatPiece.digitP '0'])) = .ok (.float (.zero false)) := rfl

/-- Extract the hypotheses of the magnitude lemmas from well-formedness of a
finite datum. -/
theorem wf_finite_facts {m e : Int} (h : F64.wf (.finite m e) = true) :
    m ≠ 0 ∧ m.natAbs % 2 = 1 ∧ m.natAbs < 2 ^ 53 ∧ -1074 ≤ e
      ∧ (m.natAbs : ℚ) * (2:ℚ) ^ e < (2:ℚ) ^ (1024:ℤ) := by
  simp only [F64.wf, Bool.and_eq_true, decide_eq_true_eq, beq_iff_eq] at h
  obtain ⟨⟨⟨⟨hm0, hodd⟩, h53⟩, he⟩, hv⟩ := h
  refine ⟨hm0, hodd, h53, he, ?_⟩
  have hq : ((m.natAbs : ℚ)) * (2:ℚ) ^ e.toNat < (2:ℚ) ^ 1024 * (2:ℚ) ^ (-e).toNat := by
    have h0 : ((m.natAbs * 2 ^ e.toNat : Nat) : ℚ)
        < ((2 ^ 1024 * 2 ^ (-e).toNat : Nat) : ℚ) := Nat.cast_lt.mpr hv
    simpa only [Nat.cast_mul, Nat.cast_pow, Nat.cast_ofNat] using h0
  have hz : (2:ℚ) ^ e = (2:ℚ) ^ ((e.toNat : Int)) / (2:ℚ) ^ (((-e).toNat : Int)) := by
    rw [← zpow_sub₀ (show (2:ℚ) ≠ 0 from by norm_num)]
    congr 1
    omega
  rw [hz, mul_div_assoc' _ _ _, div_lt_iff₀ (by positivity)]
  rw [zpow_natCast, zpow_natCast, show ((1024:ℤ)) = ((1024:ℕ):ℤ) from rfl, zpow_natCast]
  exact hq


/-! ### Numeric terms through the expression loop -/

theorem signSpan_digitHead {c : Char} (h : isDecDig c = true) (t : List Char) :
    signSpan (c :: t) = (0, c :: t) := by
  obtain ⟨-, -, -, -, -, -, -, -, -, -, -, -, hplus, hminus, hws, -, -, -, -, -,
    -, -, -, -, -, -, -, -⟩ := decDig_facts h
  exact signSpan_stop t hplus hminus hws

theorem lowerExpRender_head (n : Nat) (K : Int) :
    ∃ c t, lowerExpRender (natDigits n) K = c :: t ∧ isDecDig c = true := by
  obtain ⟨d, restD, hds, hd⟩ := natDigits_head n
  rw [hds]
  exact ⟨d, _, rfl, hd⟩

theorem displayRender_head (n : Nat) (K : Int) :
    ∃ c t, displayRender (natDigits n) K = c :: t ∧ isDecDig c = true := by
  obtain ⟨d, restD, hds, hd⟩ := natDigits_head n
  rw [hds]
  exact displayRender_digit_head restD K hd

theorem neLoop_eval {cs rest : List Char} {k : Nat} {N : NumberNode} {mid : List Char}
    (hss : signSpan cs = (k, mid)) (hlex : lexNumber mid = .ok (N, rest))
    (hrest : delimB rest = true) (f : Nat) (acc : List NumTok) :
    lexNumExprLoop (f+1) cs acc
      = .ok (acc ++ (List.replicate k .minusTok ++ [.numTok N]), rest) := by
  rcases rest with _ | ⟨c, t⟩
  · simp [lexNumExprLoop, hss, hlex, skipWs]
  · obtain ⟨hw, hp, hm, -, -, -, -, -, -, -⟩ := delimB_head_facts hrest
    simp [lexNumExprLoop, hss, hlex, skipWs_cons t hw, hp, hm]

theorem neLoop_eval_cont {cs : List Char} {k : Nat} {N : NumberNode}
    {mid : List Char} {c : Char} {t : List Char}
    (hss : signSpan cs = (k, mid)) (hlex : lexNumber mid = .ok (N, c :: t))
    (hc : c = '+' ∨ c = '-') (hws : isWsCh c = false) (f : Nat) (acc : List NumTok) :
    lexNumExprLoop (f+1) cs acc
      = lexNumExprLoop f (c :: t) (acc ++ (List.replicate k .minusTok ++ [.numTok N])) := by
  rcases hc with rfl | rfl <;>
    simp [lexNumExprLoop, hss, hlex, skipWs_cons t hws]

theorem lexNE_integer (i : Int) (f : Nat) (rest : List Char) (acc : List NumTok)
    (hrest : delimB rest = true) :
    ∃ toks, lexNumExprLoop (f+1) (intDisplay i ++ rest) acc = .ok (acc ++ toks, rest)
      ∧ ∀ t, pneLoop (toks ++ t) (.integer 0) false = pneLoop t (.integer i) false := by
  obtain ⟨d, ds, hds, hd⟩ := natDigits_head i.natAbs
  have hdigs : ∀ c ∈ ds, isDecDig c = true := fun c hc =>
    natDigits_all_dec i.natAbs c (by rw [hds]; simp [hc])
  have hns : numStop rest = true := delimB_numStop hrest
  have hlex := lexNumber_int d ds rest hd hdigs hns
  have hfold : foldRadix 10 (d :: ds) = i.natAbs := by
    rw [← hds]
    exact natDigits_fold i.natAbs
  have hparse : parse_number (.intN (.decI (d :: ds)))
      = .ok (.integer (i.natAbs : Int)) := by
    simp [parse_number, parse_integer, hfold]
  have hss0 : signSpan (d :: (ds ++ rest)) = (0, d :: (ds ++ rest)) :=
    signSpan_digitHead hd _
  by_cases hi : i < 0
  · have htext : intDisplay i ++ rest = '-' :: (d :: (ds ++ rest)) := by
      simp only [intDisplay, if_pos hi, hds, List.cons_append]
    rw [htext]
    have hss : signSpan ('-' :: (d :: (ds ++ rest))) = (1, d :: (ds ++ rest)) := by
      rw [signSpan_minus, hss0]
    refine ⟨[.minusTok, .numTok (.intN (.decI (d :: ds)))], ?_, ?_⟩
    · rw [neLoop_eval hss hlex hrest f acc]
      simp
    · intro t
      have hc : (if true then sub_numbers (.integer 0) (.integer (i.natAbs : Int))
          else add_numbers (.integer 0) (.integer (i.natAbs : Int))) = .ok (.integer i) := by
        have hval : (0:Int) - (i.natAbs : Int) = i := by omega
        show Outcome.ok (Value.integer ((0:Int) - (i.natAbs : Int))) = .ok (.integer i)
        rw [hval]
      calc pneLoop ([.minusTok, .numTok (.intN (.decI (d :: ds)))] ++ t) (.integer 0) false
          = pneLoop (.numTok (.intN (.decI (d :: ds))) :: t) (.integer 0) true := rfl
        _ = pneLoop t (.integer i) false := pneLoop_step t true hparse hc
  · have htext : intDisplay i ++ rest = d :: (ds ++ rest) := by
      simp only [intDisplay, if_neg hi, hds, List.cons_append]
    rw [htext]
    refine ⟨[.numTok (.intN (.decI (d :: ds)))], ?_, ?_⟩
    · rw [neLoop_eval hss0 hlex hrest f acc]
      simp
    · intro t
      have hc : (if false then sub_numbers (.integer 0) (.integer (i.natAbs : Int))
          else add_numbers (.integer 0) (.integer (i.natAbs : Int))) = .ok (.integer i) := by
        have hval : (0:Int) + (i.natAbs : Int) = i := by omega
        show Outcome.ok (Value.integer ((0:Int) + (i.natAbs : Int))) = .ok (.integer i)
        rw [hval]
      calc pneLoop ([.numTok (.intN (.decI (d :: ds)))] ++ t) (.integer 0) false
          = pneLoop (.numTok (.intN (.decI (d :: ds))) :: t) (.integer 0) false := rfl
        _ = pneLoop t (.integer i) false := pneLoop_step t false hparse hc

theorem lexNE_float (g : F64) (hwf : F64.wf g = true) (hfin : F64.isFinite g = true)
    (f : Nat) (rest : List Char) (acc : List NumTok) (hrest : delimB rest = true) :
    ∃ toks g2, lexNumExprLoop (f+1) (fmtLowerExp g ++ rest) acc = .ok (acc ++ toks, rest)
      ∧ (∀ t, pneLoop (toks ++ t) (.integer 0) false = pneLoop t (.float g2) false)
      ∧ F64.req g2 g = true := by
  have hns : numStop rest = true := delimB_numStop hrest
  cases g with
  | nan => cases hfin
  | inf s => cases hfin
  | zero s =>
    have hlex0 : lexNumber ('0' :: 'e' :: '0' :: rest)
        = .ok (.floatN ([FloatPiece.digitP '0']
            ++ FloatPiece.posExpP :: [FloatPiece.digitP '0']), rest) := by
      have := lexNumber_exp '0' '0' [] [] rest false (by decide) (by simp)
        (by decide) (by simp) hns
      simpa using this
    have hss : signSpan ('0' :: 'e' :: '0' :: rest) = (0, '0' :: 'e' :: '0' :: rest) :=
      signSpan_digitHead (by decide) _
    cases s
    · refine ⟨[.numTok (.floatN ([FloatPiece.digitP '0']
          ++ FloatPiece.posExpP :: [FloatPiece.digitP '0']))], .zero false, ?_, ?_, rfl⟩
      · rw [show fmtLowerExp (.zero false) = ['0', 'e', '0'] from rfl]
        simp only [List.cons_append, List.nil_append]
        rw [neLoop_eval hss hlex0 hrest f acc]
        simp
      · intro t
        exact pneLoop_step t false parse_zero_exp_float rfl
    · refine ⟨[.minusTok, .numTok (.floatN ([FloatPiece.digitP '0']
          ++ FloatPiece.posExpP :: [FloatPiece.digitP '0']))], .zero false, ?_, ?_, rfl⟩
      · rw [show fmtLowerExp (.zero true) = ['-', '0', 'e', '0'] from rfl]
        simp only [List.cons_append, List.nil_append]
        have hssm : signSpan ('-' :: '0' :: 'e' :: '0' :: rest)
            = (1, '0' :: 'e' :: '0' :: rest) := by
          rw [signSpan_minus, hss]
        rw [neLoop_eval hssm hlex0 hrest f acc]
        simp
      · intro t
        calc pneLoop ([.minusTok, .numTok (.floatN ([FloatPiece.digitP '0']
                ++ FloatPiece.posExpP :: [FloatPiece.digitP '0']))] ++ t)
              (.integer 0) false
            = pneLoop (.numTok (.floatN ([FloatPiece.digitP '0']
                ++ FloatPiece.posExpP :: [FloatPiece.digitP '0'])) :: t)
              (.integer 0) true := rfl
          _ = pneLoop t (.float (.zero false)) false :=
            pneLoop_step t true parse_zero_exp_float rfl
  | finite m e =>
    obtain ⟨hm0, hodd, h53, he, hv⟩ := wf_finite_facts hwf
    obtain ⟨N, hlex, hparse⟩ := lex_mag_exp m.natAbs e hodd h53 he hv rest hns
    obtain ⟨c0, t2, hre, hc0⟩ := lowerExpRender_head (floatDigits m.natAbs e).1
      (floatDigits m.natAbs e).2
    have hss : signSpan (lowerExpRender (natDigits (floatDigits m.natAbs e).1)
          (floatDigits m.natAbs e).2 ++ rest)
        = (0, lowerExpRender (natDigits (floatDigits m.natAbs e).1)
            (floatDigits m.natAbs e).2 ++ rest) := by
      rw [hre, List.cons_append]
      exact signSpan_digitHead hc0 _
    by_cases hm : m < 0
    · have htext : fmtLowerExp (.finite m e) ++ rest
          = '-' :: (lowerExpRender (natDigits (floatDigits m.natAbs e).1)
              (floatDigits m.natAbs e).2 ++ rest) := by
        simp only [fmtLowerExp, if_pos hm, List.cons_append, List.singleton_append,
          List.nil_append]
      rw [htext]
      have hssm := signSpan_minus (lowerExpRender (natDigits (floatDigits m.natAbs e).1)
        (floatDigits m.natAbs e).2 ++ rest)
      rw [hss] at hssm
      refine ⟨[.minusTok, .numTok N], .finite m e, ?_, ?_, req_finite_self m e⟩
      · rw [neLoop_eval hssm hlex hrest f acc]
        simp
      · intro t
        have hc : (if true then sub_numbers (.integer 0) (.float (.finite (m.natAbs : Int) e))
            else add_numbers (.integer 0) (.float (.finite (m.natAbs : Int) e)))
            = .ok (.float (.finite m e)) := by
          have hval : -(m.natAbs : Int) = m := by omega
          show Outcome.ok (Value.float ((F64.zero false).sub (.finite (m.natAbs : Int) e)))
            = .ok (.float (.finite m e))
          rw [zsub_finite, hval]
        calc pneLoop ([.minusTok, .numTok N] ++ t) (.integer 0) false
            = pneLoop (.numTok N :: t) (.integer 0) true := rfl
          _ = pneLoop t (.float (.finite m e)) false := pneLoop_step t true hparse hc
    · have htext : fmtLowerExp (.finite m e) ++ rest
          = lowerExpRender (natDigits (floatDigits m.natAbs e).1)
              (floatDigits m.natAbs e).2 ++ rest := by
        simp only [fmtLowerExp, if_neg hm, List.nil_append]
      rw [htext]
      refine ⟨[.numTok N], .finite m e, ?_, ?_, req_finite_self m e⟩
      · rw [neLoop_eval hss hlex hrest f acc]
        simp
      · intro t
        have hc : (if false then sub_numbers (.integer 0) (.float (.finite (m.natAbs : Int) e))
            else add_numbers (.integer 0) (.float (.finite (m.natAbs : Int) e)))
            = .ok (.float (.finite m e)) := by
          have hval : (m.natAbs : Int) = m := by omega
          show Outcome.ok (Value.float ((F64.zero false).add (.finite (m.natAbs : Int) e)))
            = .ok (.float (.finite m e))
          rw [zadd_finite, hval]
        calc pneLoop ([.numTok N] ++ t) (.integer 0) false
            = pneLoop (.numTok N :: t) (.integer 0) false := rfl
          _ = pneLoop t (.float (.finite m e)) false := pneLoop_step t false hparse hc


theorem fmtDisplayPlus_signHead (g : F64) (hfin : F64.isFinite g = true) :
    ∃ sc rem0, fmtDisplayPlus g = sc :: rem0 ∧ (sc = '+' ∨ sc = '-') := by
  cases g with
  | nan => cases hfin
  | inf s => cases hfin
  | zero s =>
    cases s
    · exact ⟨'+', _, rfl, Or.inl rfl⟩
    · exact ⟨'-', _, rfl, Or.inr rfl⟩
  | finite m e =>
    by_cases hm : m < 0
    · refine ⟨'-', displayRender (natDigits (floatDigits m.natAbs e).1)
        (floatDigits m.natAbs e).2, ?_, Or.inr rfl⟩
      simp only [fmtDisplayPlus, fmtDisplay, if_pos hm, List.singleton_append]
    · refine ⟨'+', fmtDisplay (.finite m e), ?_, Or.inl rfl⟩
      simp only [fmtDisplayPlus, if_neg hm]

/-- The real-part term of a formatted complex value: one pass of the
numeric-expression loop leaving the sign of the imaginary part unconsumed. -/
theorem neLoop_re (g : F64) (hwf : F64.wf g = true) (hfin : F64.isFinite g = true)
    (f : Nat) (sc : Char) (rem : List Char) (hsc : sc = '+' ∨ sc = '-')
    (acc : List NumTok) :
    ∃ reTk r1 g1, lexNumExprLoop (f+1) (fmtDisplay g ++ sc :: rem) acc
        = lexNumExprLoop f (sc :: rem) (acc ++ reTk)
      ∧ (∀ t, pneLoop (reTk ++ t) (.integer 0) false = pneLoop t r1 false)
      ∧ reAcc r1 g1 ∧ tameF64 g1 ∧ F64.req g1 g = true := by
  have hws : isWsCh sc = false := by
    rcases hsc with rfl | rfl <;> decide
  have hns : numStop (sc :: rem) = true := by
    rcases hsc with rfl | rfl
    · exact numStop_plus rem
    · exact numStop_minus rem
  cases g with
  | nan => cases hfin
  | inf s => cases hfin
  | zero s =>
    have hlex : lexNumber ('0' :: sc :: rem) = .ok (.intN (.decI ['0']), sc :: rem) := by
      have := lexNumber_int '0' [] (sc :: rem) (by decide) (by simp) hns
      simpa using this
    have hss : signSpan ('0' :: sc :: rem) = (0, '0' :: sc :: rem) :=
      signSpan_digitHead (by decide) _
    cases s
    · refine ⟨[.numTok (.intN (.decI ['0']))], .integer 0, .zero false, ?_, ?_,
        Or.inl ⟨0, rfl, int_to_f64_zero⟩, Or.inl rfl, rfl⟩
      · rw [show fmtDisplay (.zero false) = ['0'] from rfl]
        simp only [List.cons_append, List.nil_append]
        rw [neLoop_eval_cont hss hlex hsc hws f acc]
        simp
      · intro t
        have hc : (if false then sub_numbers (.integer 0) (.integer (0:Int))
            else add_numbers (.integer 0) (.integer (0:Int))) = .ok (.integer 0) := by
          show Outcome.ok (Value.integer ((0:Int) + 0)) = .ok (.integer 0)
          norm_num
        exact pneLoop_step t false parse_zero_int hc
    · refine ⟨[.minusTok, .numTok (.intN (.decI ['0']))], .integer 0, .zero false, ?_, ?_,
        Or.inl ⟨0, rfl, int_to_f64_zero⟩, Or.inl rfl, rfl⟩
      · rw [show fmtDisplay (.zero true) = ['-', '0'] from rfl]
        simp only [List.cons_append, List.nil_append]
        have hssm : signSpan ('-' :: '0' :: sc :: rem) = (1, '0' :: sc :: rem) := by
          rw [signSpan_minus, hss]
        rw [neLoop_eval_cont hssm hlex hsc hws f acc]
        simp
      · intro t
        have hc : (if true then sub_numbers (.integer 0) (.integer (0:Int))
            else add_numbers (.integer 0) (.integer (0:Int))) = .ok (.integer 0) := by
          show Outcome.ok (Value.integer ((0:Int) - 0)) = .ok (.integer 0)
          norm_num
        calc pneLoop ([.minusTok, .numTok (.intN (.decI ['0']))] ++ t) (.integer 0) false
            = pneLoop (.numTok (.intN (.decI ['0'])) :: t) (.integer 0) true := rfl
          _ = pneLoop t (.integer 0) false := pneLoop_step t true parse_zero_int hc
  | finite m e =>
    obtain ⟨hm0, hodd, h53, he, hv⟩ := wf_finite_facts hwf
    obtain ⟨N, val, hlex, hparse, hdisj⟩ :=
      lex_mag_display m.natAbs e hodd h53 he hv (sc :: rem) hns
    have hss : signSpan (displayRender (natDigits (floatDigits m.natAbs e).1)
          (floatDigits m.natAbs e).2 ++ (sc :: rem))
        = (0, displayRender (natDigits (floatDigits m.natAbs e).1)
            (floatDigits m.natAbs e).2 ++ (sc :: rem)) := by
      obtain ⟨c0, t2, hre, hc0⟩ := displayRender_head (floatDigits m.natAbs e).1
        (floatDigits m.natAbs e).2
      rw [hre]
      simp only [List.cons_append]
      exact signSpan_digitHead hc0 _
    by_cases hm : m < 0
    · have htext : fmtDisplay (.finite m e) ++ sc :: rem
          = '-' :: (displayRender (natDigits (floatDigits m.natAbs e).1)
              (floatDigits m.natAbs e).2 ++ (sc :: rem)) := by
        simp only [fmtDisplay, if_pos hm, List.cons_append, List.singleton_append,
          List.nil_append]
      have hssm := signSpan_minus (displayRender (natDigits (floatDigits m.natAbs e).1)
        (floatDigits m.natAbs e).2 ++ (sc :: rem))
      rw [hss] at hssm
      rcases hdisj with ⟨n, hval, hn0, hrr⟩ | hval
      · subst hval
        refine ⟨[.minusTok, .numTok N], .integer (-(n : Int)), .finite m e, ?_, ?_,
          Or.inl ⟨-(n : Int), rfl, ?_⟩, Or.inr ⟨m, e, rfl⟩, req_finite_self m e⟩
        · rw [htext, neLoop_eval_cont hssm hlex hsc hws f acc]
          simp
        · intro t
          have hc : (if true then sub_numbers (.integer 0) (.integer (n : Int))
              else add_numbers (.integer 0) (.integer (n : Int)))
              = .ok (.integer (-(n : Int))) := by
            show Outcome.ok (Value.integer ((0:Int) - (n : Int)))
              = .ok (.integer (-(n : Int)))
            rw [zero_sub]
          calc pneLoop ([.minusTok, .numTok N] ++ t) (.integer 0) false
              = pneLoop (.numTok N :: t) (.integer 0) true := rfl
            _ = pneLoop t (.integer (-(n : Int))) false := pneLoop_step t true hparse hc
        · have := int_to_f64_exact_neg hn0 hrr
          rw [this]
          have hmm : -((m.natAbs : Int)) = m := by
            rw [Int.ofNat_natAbs_of_nonpos (le_of_lt hm)]
            exact neg_neg m
          rw [hmm]
      · subst hval
        refine ⟨[.minusTok, .numTok N], .float (.finite m e), .finite m e, ?_, ?_,
          Or.inr rfl, Or.inr ⟨m, e, rfl⟩, req_finite_self m e⟩
        · rw [htext, neLoop_eval_cont hssm hlex hsc hws f acc]
          simp
        · intro t
          have hc : (if true then sub_numbers (.integer 0)
                (.float (.finite (m.natAbs : Int) e))
              else add_numbers (.integer 0) (.float (.finite (m.natAbs : Int) e)))
              = .ok (.float (.finite m e)) := by
            show Outcome.ok (Value.float ((F64.zero false).sub (.finite (m.natAbs : Int) e)))
              = .ok (.float (.finite m e))
            rw [zsub_finite]
            rw [show -((m.natAbs : Int)) = m from by
              rw [Int.ofNat_natAbs_of_nonpos (le_of_lt hm)]
              exact neg_neg m]
          calc pneLoop ([.minusTok, .numTok N] ++ t) (.integer 0) false
              = pneLoop (.numTok N :: t) (.integer 0) true := rfl
            _ = pneLoop t (.float (.finite m e)) false := pneLoop_step t true hparse hc
    · have htext : fmtDisplay (.finite m e) ++ sc :: rem
          = displayRender (natDigits (floatDigits m.natAbs e).1)
              (floatDigits m.natAbs e).2 ++ (sc :: rem) := by
        simp only [fmtDisplay, if_neg hm, List.nil_append]
      have hmm : ((m.natAbs : Int)) = m := Int.natAbs_of_nonneg (not_lt.mp hm)
      rcases hdisj with ⟨n, hval, hn0, hrr⟩ | hval
      · subst hval
        refine ⟨[.numTok N], .integer (n : Int), .finite m e, ?_, ?_,
          Or.inl ⟨(n : Int), rfl, ?_⟩, Or.inr ⟨m, e, rfl⟩, req_finite_self m e⟩
        · rw [htext, neLoop_eval_cont hss hlex hsc hws f acc]
          simp
        · intro t
          have hc : (if false then sub_numbers (.integer 0) (.integer (n : Int))
              else add_numbers (.integer 0) (.integer (n : Int)))
              = .ok (.integer (n : Int)) := by
            show Outcome.ok (Value.integer ((0:Int) + (n : Int))) = .ok (.integer (n : Int))
            rw [zero_add]
          exact pneLoop_step t false hparse hc
        · have := int_to_f64_exact_pos hn0 hrr
          rw [this, hmm]
      · subst hval
        refine ⟨[.numTok N], .float (.finite m e), .finite m e, ?_, ?_,
          Or.inr rfl, Or.inr ⟨m, e, rfl⟩, req_finite_self m e⟩
        · rw [htext, neLoop_eval_cont hss hlex hsc hws f acc]
          simp
        · intro t
          have hc : (if false then sub_numbers (.integer 0)
                (.float (.finite (m.natAbs : Int) e))
              else add_numbers (.integer 0) (.float (.finite (m.natAbs : Int) e)))
              = .ok (.float (.finite m e)) := by
            show Outcome.ok (Value.float ((F64.zero false).add (.finite (m.natAbs : Int) e)))
              = .ok (.float (.finite m e))
            rw [zadd_finite, hmm]
          exact pneLoop_step t false hparse hc


set_option maxHeartbeats 1600000 in
/-- The imaginary-part term of a formatted complex value: the explicit sign,
the magnitude and the `j` suffix, consumed in one pass of the loop. -/
theorem neLoop_im (g : F64) (hwf : F64.wf g = true) (hfin : F64.isFinite g = true)
    (f : Nat) (rest : List Char) (hrest : delimB rest = true) (acc : List NumTok) :
    ∃ imTk h2, lexNumExprLoop (f+1) (fmtDisplayPlus g ++ 'j' :: rest) acc
        = .ok (acc ++ imTk, rest)
      ∧ F64.req h2 g = true
      ∧ ∀ (r : Value) (g1 : F64), reAcc r g1 → tameF64 g1 →
          ∀ t, pneLoop (imTk ++ t) r false = pneLoop t (.complex ⟨g1, h2⟩) false := by
  cases g with
  | nan => cases hfin
  | inf s => cases hfin
  | zero s =>
    have hlex : lexNumber ('0' :: 'j' :: rest) = .ok (.imagN (.digitsI ['0']), rest) := by
      have := lexNumber_int_j '0' [] rest (by decide) (by simp)
      simpa using this
    have hss0 : signSpan ('0' :: 'j' :: rest) = (0, '0' :: 'j' :: rest) :=
      signSpan_digitHead (by decide) _
    cases s
    · have hss : signSpan ('+' :: '0' :: 'j' :: rest) = (0, '0' :: 'j' :: rest) := by
        rw [signSpan_plus, hss0]
      refine ⟨[.numTok (.imagN (.digitsI ['0']))], .zero false, ?_, rfl, ?_⟩
      · rw [show fmtDisplayPlus (.zero false) = ['+', '0'] from rfl]
        simp only [List.cons_append, List.nil_append]
        rw [neLoop_eval hss hlex hrest f acc]
        simp
      · intro r g1 hre ht t
        rcases hre with ⟨n, rfl, hi⟩ | rfl
        · have hc : (if false then sub_numbers (.integer n)
                (.complex ⟨.zero false, .zero false⟩)
              else add_numbers (.integer n) (.complex ⟨.zero false, .zero false⟩))
              = .ok (.complex ⟨g1, .zero false⟩) := by
            show (int_to_f64 n).map (fun x => Value.complex (fAddC x ⟨.zero false, .zero false⟩))
              = .ok (.complex ⟨g1, .zero false⟩)
            rw [hi]
            simp only [Outcome.map, fAddC, tame_add_zero ht]
          exact pneLoop_step t false parse_zero_imag hc
        · have hc : (if false then sub_numbers (.float g1)
                (.complex ⟨.zero false, .zero false⟩)
              else add_numbers (.float g1) (.complex ⟨.zero false, .zero false⟩))
              = .ok (.complex ⟨g1, .zero false⟩) := by
            show Outcome.ok (Value.complex (fAddC g1 ⟨.zero false, .zero false⟩))
              = .ok (.complex ⟨g1, .zero false⟩)
            simp only [fAddC, tame_add_zero ht]
          exact pneLoop_step t false parse_zero_imag hc
    · have hss : signSpan ('-' :: '0' :: 'j' :: rest) = (1, '0' :: 'j' :: rest) := by
        rw [signSpan_minus, hss0]
      refine ⟨[.minusTok, .numTok (.imagN (.digitsI ['0']))], .zero false, ?_, rfl, ?_⟩
      · rw [show fmtDisplayPlus (.zero true) = ['-', '0'] from rfl]
        simp only [List.cons_append, List.nil_append]
        rw [neLoop_eval hss hlex hrest f acc]
        simp
      · intro r g1 hre ht t
        have hstep : pneLoop ([.minusTok, .numTok (.imagN (.digitsI ['0']))] ++ t) r false
            = pneLoop (.numTok (.imagN (.digitsI ['0'])) :: t) r true := rfl
        rw [hstep]
        rcases hre with ⟨n, rfl, hi⟩ | rfl
        · have hc : (if true then sub_numbers (.integer n)
                (.complex ⟨.zero false, .zero false⟩)
              else add_numbers (.integer n) (.complex ⟨.zero false, .zero false⟩))
              = .ok (.complex ⟨g1, .zero false⟩) := by
            show (int_to_f64 n).map (fun x => Value.complex (fSubC x ⟨.zero false, .zero false⟩))
              = .ok (.complex ⟨g1, .zero false⟩)
            rw [hi]
            simp only [Outcome.map, fSubC, tame_sub_zero ht, zsub_zero]
          exact pneLoop_step t true parse_zero_imag hc
        · have hc : (if true then sub_numbers (.float g1)
                (.complex ⟨.zero false, .zero false⟩)
              else add_numbers (.float g1) (.complex ⟨.zero false, .zero false⟩))
              = .ok (.complex ⟨g1, .zero false⟩) := by
            show Outcome.ok (Value.complex (fSubC g1 ⟨.zero false, .zero false⟩))
              = .ok (.complex ⟨g1, .zero false⟩)
            simp only [fSubC, tame_sub_zero ht, zsub_zero]
          exact pneLoop_step t true parse_zero_imag hc
  | finite m e =>
    obtain ⟨hm0, hodd, h53, he, hv⟩ := wf_finite_facts hwf
    obtain ⟨N, hlex, hparse⟩ := lex_mag_display_j m.natAbs e hodd h53 he hv rest
    have hss0 : signSpan (displayRender (natDigits (floatDigits m.natAbs e).1)
          (floatDigits m.natAbs e).2 ++ 'j' :: rest)
        = (0, displayRender (natDigits (floatDigits m.natAbs e).1)
            (floatDigits m.natAbs e).2 ++ 'j' :: rest) := by
      obtain ⟨c0, t2, hre, hc0⟩ := displayRender_head (floatDigits m.natAbs e).1
        (floatDigits m.natAbs e).2
      rw [hre]
      simp only [List.cons_append]
      exact signSpan_digitHead hc0 _
    by_cases hm : m < 0
    · have htext : fmtDisplayPlus (.finite m e) ++ 'j' :: rest
          = '-' :: (displayRender (natDigits (floatDigits m.natAbs e).1)
              (floatDigits m.natAbs e).2 ++ 'j' :: rest) := by
        simp only [fmtDisplayPlus, fmtDisplay, if_pos hm, List.cons_append,
          List.singleton_append, List.nil_append]
      have hssm := signSpan_minus (displayRender (natDigits (floatDigits m.natAbs e).1)
        (floatDigits m.natAbs e).2 ++ 'j' :: rest)
      rw [hss0] at hssm
      have hmm : -((m.natAbs : Int)) = m := by
        rw [Int.ofNat_natAbs_of_nonpos (le_of_lt hm)]
        exact neg_neg m
      refine ⟨[.minusTok, .numTok N], .finite m e, ?_, req_finite_self m e, ?_⟩
      · rw [htext, neLoop_eval hssm hlex hrest f acc]
        simp
      · intro r g1 hre ht t
        have hstep : pneLoop ([.minusTok, .numTok N] ++ t) r false
            = pneLoop (.numTok N :: t) r true := rfl
        rw [hstep]
        rcases hre with ⟨n, rfl, hi⟩ | rfl
        · have hc : (if true then sub_numbers (.integer n)
                (.complex ⟨.zero false, .finite (m.natAbs : Int) e⟩)
              else add_numbers (.integer n)
                (.complex ⟨.zero false, .finite (m.natAbs : Int) e⟩))
              = .ok (.complex ⟨g1, .finite m e⟩) := by
            show (int_to_f64 n).map
                (fun x => Value.complex (fSubC x ⟨.zero false, .finite (m.natAbs : Int) e⟩))
              = .ok (.complex ⟨g1, .finite m e⟩)
            rw [hi]
            simp only [Outcome.map, fSubC, tame_sub_zero ht, zsub_finite, hmm]
          exact pneLoop_step t true hparse hc
        · have hc : (if true then sub_numbers (.float g1)
                (.complex ⟨.zero false, .finite (m.natAbs : Int) e⟩)
              else add_numbers (.float g1)
                (.complex ⟨.zero false, .finite (m.natAbs : Int) e⟩))
              = .ok (.complex ⟨g1, .finite m e⟩) := by
            show Outcome.ok
                (Value.complex (fSubC g1 ⟨.zero false, .finite (m.natAbs : Int) e⟩))
              = .ok (.complex ⟨g1, .finite m e⟩)
            simp only [fSubC, tame_sub_zero ht, zsub_finite, hmm]
          exact pneLoop_step t true hparse hc
    · have htext : fmtDisplayPlus (.finite m e) ++ 'j' :: rest
          = '+' :: (displayRender (natDigits (floatDigits m.natAbs e).1)
              (floatDigits m.natAbs e).2 ++ 'j' :: rest) := by
        simp only [fmtDisplayPlus, fmtDisplay, if_neg hm, List.cons_append,
          List.nil_append]
      have hssp := signSpan_plus (displayRender (natDigits (floatDigits m.natAbs e).1)
        (floatDigits m.natAbs e).2 ++ 'j' :: rest)
      rw [hss0] at hssp
      have hmm : ((m.natAbs : Int)) = m := Int.natAbs_of_nonneg (not_lt.mp hm)
      refine ⟨[.numTok N], .finite m e, ?_, req_finite_self m e, ?_⟩
      · rw [htext, neLoop_eval hssp hlex hrest f acc]
        simp
      · intro r g1 hre ht t
        rcases hre with ⟨n, rfl, hi⟩ | rfl
        · have hc : (if false then sub_numbers (.integer n)
                (.complex ⟨.zero false, .finite (m.natAbs : Int) e⟩)
              else add_numbers (.integer n)
                (.complex ⟨.zero false, .finite (m.natAbs : Int) e⟩))
              = .ok (.complex ⟨g1, .finite m e⟩) := by
            show (int_to_f64 n).map
                (fun x => Value.complex (fAddC x ⟨.zero false, .finite (m.natAbs : Int) e⟩))
              = .ok (.complex ⟨g1, .finite m e⟩)
            rw [hi]
            simp only [Outcome.map, fAddC, tame_add_zero ht, hmm]
          exact pneLoop_step t false hparse hc
        · have hc : (if false then sub_numbers (.float g1)
                (.complex ⟨.zero false, .finite (m.natAbs : Int) e⟩)
              else add_numbers (.float g1)
                (.complex ⟨.zero false, .finite (m.natAbs : Int) e⟩))
              = .ok (.complex ⟨g1, .finite m e⟩) := by
            show Outcome.ok
                (Value.complex (fAddC g1 ⟨.zero false, .finite (m.natAbs : Int) e⟩))
              = .ok (.complex ⟨g1, .finite m e⟩)
            simp only [fAddC, tame_add_zero ht, hmm]
          exact pneLoop_step t false hparse hc


/-- A formatted complex value runs through two passes of the
numeric-expression loop and folds back to a complex value equal (under
Rust `==`) to the original. -/
theorem lexNE_complex (re im : F64) (hre1 : F64.wf re = true)
    (hre2 : F64.isFinite re = true) (him1 : F64.wf im = true)
    (him2 : F64.isFinite im = true) (f : Nat) (rest : List Char)
    (acc : List NumTok) (hrest : delimB rest = true) :
    ∃ toks c2, lexNumExprLoop (f+2)
        ((fmtDisplay re ++ fmtDisplayPlus im ++ ['j']) ++ rest) acc
        = .ok (acc ++ toks, rest)
      ∧ (∀ t, pneLoop (toks ++ t) (.integer 0) false = pneLoop t (.complex c2) false)
      ∧ cReq c2 ⟨re, im⟩ = true := by
  obtain ⟨sc, rem0, hsp, hsc⟩ := fmtDisplayPlus_signHead im him2
  have htext : (fmtDisplay re ++ fmtDisplayPlus im ++ ['j']) ++ rest
      = fmtDisplay re ++ sc :: (rem0 ++ 'j' :: rest) := by
    rw [hsp]
    simp only [List.append_assoc, List.cons_append, List.singleton_append,
      List.nil_append]
  obtain ⟨reTk, r1, g1, hlex1, hsem1, hracc, htame, hreq1⟩ :=
    neLoop_re re hre1 hre2 (f+1) sc (rem0 ++ 'j' :: rest) hsc acc
  obtain ⟨imTk, h2, hlex2, hreq2, hsem2⟩ :=
    neLoop_im im him1 him2 f rest hrest (acc ++ reTk)
  have htext2 : fmtDisplayPlus im ++ 'j' :: rest = sc :: (rem0 ++ 'j' :: rest) := by
    rw [hsp]
    simp only [List.cons_append]
  refine ⟨reTk ++ imTk, ⟨g1, h2⟩, ?_, ?_, ?_⟩
  · rw [htext, hlex1, ← htext2, hlex2, List.append_assoc]
  · intro t
    rw [List.append_assoc, hsem1 (imTk ++ t), hsem2 r1 g1 hracc htame t]
  · simp only [cReq, hreq1, hreq2, Bool.and_self]


/-! ### Fuel bounds and head shapes for the main induction -/

theorem vfuel_pos (v : Value) : 1 ≤ vfuel v := by
  cases v <;> simp [vfuel]

theorem lexValue_space (f : Nat) (cs : List Char) :
    lexValue (f+1) (' ' :: cs) = lexValue (f+1) cs := by
  simp only [lexValue, skipWs_space]

theorem intDisplay_head_num (i : Int) :
    ∃ c t, intDisplay i = c :: t ∧ (isDecDig c = true ∨ c = '-') := by
  simp only [intDisplay]
  by_cases hi : i < 0
  · rw [if_pos hi]
    exact ⟨'-', _, rfl, Or.inr rfl⟩
  · rw [if_neg hi]
    obtain ⟨d, restD, hds, hd⟩ := natDigits_head i.natAbs
    exact ⟨d, restD, hds, Or.inl hd⟩

theorem fmtLowerExp_head_num (g : F64) (hfin : F64.isFinite g = true) :
    ∃ c t, fmtLowerExp g = c :: t ∧ (isDecDig c = true ∨ c = '-') := by
  cases g with
  | nan => cases hfin
  | inf s => cases hfin
  | zero s =>
    cases s
    · exact ⟨'0', _, rfl, Or.inl (by decide)⟩
    · exact ⟨'-', _, rfl, Or.inr rfl⟩
  | finite m e =>
    simp only [fmtLowerExp]
    by_cases hm : m < 0
    · rw [if_pos hm]
      exact ⟨'-', _, rfl, Or.inr rfl⟩
    · rw [if_neg hm]
      obtain ⟨d, restD, hds, hd⟩ := natDigits_head (floatDigits m.natAbs e).1
      rw [hds]
      refine ⟨d, (if restD.isEmpty then [] else '.' :: restD) ++ 'e'
        :: intDisplay (floatDigits m.natAbs e).2, ?_, Or.inl hd⟩
      rw [List.nil_append]
      rfl

theorem fmtDisplay_head_num (g : F64) (hfin : F64.isFinite g = true) :
    ∃ c t, fmtDisplay g = c :: t ∧ (isDecDig c = true ∨ c = '-') := by
  cases g with
  | nan => cases hfin
  | inf s => cases hfin
  | zero s =>
    cases s
    · exact ⟨'0', _, rfl, Or.inl (by decide)⟩
    · exact ⟨'-', _, rfl, Or.inr rfl⟩
  | finite m e =>
    simp only [fmtDisplay]
    by_cases hm : m < 0
    · rw [if_pos hm]
      exact ⟨'-', _, rfl, Or.inr rfl⟩
    · rw [if_neg hm]
      obtain ⟨d, restD, hds, hd⟩ := natDigits_head (floatDigits m.natAbs e).1
      rw [hds]
      obtain ⟨c, t, he, hc⟩ :=
        displayRender_digit_head restD (floatDigits m.natAbs e).2 hd
      exact ⟨c, t, by rw [List.nil_append]; exact he, Or.inl hc⟩

theorem numHead_facts {c : Char} (h : isDecDig c = true ∨ c = '-') :
    isWsCh c = false ∧ c ≠ squote ∧ c ≠ '"' ∧ c ≠ 'b' ∧ c ≠ 'B' ∧ c ≠ 'T'
      ∧ c ≠ 'F' ∧ c ≠ 'N' ∧ c ≠ '(' ∧ c ≠ '[' ∧ c ≠ lbrace
      ∧ (isDecDig c || decide (c = '+') || decide (c = '-')) = true := by
  rcases h with h | rfl
  · obtain ⟨hb, hB, -, -, -, -, -, -, -, -, -, -, -, -, hws, hsq, hdq, hT, hF, hN,
      hlp, hlb, hlbr, -, -, -, -, -⟩ := decDig_facts h
    exact ⟨hws, hsq, hdq, hb, hB, hT, hF, hN, hlp, hlb, hlbr, by simp [h]⟩
  · refine ⟨by decide, by decide, by decide, by decide, by decide, by decide,
      by decide, by decide, by decide, by decide, by decide, by decide⟩

mutual

theorem vfuel_le : ∀ (v : Value), goodV v = true → vfuel v ≤ (fmtV v).length
  | .string s, _ => by
    rw [fmtV_string]
    simp [vfuel]
  | .bytes bs, _ => by
    rw [fmtV_bytes]
    simp [vfuel]
  | .integer i, _ => by
    rw [fmtV_integer]
    obtain ⟨c, t, hct, -⟩ := intDisplay_head i
    rw [hct]
    simp [vfuel]
  | .float g, _ => by
    rw [fmtV_float]
    obtain ⟨c, t, hct, -⟩ := fmtLowerExp_head g
    rw [hct]
    simp [vfuel]
  | .complex c, _ => by
    rw [fmtV_complex]
    obtain ⟨d, t, hct, -⟩ := fmtDisplay_head c.re
    rw [hct]
    simp [vfuel]
    omega
  | .tuple .nil, _ => by
    rw [fmtV_tuple_nil]
    simp [vfuel, vfuelL]
  | .tuple (.cons v .nil), h => by
    simp only [goodV, goodL, Bool.and_eq_true] at h
    rw [fmtV_tuple_one v h.1]
    have h1 := vfuel_le v h.1
    simp [vfuel, vfuelL]
    omega
  | .tuple (.cons v (.cons w l)), h => by
    simp only [goodV, goodL, Bool.and_eq_true] at h
    rw [fmtV_tuple_more v w l h.1 (by simp [goodL, h.2.1, h.2.2])]
    have h1 := vfuel_le v h.1
    have h2 := vfuelL_le (.cons w l) (by simp [goodL, h.2.1, h.2.2])
    simp only [vfuel, vfuelL, List.length_cons, List.length_append] at h1 h2 ⊢
    omega
  | .list .nil, _ => by
    rw [fmtV_list_nil]
    simp [vfuel, vfuelL]
  | .list (.cons v l), h => by
    simp only [goodV, goodL, Bool.and_eq_true] at h
    rw [fmtV_list_cons v l h.1 h.2]
    have h1 := vfuel_le v h.1
    have h2 := vfuelL_le l h.2
    simp only [vfuel, vfuelL, List.length_cons, List.length_append] at h1 h2 ⊢
    omega
  | .dict .nil, _ => by
    rw [fmtV_dict_nil]
    simp [vfuel, vfuelP]
  | .dict (.cons k v p), h => by
    simp only [goodV, goodP, Bool.and_eq_true] at h
    rw [fmtV_dict_cons k v p h.1.1 h.1.2 h.2]
    have h1 := vfuel_le k h.1.1
    have h2 := vfuel_le v h.1.2
    have h3 := vfuelP_le p h.2
    simp only [vfuel, vfuelP, List.length_cons, List.length_append] at h1 h2 h3 ⊢
    omega
  | .set .nil, h => by
    simp only [goodV] at h
    cases h
  | .set (.cons v l), h => by
    simp only [goodV, Bool.and_eq_true] at h
    rw [fmtV_set_cons v l h.1 h.2]
    have h1 := vfuel_le v h.1
    have h2 := vfuelL_le l h.2
    simp only [vfuel, vfuelL, List.length_cons, List.length_append] at h1 h2 ⊢
    omega
  | .boolean b, _ => by
    rw [fmtV_boolean]
    cases b <;> simp [vfuel]
  | .none, _ => by
    rw [fmtV_none]
    simp [vfuel]

theorem vfuelL_le : ∀ (l : VList), goodL l = true → vfuelL l ≤ (joinSeqRest l).length
  | .nil, _ => by simp [vfuelL, joinSeqRest]
  | .cons v rest, h => by
    simp only [goodL, Bool.and_eq_true] at h
    have h1 := vfuel_le v h.1
    have h2 := vfuelL_le rest h.2
    simp only [vfuelL, joinSeqRest, List.length_cons, List.length_append] at h1 h2 ⊢
    omega

theorem vfuelP_le : ∀ (p : VPairs), goodP p = true → vfuelP p ≤ (joinPairsRest p).length
  | .nil, _ => by simp [vfuelP, joinPairsRest]
  | .cons k v rest, h => by
    simp only [goodP, Bool.and_eq_true] at h
    have h1 := vfuel_le k h.1.1
    have h2 := vfuel_le v h.1.2
    have h3 := vfuelP_le rest h.2
    simp only [vfuelP, joinPairsRest, List.length_cons, List.length_append] at h1 h2 h3 ⊢
    omega

end



/-! ### One-branch evaluation lemmas for the value lexer -/

theorem lexValue_squote (f : Nat) (cs : List Char) {items : List StrItem}
    {r : List Char} (h : lexStrItems (cs.length + 1) squote cs = .ok (items, r)) :
    lexValue (f+1) (squote :: cs) = .ok (.strT items, r) := by
  simp +decide [lexValue, skipWs_cons _ (by decide : isWsCh squote = false), h]

theorem lexValue_bquote (f : Nat) (cs : List Char) {items : List BytItem}
    {r : List Char} (h : lexBytItems (cs.length + 1) squote cs = .ok (items, r)) :
    lexValue (f+1) ('b' :: squote :: cs) = .ok (.bytesT items, r) := by
  simp +decide [lexValue, skipWs_cons _ (by decide : isWsCh 'b' = false), h]

theorem lexValue_true (f : Nat) (cs : List Char) :
    lexValue (f+1) ('T' :: 'r' :: 'u' :: 'e' :: cs) = .ok (.booleanT true, cs) := by
  simp +decide [lexValue, skipWs_cons _ (by decide : isWsCh 'T' = false)]

theorem lexValue_false (f : Nat) (cs : List Char) :
    lexValue (f+1) ('F' :: 'a' :: 'l' :: 's' :: 'e' :: cs) = .ok (.booleanT false, cs) := by
  simp +decide [lexValue, skipWs_cons _ (by decide : isWsCh 'F' = false)]

theorem lexValue_noneT (f : Nat) (cs : List Char) :
    lexValue (f+1) ('N' :: 'o' :: 'n' :: 'e' :: cs) = .ok (.noneT, cs) := by
  simp +decide [lexValue, skipWs_cons _ (by decide : isWsCh 'N' = false)]

theorem lexValue_num (f : Nat) (c : Char) (cs : List Char) {toks : List NumTok}
    {rest : List Char}
    (hn : (isDecDig c || decide (c = '+') || decide (c = '-')) = true)
    (hws : isWsCh c = false) (hsq : c ≠ squote) (hdq : c ≠ '"') (hb : c ≠ 'b')
    (hB : c ≠ 'B') (hT : c ≠ 'T') (hF : c ≠ 'F') (hN : c ≠ 'N') (hlp : c ≠ '(')
    (hlb : c ≠ '[') (hlbr : c ≠ lbrace)
    (hloop : lexNumExprLoop (f+1) (c :: cs) [] = .ok (toks, rest)) :
    lexValue (f+1) (c :: cs) = .ok (.numExprT toks, rest) := by
  simp +decide [lexValue, skipWs_cons _ hws, hsq, hdq, hb, hB, hT, hF, hN, hlp, hlb,
    hlbr, hn, hloop]

theorem lexValue_tuple_nil (f : Nat) (cs : List Char) :
    lexValue (f+1) ('(' :: ')' :: cs) = .ok (.tupleT .nil, cs) := by
  simp +decide [lexValue, skipWs_cons _ (by decide : isWsCh '(' = false),
    skipWs_cons _ (by decide : isWsCh ')' = false)]

theorem lexValue_tuple_one (f : Nat) (c : Char) (cs rest : List Char) {t : VTree}
    (hws : isWsCh c = false) (hrp : c ≠ ')')
    (hv : lexValue f (c :: cs) = .ok (t, ',' :: ')' :: rest)) :
    lexValue (f+1) ('(' :: c :: cs) = .ok (.tupleT (.cons t .nil), rest) := by
  simp +decide [lexValue, skipWs_cons _ (by decide : isWsCh '(' = false),
    skipWs_cons _ hws, skipWs_cons _ (by decide : isWsCh ',' = false),
    skipWs_cons _ (by decide : isWsCh ')' = false), hrp, hv]

theorem lexValue_tuple_more (f : Nat) (c cw : Char) (cs csw rest : List Char)
    {t : VTree} {ts : TList}
    (hws : isWsCh c = false) (hrp : c ≠ ')') (hwsw : isWsCh cw = false)
    (hrpw : cw ≠ ')')
    (hv : lexValue f (c :: cs) = .ok (t, ',' :: ' ' :: cw :: csw))
    (hl : lexElemsSeq f ')' (cw :: csw) = .ok (ts, rest)) :
    lexValue (f+1) ('(' :: c :: cs) = .ok (.tupleT (.cons t ts), rest) := by
  simp +decide [lexValue, skipWs_cons _ (by decide : isWsCh '(' = false),
    skipWs_cons _ hws, skipWs_cons _ (by decide : isWsCh ',' = false),
    skipWs_space, skipWs_cons _ hwsw, hrp, hrpw, hv, hl]

theorem lexValue_list_nil (f : Nat) (cs : List Char) :
    lexValue (f+1) ('[' :: ']' :: cs) = .ok (.listT .nil, cs) := by
  simp +decide [lexValue, skipWs_cons _ (by decide : isWsCh '[' = false),
    skipWs_cons _ (by decide : isWsCh ']' = false)]

theorem lexValue_list_cons (f : Nat) (c : Char) (cs rest : List Char) {ts : TList}
    (hws : isWsCh c = false) (hrb : c ≠ ']')
    (hl : lexElemsSeq f ']' (c :: cs) = .ok (ts, rest)) :
    lexValue (f+1) ('[' :: c :: cs) = .ok (.listT ts, rest) := by
  simp +decide [lexValue, skipWs_cons _ (by decide : isWsCh '[' = false),
    skipWs_cons _ hws, hrb, hl]

theorem lexValue_dict_nil (f : Nat) (cs : List Char) :
    lexValue (f+1) (lbrace :: rbrace :: cs) = .ok (.dictT .nil, cs) := by
  simp +decide [lexValue, skipWs_cons _ (by decide : isWsCh lbrace = false),
    skipWs_cons _ (by decide : isWsCh rbrace = false)]

theorem lexValue_dict_one (f : Nat) (ck : Char) (cs r2 rest : List Char)
    {tk tv : VTree}
    (hws : isWsCh ck = false) (hrbr : ck ≠ rbrace)
    (hk : lexValue f (ck :: cs) = .ok (tk, ':' :: r2))
    (hv : lexValue f r2 = .ok (tv, rbrace :: rest)) :
    lexValue (f+1) (lbrace :: ck :: cs) = .ok (.dictT (.cons tk tv .nil), rest) := by
  simp +decide [lexValue, skipWs_cons _ (by decide : isWsCh lbrace = false),
    skipWs_cons _ hws, skipWs_cons _ (by decide : isWsCh ':' = false),
    skipWs_cons _ (by decide : isWsCh rbrace = false), hrbr, hk, hv]

theorem lexValue_dict_more (f : Nat) (ck ck2 : Char) (cs r2 cs2 rest : List Char)
    {tk tv : VTree} {ps : TPairs}
    (hws : isWsCh ck = false) (hrbr : ck ≠ rbrace)
    (hws2 : isWsCh ck2 = false) (hrbr2 : ck2 ≠ rbrace)
    (hk : lexValue f (ck :: cs) = .ok (tk, ':' :: r2))
    (hv : lexValue f r2 = .ok (tv, ',' :: ' ' :: ck2 :: cs2))
    (hp : lexPairs f (ck2 :: cs2) = .ok (ps, rest)) :
    lexValue (f+1) (lbrace :: ck :: cs) = .ok (.dictT (.cons tk tv ps), rest) := by
  simp +decide [lexValue, skipWs_cons _ (by decide : isWsCh lbrace = false),
    skipWs_cons _ hws, skipWs_cons _ (by decide : isWsCh ':' = false),
    skipWs_cons _ (by decide : isWsCh ',' = false), skipWs_space,
    skipWs_cons _ hws2, hrbr, hrbr2, hk, hv, hp]

theorem lexValue_set_one (f : Nat) (c : Char) (cs rest : List Char) {t : VTree}
    (hws : isWsCh c = false) (hrbr : c ≠ rbrace)
    (hv : lexValue f (c :: cs) = .ok (t, rbrace :: rest)) :
    lexValue (f+1) (lbrace :: c :: cs) = .ok (.setT (.cons t .nil), rest) := by
  simp +decide [lexValue, skipWs_cons _ (by decide : isWsCh lbrace = false),
    skipWs_cons _ hws, skipWs_cons _ (by decide : isWsCh rbrace = false), hrbr, hv]

theorem lexValue_set_more (f : Nat) (c cw : Char) (cs csw rest : List Char)
    {t : VTree} {es : TList}
    (hws : isWsCh c = false) (hrbr : c ≠ rbrace)
    (hwsw : isWsCh cw = false) (hrbrw : cw ≠ rbrace)
    (hv : lexValue f (c :: cs) = .ok (t, ',' :: ' ' :: cw :: csw))
    (hl : lexElemsSeq f rbrace (cw :: csw) = .ok (es, rest)) :
    lexValue (f+1) (lbrace :: c :: cs) = .ok (.setT (.cons t es), rest) := by
  simp +decide [lexValue, skipWs_cons _ (by decide : isWsCh lbrace = false),
    skipWs_cons _ hws, skipWs_cons _ (by decide : isWsCh ',' = false),
    skipWs_space, skipWs_cons _ hwsw, hrbr, hrbrw, hv, hl]

theorem lexElems_last (f : Nat) (close : Char) (cs rest : List Char) {t : VTree}
    (hwsc : isWsCh close = false)
    (hv : lexValue f cs = .ok (t, close :: rest)) :
    lexElemsSeq (f+1) close cs = .ok (.cons t .nil, rest) := by
  simp +decide [lexElemsSeq, hv, skipWs_cons _ hwsc]

theorem lexElems_cons (f : Nat) (close c2 : Char) (cs cs2 rest : List Char)
    {t : VTree} {ts : TList}
    (hcc : close ≠ ',') (hc2 : c2 ≠ close) (hws2 : isWsCh c2 = false)
    (hv : lexValue f cs = .ok (t, ',' :: ' ' :: c2 :: cs2))
    (hl : lexElemsSeq f close (c2 :: cs2) = .ok (ts, rest)) :
    lexElemsSeq (f+1) close cs = .ok (.cons t ts, rest) := by
  have hcc2 : ¬ (',' = close) := fun h => hcc h.symm
  simp +decide [lexElemsSeq, hv, skipWs_cons _ (by decide : isWsCh ',' = false),
    skipWs_space, skipWs_cons _ hws2, hcc2, hc2, hl]

theorem lexPairs_last (f : Nat) (cs r2 rest : List Char) {tk tv : VTree}
    (hk : lexValue f cs = .ok (tk, ':' :: r2))
    (hv : lexValue f r2 = .ok (tv, rbrace :: rest)) :
    lexPairs (f+1) cs = .ok (.cons tk tv .nil, rest) := by
  simp +decide [lexPairs, hk, hv, skipWs_cons _ (by decide : isWsCh ':' = false),
    skipWs_cons _ (by decide : isWsCh rbrace = false)]

theorem lexPairs_cons (f : Nat) (c2 : Char) (cs r2 cs2 rest : List Char)
    {tk tv : VTree} {ps : TPairs}
    (hc2 : c2 ≠ rbrace) (hws2 : isWsCh c2 = false)
    (hk : lexValue f cs = .ok (tk, ':' :: r2))
    (hv : lexValue f r2 = .ok (tv, ',' :: ' ' :: c2 :: cs2))
    (hp : lexPairs f (c2 :: cs2) = .ok (ps, rest)) :
    lexPairs (f+1) cs = .ok (.cons tk tv ps, rest) := by
  simp +decide [lexPairs, hk, hv, skipWs_cons _ (by decide : isWsCh ':' = false),
    skipWs_cons _ (by decide : isWsCh ',' = false), skipWs_space,
    skipWs_cons _ hws2, hc2, hp]

/-- The main round-trip induction: a good value's formatted text, followed
by a delimiter remainder, lexes back to one value tree that parses to a
value equal (under Rust `==`) to the original; similarly for the tails of
sequence and dict bodies. -/
theorem lexRound_main : ∀ (f : Nat),
    (∀ (v : Value), goodV v = true → ∀ (rest : List Char), vfuel v ≤ f →
      delimB rest = true →
      ∃ t v2, lexValue f (fmtV v ++ rest) = .ok (t, rest)
        ∧ parse_value t = .ok v2 ∧ Value.req v2 v = true)
  ∧ (∀ (w : Value) (l : VList), goodV w = true → goodL l = true →
      ∀ (close : Char) (rest : List Char), 1 + vfuel w + vfuelL l ≤ f →
      (close = ')' ∨ close = ']' ∨ close = rbrace) → delimB rest = true →
      ∃ ts l2, lexElemsSeq f close (fmtV w ++ (joinSeqRest l ++ close :: rest))
          = .ok (ts, rest)
        ∧ parse_seq ts = .ok l2 ∧ VList.req l2 (.cons w l) = true)
  ∧ (∀ (k v : Value) (p : VPairs), goodV k = true → goodV v = true →
      goodP p = true → ∀ (rest : List Char),
      1 + vfuel k + vfuel v + vfuelP p ≤ f → delimB rest = true →
      ∃ ts p2, lexPairs f
          (fmtV k ++ (':' :: ' ' :: (fmtV v ++ (joinPairsRest p ++ rbrace :: rest))))
          = .ok (ts, rest)
        ∧ parse_dict ts = .ok p2 ∧ VPairs.req p2 (.cons k v p) = true) := by
  intro f
  induction f with
  | zero =>
    refine ⟨fun v _ rest hf _ => absurd hf (by have := vfuel_pos v; omega),
      fun w l _ _ close rest hf _ _ => absurd hf (by omega),
      fun k v p _ _ _ rest hf _ => absurd hf (by omega)⟩
  | succ f ih =>
    obtain ⟨ihV, ihL, ihP⟩ := ih
    refine ⟨?_, ?_, ?_⟩
    · intro v hg rest hf hrest
      cases v with
      | string s =>
        rw [fmtV_string]
        have htext : (squote :: s.flatMap escStrChar ++ [squote]) ++ rest
            = squote :: (s.flatMap escStrChar ++ squote :: rest) := by
          simp
        rw [htext]
        have hlen : (s.flatMap escStrChar).length
            < (s.flatMap escStrChar ++ squote :: rest).length + 1 := by
          simp only [List.length_append, List.length_cons]
          omega
        obtain ⟨items, hlexs, hparses⟩ :=
          lexStr_round s ((s.flatMap escStrChar ++ squote :: rest).length + 1) rest hlen
        refine ⟨.strT items, .string s, ?_, ?_, ?_⟩
        · exact lexValue_squote f _ hlexs
        · simp only [parse_value, hparses]
        · simp [Value.req]
      | bytes bs =>
        have hgb : ∀ b ∈ bs, b < 256 := by
          simp only [goodV, List.all_eq_true, decide_eq_true_eq] at hg
          exact hg
        rw [fmtV_bytes]
        have htext : ('b' :: squote :: bs.flatMap escByte ++ [squote]) ++ rest
            = 'b' :: squote :: (bs.flatMap escByte ++ squote :: rest) := by
          simp
        rw [htext]
        have hlen : (bs.flatMap escByte).length
            < (bs.flatMap escByte ++ squote :: rest).length + 1 := by
          simp only [List.length_append, List.length_cons]
          omega
        obtain ⟨items, hlexs, hparses⟩ :=
          lexByt_round bs ((bs.flatMap escByte ++ squote :: rest).length + 1) rest hgb hlen
        refine ⟨.bytesT items, .bytes bs, ?_, ?_, ?_⟩
        · exact lexValue_bquote f _ hlexs
        · simp only [parse_value, hparses]
        · simp [Value.req]
      | integer i =>
        rw [fmtV_integer]
        obtain ⟨toks, hloop, hsem⟩ := lexNE_integer i f rest [] hrest
        simp only [List.nil_append] at hloop
        obtain ⟨c, t, hct, hcn⟩ := intDisplay_head_num i
        obtain ⟨hws, hsq, hdq, hb, hB, hT, hF, hN, hlp, hlb, hlbr, hnum⟩ :=
          numHead_facts hcn
        rw [hct] at hloop ⊢
        simp only [List.cons_append] at hloop ⊢
        refine ⟨.numExprT toks, .integer i, ?_, ?_, by simp [Value.req]⟩
        · exact lexValue_num f c _ hnum hws hsq hdq hb hB hT hF hN hlp hlb hlbr hloop
        · simp only [parse_value, parse_number_expr]
          have hs := hsem []
          rw [List.append_nil] at hs
          rw [hs]
          rfl
      | float g =>
        obtain ⟨hwf, hfin⟩ : F64.wf g = true ∧ F64.isFinite g = true := by
          simp only [goodV, Bool.and_eq_true] at hg
          exact hg
        rw [fmtV_float]
        obtain ⟨toks, g2, hloop, hsem, hreq⟩ := lexNE_float g hwf hfin f rest [] hrest
        simp only [List.nil_append] at hloop
        obtain ⟨c, t, hct, hcn⟩ := fmtLowerExp_head_num g hfin
        obtain ⟨hws, hsq, hdq, hb, hB, hT, hF, hN, hlp, hlb, hlbr, hnum⟩ :=
          numHead_facts hcn
        rw [hct] at hloop ⊢
        simp only [List.cons_append] at hloop ⊢
        refine ⟨.numExprT toks, .float g2, ?_, ?_, by simp [Value.req, hreq]⟩
        · exact lexValue_num f c _ hnum hws hsq hdq hb hB hT hF hN hlp hlb hlbr hloop
        · simp only [parse_value, parse_number_expr]
          have hs := hsem []
          rw [List.append_nil] at hs
          rw [hs]
          rfl
      | complex c =>
        obtain ⟨cre, cim⟩ := c
        obtain ⟨hre1, hre2, him1, him2⟩ : F64.wf cre = true ∧ F64.isFinite cre = true
            ∧ F64.wf cim = true ∧ F64.isFinite cim = true := by
          simp only [goodV, Bool.and_eq_true] at hg
          tauto
        obtain ⟨f0, rfl⟩ : ∃ f0, f = f0 + 1 := by
          refine ⟨f - 1, ?_⟩
          simp only [vfuel] at hf
          omega
        rw [fmtV_complex]
        obtain ⟨toks, c2, hloop, hsem, hcreq⟩ :=
          lexNE_complex cre cim hre1 hre2 him1 him2 f0 rest [] hrest
        simp only [List.nil_append] at hloop
        obtain ⟨c, t, hct, hcn⟩ := fmtDisplay_head_num cre hre2
        obtain ⟨hws, hsq, hdq, hb, hB, hT, hF, hN, hlp, hlb, hlbr, hnum⟩ :=
          numHead_facts hcn
        have htext : (fmtDisplay (⟨cre, cim⟩ : C64).re
              ++ fmtDisplayPlus (⟨cre, cim⟩ : C64).im ++ ['j']) ++ rest
            = c :: (t ++ (fmtDisplayPlus cim ++ 'j' :: rest)) := by
          show (fmtDisplay cre ++ fmtDisplayPlus cim ++ ['j']) ++ rest = _
          rw [hct]
          simp only [List.cons_append, List.append_assoc, List.singleton_append,
            List.nil_append]
        have hloop2 : lexNumExprLoop (f0 + 1 + 1)
            (c :: (t ++ (fmtDisplayPlus cim ++ 'j' :: rest))) [] = .ok (toks, rest) := by
          rw [← hloop]
          congr 1
          rw [hct]
          simp only [List.cons_append, List.append_assoc, List.singleton_append,
            List.nil_append]
        refine ⟨.numExprT toks, .complex c2, ?_, ?_, by simp [Value.req, hcreq]⟩
        · rw [htext]
          exact lexValue_num (f0 + 1) c _ hnum hws hsq hdq hb hB hT hF hN hlp hlb
            hlbr hloop2
        · simp only [parse_value, parse_number_expr]
          have hs := hsem []
          rw [List.append_nil] at hs
          rw [hs]
          rfl
      | boolean b =>
        cases b
        · rw [show fmtV (.boolean false) = ['F', 'a', 'l', 's', 'e'] from rfl]
          simp only [List.cons_append, List.nil_append]
          exact ⟨.booleanT false, .boolean false, lexValue_false f rest, rfl,
            by simp [Value.req]⟩
        · rw [show fmtV (.boolean true) = ['T', 'r', 'u', 'e'] from rfl]
          simp only [List.cons_append, List.nil_append]
          exact ⟨.booleanT true, .boolean true, lexValue_true f rest, rfl,
            by simp [Value.req]⟩
      | none =>
        rw [fmtV_none]
        simp only [List.cons_append, List.nil_append]
        exact ⟨.noneT, .none, lexValue_noneT f rest, rfl, by simp [Value.req]⟩
      | tuple es =>
        cases es with
        | nil =>
          rw [fmtV_tuple_nil]
          simp only [List.cons_append, List.nil_append]
          exact ⟨.tupleT .nil, .tuple .nil, lexValue_tuple_nil f rest, rfl,
            by simp [Value.req, VList.req]⟩
        | cons v l =>
          cases l with
          | nil =>
            have hgv : goodV v = true := by
              simp only [goodV, goodL, Bool.and_eq_true] at hg
              exact hg.1
            rw [fmtV_tuple_one v hgv]
            have hfv : vfuel v ≤ f := by
              simp only [vfuel, vfuelL] at hf
              omega
            obtain ⟨tv, v2, hlexv, hparsev, hreqv⟩ :=
              ihV v hgv (',' :: ')' :: rest) hfv rfl
            obtain ⟨cv, tvc, hcv, hgood⟩ := fmtV_head v hgv
            obtain ⟨hwsv, hcomma, hcolon, hrp, hrb, hrbr⟩ := headGood_facts hgood
            rw [hcv] at hlexv
            simp only [List.cons_append] at hlexv
            have htext : ('(' :: fmtV v ++ [',', ')']) ++ rest
                = '(' :: cv :: (tvc ++ ',' :: ')' :: rest) := by
              rw [hcv]
              simp only [List.cons_append, List.append_assoc, List.nil_append]
            rw [htext]
            refine ⟨.tupleT (.cons tv .nil), .tuple (.cons v2 .nil), ?_, ?_, ?_⟩
            · exact lexValue_tuple_one f cv _ rest hwsv hrp hlexv
            · simp only [parse_value, parse_seq, hparsev]
            · simp [Value.req, VList.req, hreqv]
          | cons w l2 =>
            have hgv : goodV v = true := by
              simp only [goodV, goodL, Bool.and_eq_true] at hg
              exact hg.1
            have hgw : goodV w = true := by
              simp only [goodV, goodL, Bool.and_eq_true] at hg
              exact hg.2.1
            have hgl2 : goodL l2 = true := by
              simp only [goodV, goodL, Bool.and_eq_true] at hg
              exact hg.2.2
            have hgwl : goodL (.cons w l2) = true := by
              simp [goodL, hgw, hgl2]
            rw [fmtV_tuple_more v w l2 hgv hgwl]
            have hfv : vfuel v ≤ f := by
              simp only [vfuel, vfuelL] at hf
              omega
            obtain ⟨tv, v2, hlexv, hparsev, hreqv⟩ :=
              ihV v hgv (joinSeqRest (.cons w l2) ++ ')' :: rest) hfv
                (by simp [joinSeqRest, delimB])
            have hfl : 1 + vfuel w + vfuelL l2 ≤ f := by
              simp only [vfuel, vfuelL] at hf
              have := vfuel_pos v
              omega
            obtain ⟨ts, l3, hlexl, hparsel, hreql⟩ :=
              ihL w l2 hgw hgl2 ')' rest hfl (Or.inl rfl) hrest
            obtain ⟨cv, tvc, hcv, hgood⟩ := fmtV_head v hgv
            obtain ⟨hwsv, hcomma, hcolon, hrp, hrb, hrbr⟩ := headGood_facts hgood
            obtain ⟨cw, twc, hcw, hgoodw⟩ := fmtV_head w hgw
            obtain ⟨hwsw, hcommaw, hcolonw, hrpw, hrbw, hrbrw⟩ := headGood_facts hgoodw
            simp only [joinSeqRest] at hlexv
            rw [hcv, hcw] at hlexv
            simp only [List.cons_append, List.append_assoc] at hlexv
            rw [hcw] at hlexl
            simp only [List.cons_append, List.append_assoc] at hlexl
            have htext : ('(' :: fmtV v ++ joinSeqRest (.cons w l2) ++ [')']) ++ rest
                = '(' :: cv :: (tvc ++ ',' :: ' ' :: cw
                    :: (twc ++ (joinSeqRest l2 ++ ')' :: rest))) := by
              simp only [joinSeqRest]
              rw [hcv, hcw]
              simp only [List.cons_append, List.append_assoc, List.nil_append]
            rw [htext]
            refine ⟨.tupleT (.cons tv ts), .tuple (.cons v2 l3), ?_, ?_, ?_⟩
            · exact lexValue_tuple_more f cv cw _ _ rest hwsv hrp hwsw hrpw hlexv hlexl
            · simp only [parse_value, parse_seq, hparsev, hparsel]
            · simp only [Value.req, VList.req, hreqv, Bool.true_and]
              exact hreql
      | list es =>
        cases es with
        | nil =>
          rw [fmtV_list_nil]
          simp only [List.cons_append, List.nil_append]
          exact ⟨.listT .nil, .list .nil, lexValue_list_nil f rest, rfl,
            by simp [Value.req, VList.req]⟩
        | cons v l =>
          have hgv : goodV v = true := by
            simp only [goodV, goodL, Bool.and_eq_true] at hg
            exact hg.1
          have hgl : goodL l = true := by
            simp only [goodV, goodL, Bool.and_eq_true] at hg
            exact hg.2
          rw [fmtV_list_cons v l hgv hgl]
          have hfl : 1 + vfuel v + vfuelL l ≤ f := by
            simp only [vfuel, vfuelL] at hf
            omega
          obtain ⟨ts, l3, hlexl, hparsel, hreql⟩ :=
            ihL v l hgv hgl ']' rest hfl (Or.inr (Or.inl rfl)) hrest
          obtain ⟨cv, tvc, hcv, hgood⟩ := fmtV_head v hgv
          obtain ⟨hwsv, hcomma, hcolon, hrp, hrb, hrbr⟩ := headGood_facts hgood
          rw [hcv] at hlexl
          simp only [List.cons_append, List.append_assoc] at hlexl
          have htext : ('[' :: fmtV v ++ joinSeqRest l ++ [']']) ++ rest
              = '[' :: cv :: (tvc ++ (joinSeqRest l ++ ']' :: rest)) := by
            rw [hcv]
            simp only [List.cons_append, List.append_assoc, List.nil_append]
          rw [htext]
          refine ⟨.listT ts, .list l3, ?_, ?_, ?_⟩
          · exact lexValue_list_cons f cv _ rest hwsv hrb hlexl
          · simp only [parse_value, parse_seq, hparsel]
          · simp [Value.req, hreql]
      | dict ps =>
        cases ps with
        | nil =>
          rw [fmtV_dict_nil]
          simp only [List.cons_append, List.nil_append]
          exact ⟨.dictT .nil, .dict .nil, lexValue_dict_nil f rest, rfl,
            by simp [Value.req, VPairs.req]⟩
        | cons k v p =>
          obtain ⟨hgk, hgv, hgp⟩ : goodV k = true ∧ goodV v = true ∧ goodP p = true := by
            simp only [goodV, goodP, Bool.and_eq_true] at hg
            tauto
          rw [fmtV_dict_cons k v p hgk hgv hgp]
          have hfp : 1 + vfuel k + vfuel v + vfuelP p ≤ f := by
            simp only [vfuel, vfuelP] at hf
            omega
          have hfk : vfuel k ≤ f := by
            simp only [vfuel, vfuelP] at hf
            have := vfuel_pos v
            omega
          obtain ⟨f0, rfl⟩ : ∃ f0, f = f0 + 1 := by
            refine ⟨f - 1, ?_⟩
            have := vfuel_pos k
            omega
          obtain ⟨tk, k2, hlexk, hparsek, hreqk⟩ :=
            ihV k hgk (':' :: ' ' :: (fmtV v ++ (joinPairsRest p ++ rbrace :: rest)))
              hfk rfl
          have hfv : vfuel v ≤ f0 + 1 := by
            simp only [vfuel, vfuelP] at hf
            have := vfuel_pos k
            omega
          cases p with
          | nil =>
            obtain ⟨tv, v2, hlexv, hparsev, hreqv⟩ :=
              ihV v hgv (rbrace :: rest) hfv (by simp [delimB])
            have hlexv2 : lexValue (f0 + 1)
                (' ' :: (fmtV v ++ (joinPairsRest .nil ++ rbrace :: rest)))
                = .ok (tv, rbrace :: rest) := by
              rw [lexValue_space]
              simp only [joinPairsRest, List.nil_append]
              exact hlexv
            obtain ⟨ck, tkc, hck, hgoodk⟩ := fmtV_head k hgk
            obtain ⟨hwsk, hcommak, hcolonk, hrpk, hrbk, hrbrk⟩ := headGood_facts hgoodk
            rw [hck] at hlexk
            simp only [List.cons_append] at hlexk
            have htext : (lbrace :: fmtV k ++ ':' :: ' ' :: fmtV v
                  ++ joinPairsRest .nil ++ [rbrace]) ++ rest
                = lbrace :: ck :: (tkc ++ ':' :: ' ' :: (fmtV v
                    ++ (joinPairsRest .nil ++ rbrace :: rest))) := by
              rw [hck]
              simp only [joinPairsRest, List.cons_append, List.append_assoc,
                List.nil_append]
            rw [htext]
            refine ⟨.dictT (.cons tk tv .nil), .dict (.cons k2 v2 .nil), ?_, ?_, ?_⟩
            · exact lexValue_dict_one (f0 + 1) ck _ _ rest hwsk hrbrk hlexk hlexv2
            · simp only [parse_value, parse_dict, hparsek, hparsev]
            · simp [Value.req, VPairs.req, hreqk, hreqv]
          | cons k3 v3 p3 =>
            obtain ⟨hgk3, hgv3, hgp3⟩ : goodV k3 = true ∧ goodV v3 = true
                ∧ goodP p3 = true := by
              simp only [goodP, Bool.and_eq_true] at hgp
              tauto
            obtain ⟨tv, v2, hlexv, hparsev, hreqv⟩ :=
              ihV v hgv (joinPairsRest (.cons k3 v3 p3) ++ rbrace :: rest) hfv
                (by simp [joinPairsRest, delimB])
            have hfp3 : 1 + vfuel k3 + vfuel v3 + vfuelP p3 ≤ f0 + 1 := by
              simp only [vfuel, vfuelP] at hf
              have h1 := vfuel_pos k
              have h2 := vfuel_pos v
              omega
            obtain ⟨ts, p4, hlexp, hparsep, hreqp⟩ :=
              ihP k3 v3 p3 hgk3 hgv3 hgp3 rest hfp3 hrest
            obtain ⟨ck, tkc, hck, hgoodk⟩ := fmtV_head k hgk
            obtain ⟨hwsk, hcommak, hcolonk, hrpk, hrbk, hrbrk⟩ := headGood_facts hgoodk
            obtain ⟨ck3, tkc3, hck3, hgoodk3⟩ := fmtV_head k3 hgk3
            obtain ⟨hwsk3, hcommak3, hcolonk3, hrpk3, hrbk3, hrbrk3⟩ :=
              headGood_facts hgoodk3
            rw [hck] at hlexk
            simp only [List.cons_append] at hlexk
            have hlexv2 : lexValue (f0 + 1)
                (' ' :: (fmtV v ++ (joinPairsRest (.cons k3 v3 p3) ++ rbrace :: rest)))
                = .ok (tv, ',' :: ' ' :: ck3
                    :: (tkc3 ++ (':' :: ' ' :: (fmtV v3
                      ++ (joinPairsRest p3 ++ rbrace :: rest))))) := by
              rw [lexValue_space, hlexv]
              simp only [joinPairsRest]
              rw [hck3]
              simp only [List.cons_append, List.append_assoc]
            have hlexp2 : lexPairs (f0 + 1) (ck3 :: (tkc3 ++ (':' :: ' ' :: (fmtV v3
                  ++ (joinPairsRest p3 ++ rbrace :: rest))))) = .ok (ts, rest) := by
              rw [← hlexp, hck3]
              simp only [List.cons_append, List.append_assoc]
            have htext : (lbrace :: fmtV k ++ ':' :: ' ' :: fmtV v
                  ++ joinPairsRest (.cons k3 v3 p3) ++ [rbrace]) ++ rest
                = lbrace :: ck :: (tkc ++ ':' :: ' ' :: (fmtV v
                    ++ (joinPairsRest (.cons k3 v3 p3) ++ rbrace :: rest))) := by
              rw [hck]
              simp only [List.cons_append, List.append_assoc, List.nil_append]
            rw [htext]
            refine ⟨.dictT (.cons tk tv ts), .dict (.cons k2 v2 p4), ?_, ?_, ?_⟩
            · exact lexValue_dict_more (f0 + 1) ck ck3 _ _ _ rest hwsk hrbrk hwsk3
                hrbrk3 hlexk hlexv2 hlexp2
            · simp only [parse_value, parse_dict, hparsek, hparsev, hparsep]
            · simp only [Value.req, VPairs.req, hreqk, hreqv, Bool.true_and,
                Bool.and_self]
              exact hreqp
      | set es =>
        cases es with
        | nil =>
          simp only [goodV] at hg
          cases hg
        | cons v l =>
          obtain ⟨hgv, hgl⟩ : goodV v = true ∧ goodL l = true := by
            simp only [goodV, Bool.and_eq_true] at hg
            exact hg
          rw [fmtV_set_cons v l hgv hgl]
          obtain ⟨cv, tvc, hcv, hgood⟩ := fmtV_head v hgv
          obtain ⟨hwsv, hcomma, hcolon, hrp, hrb, hrbr⟩ := headGood_facts hgood
          have hfv : vfuel v ≤ f := by
            simp only [vfuel, vfuelL] at hf
            omega
          cases l with
          | nil =>
            obtain ⟨tv, v2, hlexv, hparsev, hreqv⟩ := ihV v hgv (rbrace :: rest) hfv
              (by simp [delimB])
            rw [hcv] at hlexv
            simp only [List.cons_append] at hlexv
            have htext : (lbrace :: fmtV v ++ joinSeqRest .nil ++ [rbrace]) ++ rest
                = lbrace :: cv :: (tvc ++ rbrace :: rest) := by
              rw [hcv]
              simp only [joinSeqRest, List.cons_append, List.append_assoc,
                List.append_nil, List.nil_append]
            rw [htext]
            refine ⟨.setT (.cons tv .nil), .set (.cons v2 .nil), ?_, ?_, ?_⟩
            · exact lexValue_set_one f cv _ rest hwsv hrbr hlexv
            · simp only [parse_value, parse_seq, hparsev]
            · simp [Value.req, VList.req, hreqv]
          | cons w l2 =>
            obtain ⟨hgw, hgl2⟩ : goodV w = true ∧ goodL l2 = true := by
              simp only [goodL, Bool.and_eq_true] at hgl
              exact hgl
            obtain ⟨tv, v2, hlexv, hparsev, hreqv⟩ :=
              ihV v hgv (joinSeqRest (.cons w l2) ++ rbrace :: rest) hfv
                (by simp [joinSeqRest, delimB])
            obtain ⟨cw, twc, hcw, hgoodw⟩ := fmtV_head w hgw
            obtain ⟨hwsw, hcommaw, hcolonw, hrpw, hrbw, hrbrw⟩ := headGood_facts hgoodw
            have hfl : 1 + vfuel w + vfuelL l2 ≤ f := by
              simp only [vfuel, vfuelL] at hf
              have := vfuel_pos v
              omega
            obtain ⟨ts, l3, hlexl, hparsel, hreql⟩ :=
              ihL w l2 hgw hgl2 rbrace rest hfl (Or.inr (Or.inr rfl)) hrest
            simp only [joinSeqRest] at hlexv
            rw [hcv, hcw] at hlexv
            simp only [List.cons_append, List.append_assoc] at hlexv
            rw [hcw] at hlexl
            simp only [List.cons_append, List.append_assoc] at hlexl
            have htext : (lbrace :: fmtV v ++ joinSeqRest (.cons w l2) ++ [rbrace]) ++ rest
                = lbrace :: cv :: (tvc ++ ',' :: ' ' :: cw
                    :: (twc ++ (joinSeqRest l2 ++ rbrace :: rest))) := by
              simp only [joinSeqRest]
              rw [hcv, hcw]
              simp only [List.cons_append, List.append_assoc, List.nil_append]
            rw [htext]
            refine ⟨.setT (.cons tv ts), .set (.cons v2 l3), ?_, ?_, ?_⟩
            · exact lexValue_set_more f cv cw _ _ rest hwsv hrbr hwsw hrbrw hlexv hlexl
            · simp only [parse_value, parse_seq, hparsev, hparsel]
            · simp only [Value.req, VList.req, hreqv, Bool.true_and]
              exact hreql
    · intro w l hgw hgl close rest hf hclose hrest
      have hwsc : isWsCh close = false := by
        rcases hclose with rfl | rfl | rfl <;> decide
      have hfw : vfuel w ≤ f := by omega
      obtain ⟨cw, twc, hcw, hgoodw⟩ := fmtV_head w hgw
      obtain ⟨hwsw, hcommaw, hcolonw, hrpw, hrbw, hrbrw⟩ := headGood_facts hgoodw
      cases l with
      | nil =>
        obtain ⟨tw, w2, hlexw, hparsew, hreqw⟩ := ihV w hgw (close :: rest) hfw
          (by rcases hclose with rfl | rfl | rfl <;> simp [delimB])
        have htext : fmtV w ++ (joinSeqRest .nil ++ close :: rest)
            = fmtV w ++ close :: rest := by
          simp [joinSeqRest]
        rw [htext]
        refine ⟨.cons tw .nil, .cons w2 .nil, ?_, ?_, ?_⟩
        · exact lexElems_last f close _ rest hwsc hlexw
        · simp only [parse_seq, hparsew]
        · simp [VList.req, hreqw]
      | cons x l2 =>
        obtain ⟨hgx, hgl2⟩ : goodV x = true ∧ goodL l2 = true := by
          simp only [goodL, Bool.and_eq_true] at hgl
          exact hgl
        obtain ⟨tw, w2, hlexw, hparsew, hreqw⟩ :=
          ihV w hgw (joinSeqRest (.cons x l2) ++ close :: rest) hfw
            (by simp [joinSeqRest, delimB])
        obtain ⟨cx, txc, hcx, hgoodx⟩ := fmtV_head x hgx
        obtain ⟨hwsx, hcommax, hcolonx, hrpx, hrbx, hrbrx⟩ := headGood_facts hgoodx
        have hfx : 1 + vfuel x + vfuelL l2 ≤ f := by
          have := vfuel_pos w
          simp only [vfuelL] at hf
          omega
        obtain ⟨ts, l3, hlexl, hparsel, hreql⟩ :=
          ihL x l2 hgx hgl2 close rest hfx hclose hrest
        have hcxc : cx ≠ close := by
          rcases hclose with rfl | rfl | rfl
          · exact hrpx
          · exact hrbx
          · exact hrbrx
        have hcc : close ≠ ',' := by
          rcases hclose with rfl | rfl | rfl <;> decide
        simp only [joinSeqRest] at hlexw
        rw [hcx] at hlexw
        simp only [List.cons_append, List.append_assoc] at hlexw
        rw [hcx] at hlexl
        simp only [List.cons_append, List.append_assoc] at hlexl
        have htext : fmtV w ++ (joinSeqRest (.cons x l2) ++ close :: rest)
            = fmtV w ++ (',' :: ' ' :: cx :: (txc ++ (joinSeqRest l2 ++ close :: rest))) := by
          simp only [joinSeqRest]
          rw [hcx]
          simp only [List.cons_append, List.append_assoc]
        rw [htext]
        refine ⟨.cons tw ts, .cons w2 l3, ?_, ?_, ?_⟩
        · exact lexElems_cons f close cx _ _ rest hcc hcxc hwsx hlexw hlexl
        · simp only [parse_seq, hparsew, hparsel]
        · simp only [VList.req, hreqw, Bool.true_and]
          exact hreql
    · intro k v p hgk hgv hgp rest hf hrest
      have hfk : vfuel k ≤ f := by
        have := vfuel_pos v
        omega
      obtain ⟨f0, rfl⟩ : ∃ f0, f = f0 + 1 := by
        refine ⟨f - 1, ?_⟩
        have := vfuel_pos k
        omega
      obtain ⟨tk, k2, hlexk, hparsek, hreqk⟩ :=
        ihV k hgk (':' :: ' ' :: (fmtV v ++ (joinPairsRest p ++ rbrace :: rest)))
          hfk rfl
      have hfv : vfuel v ≤ f0 + 1 := by
        have := vfuel_pos k
        omega
      cases p with
      | nil =>
        obtain ⟨tv, v2, hlexv, hparsev, hreqv⟩ :=
          ihV v hgv (rbrace :: rest) hfv (by simp [delimB])
        have hlexv2 : lexValue (f0 + 1)
            (' ' :: (fmtV v ++ (joinPairsRest .nil ++ rbrace :: rest)))
            = .ok (tv, rbrace :: rest) := by
          rw [lexValue_space]
          simp only [joinPairsRest, List.nil_append]
          exact hlexv
        refine ⟨.cons tk tv .nil, .cons k2 v2 .nil, ?_, ?_, ?_⟩
        · exact lexPairs_last (f0 + 1) _ _ rest hlexk hlexv2
        · simp only [parse_dict, hparsek, hparsev]
        · simp [VPairs.req, hreqk, hreqv]
      | cons k3 v3 p3 =>
        obtain ⟨hgk3, hgv3, hgp3⟩ : goodV k3 = true ∧ goodV v3 = true
            ∧ goodP p3 = true := by
          simp only [goodP, Bool.and_eq_true] at hgp
          tauto
        obtain ⟨tv, v2, hlexv, hparsev, hreqv⟩ :=
          ihV v hgv (joinPairsRest (.cons k3 v3 p3) ++ rbrace :: rest) hfv
            (by simp [joinPairsRest, delimB])
        have hfp3 : 1 + vfuel k3 + vfuel v3 + vfuelP p3 ≤ f0 + 1 := by
          simp only [vfuelP] at hf
          have h1 := vfuel_pos k
          have h2 := vfuel_pos v
          omega
        obtain ⟨ts, p4, hlexp, hparsep, hreqp⟩ :=
          ihP k3 v3 p3 hgk3 hgv3 hgp3 rest hfp3 hrest
        obtain ⟨ck3, tkc3, hck3, hgoodk3⟩ := fmtV_head k3 hgk3
        obtain ⟨hwsk3, hcommak3, hcolonk3, hrpk3, hrbk3, hrbrk3⟩ :=
          headGood_facts hgoodk3
        have hlexv2 : lexValue (f0 + 1)
            (' ' :: (fmtV v ++ (joinPairsRest (.cons k3 v3 p3) ++ rbrace :: rest)))
            = .ok (tv, ',' :: ' ' :: ck3
                :: (tkc3 ++ (':' :: ' ' :: (fmtV v3
                  ++ (joinPairsRest p3 ++ rbrace :: rest))))) := by
          rw [lexValue_space, hlexv]
          simp only [joinPairsRest]
          rw [hck3]
          simp only [List.cons_append, List.append_assoc]
        have hlexp2 : lexPairs (f0 + 1) (ck3 :: (tkc3 ++ (':' :: ' ' :: (fmtV v3
              ++ (joinPairsRest p3 ++ rbrace :: rest))))) = .ok (ts, rest) := by
          rw [← hlexp, hck3]
          simp only [List.cons_append, List.append_assoc]
        refine ⟨.cons tk tv ts, .cons k2 v2 p4, ?_, ?_, ?_⟩
        · exact lexPairs_cons (f0 + 1) ck3 _ _ _ rest hrbrk3 hwsk3 hlexk hlexv2 hlexp2
        · simp only [parse_dict, hparsek, hparsev, hparsep]
        · simp only [VPairs.req, hreqk, hreqv, Bool.true_and, Bool.and_self]
          exact hreqp

/-! ### Claims -/

/-- A hex digit character is not a quote, backslash or newline, and is
ASCII. -/
theorem hexDig_facts {c : Char} (h : isHexDig c = true) :
    c ≠ squote ∧ c ≠ bslash ∧ c ≠ '\n' ∧ c.toNat ≤ 127 := by
  simp only [isHexDig, isDecDig, Bool.or_eq_true, Bool.and_eq_true, decide_eq_true_eq] at h
  have hs : squote.toNat = 39 := by decide
  have hb : bslash.toNat = 92 := by decide
  have hn : ('\n').toNat = 10 := by decide
  exact ⟨char_ne_of_toNat_ne (by omega), char_ne_of_toNat_ne (by omega),
    char_ne_of_toNat_ne (by omega), by omega⟩

/-- C1: the claim states that when an integer operand cannot be cast to a
double during numeric folding, parse fails by *returning* a numeric-cast
error to the caller.  The code contradicts this (and the documentation of
`ParseError::NumericCast`): `parse_number_expr` calls `.unwrap()` on the
result of `add_numbers`/`sub_numbers` (src/parse.rs:221-223), so on the
input `10^309 + 0.5` the conversion failure panics instead of being
returned, and no input can ever make the parser return a `NumericCast`
error. -/
theorem c1_numeric_cast_panics :
    from_str (bigIntText ++ ' ' :: '+' :: ' ' :: '0' :: '.' :: '5' :: [])
        = .crash (.unwrapErr (.NumericCast (String.mk bigIntText) "f64"))
      ∧ ∀ toks r neg, isNumericCastErr (pneLoop toks r neg) = false := by
  exact ⟨by rfl, pneLoop_no_numeric_cast_err⟩

/-- C6: `parse("+-23 + 4.5 -+- -5j - 3e2 + 1.2 - 9")` succeeds and equals
the complex value whose real part is the binary64 value nearest `-326.3`
(= `-3263/10`, i.e. `roundRat true 3263 10`) and whose imaginary part is
`-5`: the left-to-right fold from `Integer(0)` with the sign-flag toggling
produces exactly this value. -/
theorem c6_numeric_fold :
    from_str "+-23 + 4.5 -+- -5j - 3e2 + 1.2 - 9".data
      = .ok (.complex ⟨roundRat true 3263 10, roundRat true 5 1⟩) := by
  rfl

/-- C7: the four radix spellings of 2346 (binary, octal, hex, decimal, with
`_` separators) all parse to `Integer(2346)`. -/
theorem c7_radix_equivalence :
    from_str "0b_1001_0010_1010".data = .ok (.integer 2346)
      ∧ from_str "0o44_52".data = .ok (.integer 2346)
      ∧ from_str "0x9_2a".data = .ok (.integer 2346)
      ∧ from_str "2_346".data = .ok (.integer 2346) := by
  exact ⟨by rfl, by rfl, by rfl, by rfl⟩

/-- C8: formatting an empty `Set` fails with the empty-set error before
writing anything (for every already-written prefix `acc`, the output is
still exactly `acc`), while formatting an empty `Dict` succeeds and yields
exactly `{}`. -/
theorem c8_empty_set_dict :
    (∀ acc, write_ascii (.set .nil) acc = .error (.EmptySet, acc))
      ∧ format_ascii (.set .nil) = .error .EmptySet
      ∧ format_ascii (.dict .nil) = .ok [lbrace, rbrace] := by
  exact ⟨fun acc => rfl, by rfl, by rfl⟩

/-- C9: parsing `{3: 'a', 1: 'b'}` yields the dict with its entries in
source order (key 3 first, then key 1, not reordered or collapsed), and
reformatting that dict reproduces exactly `{3: 'a', 1: 'b'}`. -/
theorem c9_order_preservation :
    from_str ("\x7b3: 'a', 1: 'b'\x7d".data)
        = .ok (.dict (.cons (.integer 3) (.string ['a'])
            (.cons (.integer 1) (.string ['b']) .nil)))
      ∧ format_ascii (.dict (.cons (.integer 3) (.string ['a'])
            (.cons (.integer 1) (.string ['b']) .nil)))
        = .ok ("\x7b3: 'a', 1: 'b'\x7d".data) := by
  exact ⟨by rfl, by rfl⟩

/-- C2 counterexample: the round-trip claim as stated fails at
`Value::Float(NaN)`, which contains no empty `Set`: formatting succeeds
(producing `"NaN"`), but parsing that text is a syntax error — and even
independently of the parse result, `NaN == NaN` is false under the `==`
(`PartialEq`) the claim uses. -/
theorem c2_round_trip_counterexample :
    noEmptySet (.float .nan) = true
      ∧ format_ascii (.float .nan) = .ok "NaN".data
      ∧ from_str "NaN".data = .err (.Syntax "expected a value")
      ∧ Value.req (.float .nan) (.float .nan) = false := by
  exact ⟨by rfl, by rfl, by rfl, by rfl⟩

/-- C2 (amended): the round trip does hold on the values for which both
directions can represent the data: if a value contains no empty `Set`,
every `Float`/`Complex` component is a finite (non-NaN, non-infinite)
well-formed binary64 datum, and every byte is below 256, then
`format_ascii` succeeds and parsing the produced text yields a value equal
to the original under Rust `==` (which identifies `-0.0` and `0.0`). -/
theorem c2_amended (v : Value) (hv : goodV v = true) :
    ∃ s v2, format_ascii v = .ok s ∧ from_str s = .ok v2
      ∧ Value.req v2 v = true := by
  have hw := write_ok v hv []
  have hfmt : format_ascii v = .ok (fmtV v) := by
    simp only [format_ascii, hw, List.nil_append]
  obtain ⟨t, v2, hlex, hparse, hreq⟩ :=
    (lexRound_main ((fmtV v).length + 1)).1 v hv [] (by have := vfuel_le v hv; omega) rfl
  rw [List.append_nil] at hlex
  refine ⟨fmtV v, v2, hfmt, ?_, hreq⟩
  simp only [from_str, hlex, skipWs]
  exact hparse

theorem c2_amended_witness :
    goodV (Value.dict (.cons (.integer 3) (.string ['a']) .nil)) = true
    ∧ ∃ s v2, format_ascii (Value.dict (.cons (.integer 3) (.string ['a']) .nil)) = .ok s
      ∧ from_str s = .ok v2
      ∧ Value.req v2 (Value.dict (.cons (.integer 3) (.string ['a']) .nil)) = true :=
  ⟨by decide, c2_amended (Value.dict (.cons (.integer 3) (.string ['a']) .nil)) (by decide)⟩

/-- C3 counterexample: the tab character is an ASCII control code point,
so the claim as stated requires it to be escaped as `\x09`; the formatter
passes it through raw (`'\t'` between the quotes), as its own test
expects. -/
theorem c3_counterexample :
    format_ascii (.string ['\t']) = .ok [squote, '\t', squote]
      ∧ claimedEscC3 '\t' = [bslash, 'x', '0', '9']
      ∧ (escStrChar '\t' == claimedEscC3 '\t') = false
      ∧ decide ('\t'.toNat < 32) = true := by
  exact ⟨by rfl, by rfl, by rfl, by rfl⟩

/-- C10: in a bytes literal, a `\uHHHH` sequence is *not* decoded as an
escape — for any four hex digits, the backslash, the `u` and the digits are
kept verbatim as six literal bytes — and likewise concretely for
`\UHHHHHHHH` (ten bytes); by contrast the same sequences inside a string
literal *are* decoded to the corresponding code point. -/
theorem c10_bytes_unicode_verbatim :
    (∀ h1 h2 h3 h4 : Char, isHexDig h1 = true → isHexDig h2 = true →
      isHexDig h3 = true → isHexDig h4 = true →
      from_str ('b' :: squote :: bslash :: 'u' :: h1 :: h2 :: h3 :: h4 :: [squote])
        = .ok (.bytes [92, 117, h1.toNat, h2.toNat, h3.toNat, h4.toNat]))
      ∧ from_str "b'\\U00031234'".data
          = .ok (.bytes [92, 85, 48, 48, 48, 51, 49, 50, 51, 52])
      ∧ from_str "'\\u1234'".data = .ok (.string [Char.ofNat 0x1234])
      ∧ from_str "'\\U00031234'".data = .ok (.string [Char.ofNat 0x31234]) := by
  refine ⟨?_, by rfl, by rfl, by rfl⟩
  intro h1 h2 h3 h4 e1 e2 e3 e4
  obtain ⟨a1, b1, c1, d1⟩ := hexDig_facts e1
  obtain ⟨a2, b2, c2, d2⟩ := hexDig_facts e2
  obtain ⟨a3, b3, c3, d3⟩ := hexDig_facts e3
  obtain ⟨a4, b4, c4, d4⟩ := hexDig_facts e4
  have q1 : 'b' ≠ squote := by decide
  have q2 : 'b' ≠ '"' := by decide
  have q3 : bslash ≠ squote := by decide
  have q4 : 'u' ≠ bslash := by decide
  have q5 : 'u' ≠ squote := by decide
  have q6 : 'u' ≠ '"' := by decide
  have q7 : isOctDig 'u' = false := by decide
  have q8 : squote ≠ bslash := by decide
  have q9 : ('u' : Char) ≠ 'x' := by decide
  have q10 : bslash.toNat = 92 := by decide
  have q11 : ('u' : Char).toNat = 117 := by decide
  simp [from_str, lexValue, lexBytItems, skipWs, isWsCh, consFst, Outcome.map,
    a1, b1, c1, d1, a2, b2, c2, d2, a3, b3, c3, d3, a4, b4, c4, d4,
    q1, q2, q3, q4, q5, q6, q7, q8, q9, q10, q11,
    parse_value, parse_bytes, parse_bytes_escape_seq, bind, pure]

/-- C10 witness: the universal part applied at the concrete digits `1234`,
together with the evaluated result. -/
theorem c10_witness :
    from_str ('b' :: squote :: bslash :: 'u' :: '1' :: '2' :: '3' :: '4' :: [squote])
      = .ok (.bytes [92, 117, 49, 50, 51, 52]) :=
  c10_bytes_unicode_verbatim.1 '1' '2' '3' '4' (by decide) (by decide) (by decide) (by decide)

/-- C4 counterexample: formatting `Complex(1, 3)` yields `"1+3j"`, with the
parts in plain (`Display`) notation, whereas the claim's rendering — each
part per the `Float` rule, i.e. always scientific — would be
`"1e0+3e0j"` (and the `Float` rule itself renders `1.0` as `"1e0"`). -/
theorem c4_counterexample :
    format_ascii (.complex ⟨.finite 1 0, .finite 3 0⟩) = .ok "1+3j".data
      ∧ claimedComplexC4 ⟨.finite 1 0, .finite 3 0⟩ = "1e0+3e0j".data
      ∧ ("1+3j".data == "1e0+3e0j".data) = false
      ∧ format_ascii (.float (.finite 1 0)) = .ok "1e0".data := by
  exact ⟨by rfl, by rfl, by rfl, by rfl⟩

/-- C3 (amended): formatting a `String` writes a quote, then each character
escaped by the amended rule — backslash, CR, LF and quote as two-character
escapes, **every other ASCII character (control characters included) raw**,
and every non-ASCII code point as `\xHH`/`\uHHHH`/`\UHHHHHHHH` by
magnitude — then a closing quote. -/
theorem c3_amended (s : List Char) :
    format_ascii (.string s) = .ok (squote :: s.flatMap amendedEscC3 ++ [squote])
      ∧ ∀ c, escStrChar c = amendedEscC3 c := by
  have h : s.flatMap escStrChar = s.flatMap amendedEscC3 := by
    induction s with
    | nil => rfl
    | cons c rest ih => simp [List.flatMap_cons, escStrChar_eq_amended, ih]
  refine ⟨?_, escStrChar_eq_amended⟩
  rw [← h]
  simp [format_ascii, write_ascii]

/-- C5: whenever `format_ascii` succeeds, every character of the produced
text is ASCII — the internal assertion justifying the unchecked UTF-8
conversion holds for every `Value`. -/
theorem c5_ascii_output (v : Value) (s : List Char) (h : format_ascii v = .ok s) :
    asciiP s := by
  rcases write_shape v with ⟨out, ho, hw⟩ | ⟨hg, e, hw⟩
  · unfold format_ascii at h
    rw [hw []] at h
    simp only [List.nil_append] at h
    cases h
    exact ho
  · obtain ⟨p, hp⟩ := hw []
    unfold format_ascii at h
    rw [hp] at h
    cases h

/-- C5 witness: the theorem applied at `Complex(1, 3)`, whose formatting
succeeds with the ASCII text `1+3j`. -/
theorem c5_witness : asciiP "1+3j".data :=
  c5_ascii_output (.complex ⟨.finite 1 0, .finite 3 0⟩) "1+3j".data (by rfl)

/-- C4 (amended): formatting a `Complex` writes the real part in plain
`Display` notation, then the imaginary part rendered with `{:+}` — an
explicit leading sign for every number (`+` when the sign bit is clear,
`-` when set), but *no* sign for NaN, which renders as the bare `NaN` —
then a trailing `j`; the parts are *not* rendered per the `Float` arm's
scientific rule.  In particular `Complex(1, NaN)` formats as `1NaNj`. -/
theorem c4_amended (re im : F64) :
    format_ascii (.complex ⟨re, im⟩) = .ok (fmtDisplay re ++ fmtDisplayPlus im ++ ['j'])
      ∧ fmtDisplayPlus im = (if im = .nan then fmtDisplay im
          else if negSign im then fmtDisplay im else '+' :: fmtDisplay im)
      ∧ (fmtDisplayPlus im).head?
          = some (if im = .nan then 'N' else if negSign im then '-' else '+')
      ∧ format_ascii (.complex ⟨.finite 1 0, .nan⟩) = .ok "1NaNj".data := by
  exact ⟨by rfl, fmtDisplayPlus_eq im, fmtDisplayPlus_head im, by rfl⟩

end PyLit
